import Mathlib

/-!
# BioBloom categorizer: k-mer canonicalizer and per-read classifier

A shallow embedding of `Common/ReadsProcessor.cpp` and of the evaluation
routines of `BioBloomCategorizer/BioBloomClassifier.cpp`, with the properties
of the specification proved (or refuted) over it.

Conventions of the embedding:
* a `std::string` is a `List Byte`; `unsigned char` buffers are `List Nat`
  holding values below 256;
* `size_t` indices are natural numbers; the post-decrement wraps at zero
  (`decSize`), increments never reach `SIZE_MAX` on a real string;
* a call ends in `Except.ok none` (the C++ `NULL`), `Except.ok (some buf)`
  (pointer to a buffer with these contents) or `Except.error` when the run
  touches memory outside a buffer, or exceeds the iteration budget.
-/

set_option autoImplicit false

namespace BioBloom

/-! ## Machine-level helpers -/

/-- One `char` of a `std::string`, seen through `static_cast<unsigned char>`. -/
abbrev Byte := Fin 256

/-- Ways a run can fail to produce a C++ value. -/
inductive Fault where
  | outOfBounds
  | outOfFuel
  deriving DecidableEq, Repr

/-- Result of running a piece of the program. -/
abbrev Exec := Except Fault

/-- Equality of run results is decidable. -/
instance instDecidableEqExec {α : Type} [DecidableEq α] : DecidableEq (Exec α)
  | Except.ok a, Except.ok b =>
    if h : a = b then isTrue (congrArg Except.ok h)
    else isFalse (fun h2 => h (Except.ok.inj h2))
  | Except.error a, Except.error b =>
    if h : a = b then isTrue (congrArg Except.error h)
    else isFalse (fun h2 => h (Except.error.inj h2))
  | Except.ok _, Except.error _ => isFalse (fun h => Except.noConfusion h)
  | Except.error _, Except.ok _ => isFalse (fun h => Except.noConfusion h)

/-- Largest `size_t` of the 64-bit target. -/
def sizeMax : Nat := 2 ^ 64 - 1

/-- The `size_t` decrement `x--`, wrapping below zero. -/
def decSize (x : Nat) : Nat := if x = 0 then sizeMax else x - 1

/-- The `size_t` increment `x++` (a string index never reaches `SIZE_MAX`). -/
def incSize (x : Nat) : Nat := x + 1

/-- Read `sequence[i]`; `std::string` yields the terminating NUL at
`i = size()` and has no element beyond. -/
def charAt (sequence : List Byte) (i : Nat) : Exec Byte :=
  if h : i < sequence.length then pure sequence[i]
  else if i = sequence.length then pure 0
  else throw Fault.outOfBounds

/-- Read `buf[i]` of a heap buffer. -/
def readAt (buf : List Nat) (i : Nat) : Exec Nat :=
  if h : i < buf.length then pure buf[i] else throw Fault.outOfBounds

/-- Store `buf[i] = v` into a heap buffer. -/
def writeAt (buf : List Nat) (i v : Nat) : Exec (List Nat) :=
  if i < buf.length then pure (buf.set i v) else throw Fault.outOfBounds

/-- The statement `buf[i] |= v`. -/
def orAt (buf : List Nat) (i v : Nat) : Exec (List Nat) := do
  let b ← readAt buf i
  writeAt buf i (b ||| v)

/-- The call `memset(buf, 0, n)`. -/
def memsetZero (buf : List Nat) (n : Nat) : Exec (List Nat) :=
  if n ≤ buf.length then pure (List.replicate n 0 ++ buf.drop n)
  else throw Fault.outOfBounds

/-! ## Lookup tables of `ReadsProcessor.cpp` -/

/-- Lookup table fw3 of ReadsProcessor.cpp, all 256 entries in source order. -/
def fw3 : List Nat := [
  0xFF, 0xFF, 0xFF, 0xFF, 0xFF, 0xFF, 0xFF, 0xFF, 0xFF, 0xFF, 0xFF, 0xFF, 0xFF, 0xFF, 0xFF, 0xFF,
  0xFF, 0xFF, 0xFF, 0xFF, 0xFF, 0xFF, 0xFF, 0xFF, 0xFF, 0xFF, 0xFF, 0xFF, 0xFF, 0xFF, 0xFF, 0xFF,
  0xFF, 0xFF, 0xFF, 0xFF, 0xFF, 0xFF, 0xFF, 0xFF, 0xFF, 0xFF, 0xFF, 0xFF, 0xFF, 0xFF, 0xFF, 0xFF,
  0xFF, 0xFF, 0xFF, 0xFF, 0xFF, 0xFF, 0xFF, 0xFF, 0xFF, 0xFF, 0xFF, 0xFF, 0xFF, 0xFF, 0xFF, 0xFF,
  0xFF, 0x00, 0xFF, 0x01, 0xFF, 0xFF, 0xFF, 0x02, 0xFF, 0xFF, 0xFF, 0xFF, 0xFF, 0xFF, 0xFF, 0xFF,
  0xFF, 0xFF, 0xFF, 0xFF, 0x03, 0xFF, 0xFF, 0xFF, 0xFF, 0xFF, 0xFF, 0xFF, 0xFF, 0xFF, 0xFF, 0xFF,
  0xFF, 0x00, 0xFF, 0x01, 0xFF, 0xFF, 0xFF, 0x02, 0xFF, 0xFF, 0xFF, 0xFF, 0xFF, 0xFF, 0xFF, 0xFF,
  0xFF, 0xFF, 0xFF, 0xFF, 0x03, 0xFF, 0xFF, 0xFF, 0xFF, 0xFF, 0xFF, 0xFF, 0xFF, 0xFF, 0xFF, 0xFF,
  0xFF, 0xFF, 0xFF, 0xFF, 0xFF, 0xFF, 0xFF, 0xFF, 0xFF, 0xFF, 0xFF, 0xFF, 0xFF, 0xFF, 0xFF, 0xFF,
  0xFF, 0xFF, 0xFF, 0xFF, 0xFF, 0xFF, 0xFF, 0xFF, 0xFF, 0xFF, 0xFF, 0xFF, 0xFF, 0xFF, 0xFF, 0xFF,
  0xFF, 0xFF, 0xFF, 0xFF, 0xFF, 0xFF, 0xFF, 0xFF, 0xFF, 0xFF, 0xFF, 0xFF, 0xFF, 0xFF, 0xFF, 0xFF,
  0xFF, 0xFF, 0xFF, 0xFF, 0xFF, 0xFF, 0xFF, 0xFF, 0xFF, 0xFF, 0xFF, 0xFF, 0xFF, 0xFF, 0xFF, 0xFF,
  0xFF, 0xFF, 0xFF, 0xFF, 0xFF, 0xFF, 0xFF, 0xFF, 0xFF, 0xFF, 0xFF, 0xFF, 0xFF, 0xFF, 0xFF, 0xFF,
  0xFF, 0xFF, 0xFF, 0xFF, 0xFF, 0xFF, 0xFF, 0xFF, 0xFF, 0xFF, 0xFF, 0xFF, 0xFF, 0xFF, 0xFF, 0xFF,
  0xFF, 0xFF, 0xFF, 0xFF, 0xFF, 0xFF, 0xFF, 0xFF, 0xFF, 0xFF, 0xFF, 0xFF, 0xFF, 0xFF, 0xFF, 0xFF,
  0xFF, 0xFF, 0xFF, 0xFF, 0xFF, 0xFF, 0xFF, 0xFF, 0xFF, 0xFF, 0xFF, 0xFF, 0xFF, 0xFF, 0xFF, 0xFF]

/-- Lookup table fw2 of ReadsProcessor.cpp, all 256 entries in source order. -/
def fw2 : List Nat := [
  0xFF, 0xFF, 0xFF, 0xFF, 0xFF, 0xFF, 0xFF, 0xFF, 0xFF, 0xFF, 0xFF, 0xFF, 0xFF, 0xFF, 0xFF, 0xFF,
  0xFF, 0xFF, 0xFF, 0xFF, 0xFF, 0xFF, 0xFF, 0xFF, 0xFF, 0xFF, 0xFF, 0xFF, 0xFF, 0xFF, 0xFF, 0xFF,
  0xFF, 0xFF, 0xFF, 0xFF, 0xFF, 0xFF, 0xFF, 0xFF, 0xFF, 0xFF, 0xFF, 0xFF, 0xFF, 0xFF, 0xFF, 0xFF,
  0xFF, 0xFF, 0xFF, 0xFF, 0xFF, 0xFF, 0xFF, 0xFF, 0xFF, 0xFF, 0xFF, 0xFF, 0xFF, 0xFF, 0xFF, 0xFF,
  0xFF, 0x00, 0xFF, 0x04, 0xFF, 0xFF, 0xFF, 0x08, 0xFF, 0xFF, 0xFF, 0xFF, 0xFF, 0xFF, 0xFF, 0xFF,
  0xFF, 0xFF, 0xFF, 0xFF, 0x0C, 0xFF, 0xFF, 0xFF, 0xFF, 0xFF, 0xFF, 0xFF, 0xFF, 0xFF, 0xFF, 0xFF,
  0xFF, 0x00, 0xFF, 0x04, 0xFF, 0xFF, 0xFF, 0x08, 0xFF, 0xFF, 0xFF, 0xFF, 0xFF, 0xFF, 0xFF, 0xFF,
  0xFF, 0xFF, 0xFF, 0xFF, 0x0C, 0xFF, 0xFF, 0xFF, 0xFF, 0xFF, 0xFF, 0xFF, 0xFF, 0xFF, 0xFF, 0xFF,
  0xFF, 0xFF, 0xFF, 0xFF, 0xFF, 0xFF, 0xFF, 0xFF, 0xFF, 0xFF, 0xFF, 0xFF, 0xFF, 0xFF, 0xFF, 0xFF,
  0xFF, 0xFF, 0xFF, 0xFF, 0xFF, 0xFF, 0xFF, 0xFF, 0xFF, 0xFF, 0xFF, 0xFF, 0xFF, 0xFF, 0xFF, 0xFF,
  0xFF, 0xFF, 0xFF, 0xFF, 0xFF, 0xFF, 0xFF, 0xFF, 0xFF, 0xFF, 0xFF, 0xFF, 0xFF, 0xFF, 0xFF, 0xFF,
  0xFF, 0xFF, 0xFF, 0xFF, 0xFF, 0xFF, 0xFF, 0xFF, 0xFF, 0xFF, 0xFF, 0xFF, 0xFF, 0xFF, 0xFF, 0xFF,
  0xFF, 0xFF, 0xFF, 0xFF, 0xFF, 0xFF, 0xFF, 0xFF, 0xFF, 0xFF, 0xFF, 0xFF, 0xFF, 0xFF, 0xFF, 0xFF,
  0xFF, 0xFF, 0xFF, 0xFF, 0xFF, 0xFF, 0xFF, 0xFF, 0xFF, 0xFF, 0xFF, 0xFF, 0xFF, 0xFF, 0xFF, 0xFF,
  0xFF, 0xFF, 0xFF, 0xFF, 0xFF, 0xFF, 0xFF, 0xFF, 0xFF, 0xFF, 0xFF, 0xFF, 0xFF, 0xFF, 0xFF, 0xFF,
  0xFF, 0xFF, 0xFF, 0xFF, 0xFF, 0xFF, 0xFF, 0xFF, 0xFF, 0xFF, 0xFF, 0xFF, 0xFF, 0xFF, 0xFF, 0xFF]

/-- Lookup table fw1 of ReadsProcessor.cpp, all 256 entries in source order. -/
def fw1 : List Nat := [
  0xFF, 0xFF, 0xFF, 0xFF, 0xFF, 0xFF, 0xFF, 0xFF, 0xFF, 0xFF, 0xFF, 0xFF, 0xFF, 0xFF, 0xFF, 0xFF,
  0xFF, 0xFF, 0xFF, 0xFF, 0xFF, 0xFF, 0xFF, 0xFF, 0xFF, 0xFF, 0xFF, 0xFF, 0xFF, 0xFF, 0xFF, 0xFF,
  0xFF, 0xFF, 0xFF, 0xFF, 0xFF, 0xFF, 0xFF, 0xFF, 0xFF, 0xFF, 0xFF, 0xFF, 0xFF, 0xFF, 0xFF, 0xFF,
  0xFF, 0xFF, 0xFF, 0xFF, 0xFF, 0xFF, 0xFF, 0xFF, 0xFF, 0xFF, 0xFF, 0xFF, 0xFF, 0xFF, 0xFF, 0xFF,
  0xFF, 0x00, 0xFF, 0x10, 0xFF, 0xFF, 0xFF, 0x20, 0xFF, 0xFF, 0xFF, 0xFF, 0xFF, 0xFF, 0xFF, 0xFF,
  0xFF, 0xFF, 0xFF, 0xFF, 0x30, 0xFF, 0xFF, 0xFF, 0xFF, 0xFF, 0xFF, 0xFF, 0xFF, 0xFF, 0xFF, 0xFF,
  0xFF, 0x00, 0xFF, 0x10, 0xFF, 0xFF, 0xFF, 0x20, 0xFF, 0xFF, 0xFF, 0xFF, 0xFF, 0xFF, 0xFF, 0xFF,
  0xFF, 0xFF, 0xFF, 0xFF, 0x30, 0xFF, 0xFF, 0xFF, 0xFF, 0xFF, 0xFF, 0xFF, 0xFF, 0xFF, 0xFF, 0xFF,
  0xFF, 0xFF, 0xFF, 0xFF, 0xFF, 0xFF, 0xFF, 0xFF, 0xFF, 0xFF, 0xFF, 0xFF, 0xFF, 0xFF, 0xFF, 0xFF,
  0xFF, 0xFF, 0xFF, 0xFF, 0xFF, 0xFF, 0xFF, 0xFF, 0xFF, 0xFF, 0xFF, 0xFF, 0xFF, 0xFF, 0xFF, 0xFF,
  0xFF, 0xFF, 0xFF, 0xFF, 0xFF, 0xFF, 0xFF, 0xFF, 0xFF, 0xFF, 0xFF, 0xFF, 0xFF, 0xFF, 0xFF, 0xFF,
  0xFF, 0xFF, 0xFF, 0xFF, 0xFF, 0xFF, 0xFF, 0xFF, 0xFF, 0xFF, 0xFF, 0xFF, 0xFF, 0xFF, 0xFF, 0xFF,
  0xFF, 0xFF, 0xFF, 0xFF, 0xFF, 0xFF, 0xFF, 0xFF, 0xFF, 0xFF, 0xFF, 0xFF, 0xFF, 0xFF, 0xFF, 0xFF,
  0xFF, 0xFF, 0xFF, 0xFF, 0xFF, 0xFF, 0xFF, 0xFF, 0xFF, 0xFF, 0xFF, 0xFF, 0xFF, 0xFF, 0xFF, 0xFF,
  0xFF, 0xFF, 0xFF, 0xFF, 0xFF, 0xFF, 0xFF, 0xFF, 0xFF, 0xFF, 0xFF, 0xFF, 0xFF, 0xFF, 0xFF, 0xFF,
  0xFF, 0xFF, 0xFF, 0xFF, 0xFF, 0xFF, 0xFF, 0xFF, 0xFF, 0xFF, 0xFF, 0xFF, 0xFF, 0xFF, 0xFF, 0xFF]

/-- Lookup table fw0 of ReadsProcessor.cpp, all 256 entries in source order. -/
def fw0 : List Nat := [
  0xFF, 0xFF, 0xFF, 0xFF, 0xFF, 0xFF, 0xFF, 0xFF, 0xFF, 0xFF, 0xFF, 0xFF, 0xFF, 0xFF, 0xFF, 0xFF,
  0xFF, 0xFF, 0xFF, 0xFF, 0xFF, 0xFF, 0xFF, 0xFF, 0xFF, 0xFF, 0xFF, 0xFF, 0xFF, 0xFF, 0xFF, 0xFF,
  0xFF, 0xFF, 0xFF, 0xFF, 0xFF, 0xFF, 0xFF, 0xFF, 0xFF, 0xFF, 0xFF, 0xFF, 0xFF, 0xFF, 0xFF, 0xFF,
  0xFF, 0xFF, 0xFF, 0xFF, 0xFF, 0xFF, 0xFF, 0xFF, 0xFF, 0xFF, 0xFF, 0xFF, 0xFF, 0xFF, 0xFF, 0xFF,
  0xFF, 0x00, 0xFF, 0x40, 0xFF, 0xFF, 0xFF, 0x80, 0xFF, 0xFF, 0xFF, 0xFF, 0xFF, 0xFF, 0xFF, 0xFF,
  0xFF, 0xFF, 0xFF, 0xFF, 0xC0, 0xFF, 0xFF, 0xFF, 0xFF, 0xFF, 0xFF, 0xFF, 0xFF, 0xFF, 0xFF, 0xFF,
  0xFF, 0x00, 0xFF, 0x40, 0xFF, 0xFF, 0xFF, 0x80, 0xFF, 0xFF, 0xFF, 0xFF, 0xFF, 0xFF, 0xFF, 0xFF,
  0xFF, 0xFF, 0xFF, 0xFF, 0xC0, 0xFF, 0xFF, 0xFF, 0xFF, 0xFF, 0xFF, 0xFF, 0xFF, 0xFF, 0xFF, 0xFF,
  0xFF, 0xFF, 0xFF, 0xFF, 0xFF, 0xFF, 0xFF, 0xFF, 0xFF, 0xFF, 0xFF, 0xFF, 0xFF, 0xFF, 0xFF, 0xFF,
  0xFF, 0xFF, 0xFF, 0xFF, 0xFF, 0xFF, 0xFF, 0xFF, 0xFF, 0xFF, 0xFF, 0xFF, 0xFF, 0xFF, 0xFF, 0xFF,
  0xFF, 0xFF, 0xFF, 0xFF, 0xFF, 0xFF, 0xFF, 0xFF, 0xFF, 0xFF, 0xFF, 0xFF, 0xFF, 0xFF, 0xFF, 0xFF,
  0xFF, 0xFF, 0xFF, 0xFF, 0xFF, 0xFF, 0xFF, 0xFF, 0xFF, 0xFF, 0xFF, 0xFF, 0xFF, 0xFF, 0xFF, 0xFF,
  0xFF, 0xFF, 0xFF, 0xFF, 0xFF, 0xFF, 0xFF, 0xFF, 0xFF, 0xFF, 0xFF, 0xFF, 0xFF, 0xFF, 0xFF, 0xFF,
  0xFF, 0xFF, 0xFF, 0xFF, 0xFF, 0xFF, 0xFF, 0xFF, 0xFF, 0xFF, 0xFF, 0xFF, 0xFF, 0xFF, 0xFF, 0xFF,
  0xFF, 0xFF, 0xFF, 0xFF, 0xFF, 0xFF, 0xFF, 0xFF, 0xFF, 0xFF, 0xFF, 0xFF, 0xFF, 0xFF, 0xFF, 0xFF,
  0xFF, 0xFF, 0xFF, 0xFF, 0xFF, 0xFF, 0xFF, 0xFF, 0xFF, 0xFF, 0xFF, 0xFF, 0xFF, 0xFF, 0xFF, 0xFF]

/-- Lookup table rv3 of ReadsProcessor.cpp, all 256 entries in source order. -/
def rv3 : List Nat := [
  0xFF, 0xFF, 0xFF, 0xFF, 0xFF, 0xFF, 0xFF, 0xFF, 0xFF, 0xFF, 0xFF, 0xFF, 0xFF, 0xFF, 0xFF, 0xFF,
  0xFF, 0xFF, 0xFF, 0xFF, 0xFF, 0xFF, 0xFF, 0xFF, 0xFF, 0xFF, 0xFF, 0xFF, 0xFF, 0xFF, 0xFF, 0xFF,
  0xFF, 0xFF, 0xFF, 0xFF, 0xFF, 0xFF, 0xFF, 0xFF, 0xFF, 0xFF, 0xFF, 0xFF, 0xFF, 0xFF, 0xFF, 0xFF,
  0xFF, 0xFF, 0xFF, 0xFF, 0xFF, 0xFF, 0xFF, 0xFF, 0xFF, 0xFF, 0xFF, 0xFF, 0xFF, 0xFF, 0xFF, 0xFF,
  0xFF, 0x03, 0xFF, 0x02, 0xFF, 0xFF, 0xFF, 0x01, 0xFF, 0xFF, 0xFF, 0xFF, 0xFF, 0xFF, 0xFF, 0xFF,
  0xFF, 0xFF, 0xFF, 0xFF, 0x00, 0xFF, 0xFF, 0xFF, 0xFF, 0xFF, 0xFF, 0xFF, 0xFF, 0xFF, 0xFF, 0xFF,
  0xFF, 0x03, 0xFF, 0x02, 0xFF, 0xFF, 0xFF, 0x01, 0xFF, 0xFF, 0xFF, 0xFF, 0xFF, 0xFF, 0xFF, 0xFF,
  0xFF, 0xFF, 0xFF, 0xFF, 0x00, 0xFF, 0xFF, 0xFF, 0xFF, 0xFF, 0xFF, 0xFF, 0xFF, 0xFF, 0xFF, 0xFF,
  0xFF, 0xFF, 0xFF, 0xFF, 0xFF, 0xFF, 0xFF, 0xFF, 0xFF, 0xFF, 0xFF, 0xFF, 0xFF, 0xFF, 0xFF, 0xFF,
  0xFF, 0xFF, 0xFF, 0xFF, 0xFF, 0xFF, 0xFF, 0xFF, 0xFF, 0xFF, 0xFF, 0xFF, 0xFF, 0xFF, 0xFF, 0xFF,
  0xFF, 0xFF, 0xFF, 0xFF, 0xFF, 0xFF, 0xFF, 0xFF, 0xFF, 0xFF, 0xFF, 0xFF, 0xFF, 0xFF, 0xFF, 0xFF,
  0xFF, 0xFF, 0xFF, 0xFF, 0xFF, 0xFF, 0xFF, 0xFF, 0xFF, 0xFF, 0xFF, 0xFF, 0xFF, 0xFF, 0xFF, 0xFF,
  0xFF, 0xFF, 0xFF, 0xFF, 0xFF, 0xFF, 0xFF, 0xFF, 0xFF, 0xFF, 0xFF, 0xFF, 0xFF, 0xFF, 0xFF, 0xFF,
  0xFF, 0xFF, 0xFF, 0xFF, 0xFF, 0xFF, 0xFF, 0xFF, 0xFF, 0xFF, 0xFF, 0xFF, 0xFF, 0xFF, 0xFF, 0xFF,
  0xFF, 0xFF, 0xFF, 0xFF, 0xFF, 0xFF, 0xFF, 0xFF, 0xFF, 0xFF, 0xFF, 0xFF, 0xFF, 0xFF, 0xFF, 0xFF,
  0xFF, 0xFF, 0xFF, 0xFF, 0xFF, 0xFF, 0xFF, 0xFF, 0xFF, 0xFF, 0xFF, 0xFF, 0xFF, 0xFF, 0xFF, 0xFF]

/-- Lookup table rv2 of ReadsProcessor.cpp, all 256 entries in source order. -/
def rv2 : List Nat := [
  0xFF, 0xFF, 0xFF, 0xFF, 0xFF, 0xFF, 0xFF, 0xFF, 0xFF, 0xFF, 0xFF, 0xFF, 0xFF, 0xFF, 0xFF, 0xFF,
  0xFF, 0xFF, 0xFF, 0xFF, 0xFF, 0xFF, 0xFF, 0xFF, 0xFF, 0xFF, 0xFF, 0xFF, 0xFF, 0xFF, 0xFF, 0xFF,
  0xFF, 0xFF, 0xFF, 0xFF, 0xFF, 0xFF, 0xFF, 0xFF, 0xFF, 0xFF, 0xFF, 0xFF, 0xFF, 0xFF, 0xFF, 0xFF,
  0xFF, 0xFF, 0xFF, 0xFF, 0xFF, 0xFF, 0xFF, 0xFF, 0xFF, 0xFF, 0xFF, 0xFF, 0xFF, 0xFF, 0xFF, 0xFF,
  0xFF, 0x0C, 0xFF, 0x08, 0xFF, 0xFF, 0xFF, 0x04, 0xFF, 0xFF, 0xFF, 0xFF, 0xFF, 0xFF, 0xFF, 0xFF,
  0xFF, 0xFF, 0xFF, 0xFF, 0x00, 0xFF, 0xFF, 0xFF, 0xFF, 0xFF, 0xFF, 0xFF, 0xFF, 0xFF, 0xFF, 0xFF,
  0xFF, 0x0C, 0xFF, 0x08, 0xFF, 0xFF, 0xFF, 0x04, 0xFF, 0xFF, 0xFF, 0xFF, 0xFF, 0xFF, 0xFF, 0xFF,
  0xFF, 0xFF, 0xFF, 0xFF, 0x00, 0xFF, 0xFF, 0xFF, 0xFF, 0xFF, 0xFF, 0xFF, 0xFF, 0xFF, 0xFF, 0xFF,
  0xFF, 0xFF, 0xFF, 0xFF, 0xFF, 0xFF, 0xFF, 0xFF, 0xFF, 0xFF, 0xFF, 0xFF, 0xFF, 0xFF, 0xFF, 0xFF,
  0xFF, 0xFF, 0xFF, 0xFF, 0xFF, 0xFF, 0xFF, 0xFF, 0xFF, 0xFF, 0xFF, 0xFF, 0xFF, 0xFF, 0xFF, 0xFF,
  0xFF, 0xFF, 0xFF, 0xFF, 0xFF, 0xFF, 0xFF, 0xFF, 0xFF, 0xFF, 0xFF, 0xFF, 0xFF, 0xFF, 0xFF, 0xFF,
  0xFF, 0xFF, 0xFF, 0xFF, 0xFF, 0xFF, 0xFF, 0xFF, 0xFF, 0xFF, 0xFF, 0xFF, 0xFF, 0xFF, 0xFF, 0xFF,
  0xFF, 0xFF, 0xFF, 0xFF, 0xFF, 0xFF, 0xFF, 0xFF, 0xFF, 0xFF, 0xFF, 0xFF, 0xFF, 0xFF, 0xFF, 0xFF,
  0xFF, 0xFF, 0xFF, 0xFF, 0xFF, 0xFF, 0xFF, 0xFF, 0xFF, 0xFF, 0xFF, 0xFF, 0xFF, 0xFF, 0xFF, 0xFF,
  0xFF, 0xFF, 0xFF, 0xFF, 0xFF, 0xFF, 0xFF, 0xFF, 0xFF, 0xFF, 0xFF, 0xFF, 0xFF, 0xFF, 0xFF, 0xFF,
  0xFF, 0xFF, 0xFF, 0xFF, 0xFF, 0xFF, 0xFF, 0xFF, 0xFF, 0xFF, 0xFF, 0xFF, 0xFF, 0xFF, 0xFF, 0xFF]

/-- Lookup table rv1 of ReadsProcessor.cpp, all 256 entries in source order. -/
def rv1 : List Nat := [
  0xFF, 0xFF, 0xFF, 0xFF, 0xFF, 0xFF, 0xFF, 0xFF, 0xFF, 0xFF, 0xFF, 0xFF, 0xFF, 0xFF, 0xFF, 0xFF,
  0xFF, 0xFF, 0xFF, 0xFF, 0xFF, 0xFF, 0xFF, 0xFF, 0xFF, 0xFF, 0xFF, 0xFF, 0xFF, 0xFF, 0xFF, 0xFF,
  0xFF, 0xFF, 0xFF, 0xFF, 0xFF, 0xFF, 0xFF, 0xFF, 0xFF, 0xFF, 0xFF, 0xFF, 0xFF, 0xFF, 0xFF, 0xFF,
  0xFF, 0xFF, 0xFF, 0xFF, 0xFF, 0xFF, 0xFF, 0xFF, 0xFF, 0xFF, 0xFF, 0xFF, 0xFF, 0xFF, 0xFF, 0xFF,
  0xFF, 0x30, 0xFF, 0x20, 0xFF, 0xFF, 0xFF, 0x10, 0xFF, 0xFF, 0xFF, 0xFF, 0xFF, 0xFF, 0xFF, 0xFF,
  0xFF, 0xFF, 0xFF, 0xFF, 0x00, 0xFF, 0xFF, 0xFF, 0xFF, 0xFF, 0xFF, 0xFF, 0xFF, 0xFF, 0xFF, 0xFF,
  0xFF, 0x30, 0xFF, 0x20, 0xFF, 0xFF, 0xFF, 0x10, 0xFF, 0xFF, 0xFF, 0xFF, 0xFF, 0xFF, 0xFF, 0xFF,
  0xFF, 0xFF, 0xFF, 0xFF, 0x00, 0xFF, 0xFF, 0xFF, 0xFF, 0xFF, 0xFF, 0xFF, 0xFF, 0xFF, 0xFF, 0xFF,
  0xFF, 0xFF, 0xFF, 0xFF, 0xFF, 0xFF, 0xFF, 0xFF, 0xFF, 0xFF, 0xFF, 0xFF, 0xFF, 0xFF, 0xFF, 0xFF,
  0xFF, 0xFF, 0xFF, 0xFF, 0xFF, 0xFF, 0xFF, 0xFF, 0xFF, 0xFF, 0xFF, 0xFF, 0xFF, 0xFF, 0xFF, 0xFF,
  0xFF, 0xFF, 0xFF, 0xFF, 0xFF, 0xFF, 0xFF, 0xFF, 0xFF, 0xFF, 0xFF, 0xFF, 0xFF, 0xFF, 0xFF, 0xFF,
  0xFF, 0xFF, 0xFF, 0xFF, 0xFF, 0xFF, 0xFF, 0xFF, 0xFF, 0xFF, 0xFF, 0xFF, 0xFF, 0xFF, 0xFF, 0xFF,
  0xFF, 0xFF, 0xFF, 0xFF, 0xFF, 0xFF, 0xFF, 0xFF, 0xFF, 0xFF, 0xFF, 0xFF, 0xFF, 0xFF, 0xFF, 0xFF,
  0xFF, 0xFF, 0xFF, 0xFF, 0xFF, 0xFF, 0xFF, 0xFF, 0xFF, 0xFF, 0xFF, 0xFF, 0xFF, 0xFF, 0xFF, 0xFF,
  0xFF, 0xFF, 0xFF, 0xFF, 0xFF, 0xFF, 0xFF, 0xFF, 0xFF, 0xFF, 0xFF, 0xFF, 0xFF, 0xFF, 0xFF, 0xFF,
  0xFF, 0xFF, 0xFF, 0xFF, 0xFF, 0xFF, 0xFF, 0xFF, 0xFF, 0xFF, 0xFF, 0xFF, 0xFF, 0xFF, 0xFF, 0xFF]

/-- Lookup table rv0 of ReadsProcessor.cpp, all 256 entries in source order. -/
def rv0 : List Nat := [
  0xFF, 0xFF, 0xFF, 0xFF, 0xFF, 0xFF, 0xFF, 0xFF, 0xFF, 0xFF, 0xFF, 0xFF, 0xFF, 0xFF, 0xFF, 0xFF,
  0xFF, 0xFF, 0xFF, 0xFF, 0xFF, 0xFF, 0xFF, 0xFF, 0xFF, 0xFF, 0xFF, 0xFF, 0xFF, 0xFF, 0xFF, 0xFF,
  0xFF, 0xFF, 0xFF, 0xFF, 0xFF, 0xFF, 0xFF, 0xFF, 0xFF, 0xFF, 0xFF, 0xFF, 0xFF, 0xFF, 0xFF, 0xFF,
  0xFF, 0xFF, 0xFF, 0xFF, 0xFF, 0xFF, 0xFF, 0xFF, 0xFF, 0xFF, 0xFF, 0xFF, 0xFF, 0xFF, 0xFF, 0xFF,
  0xFF, 0xC0, 0xFF, 0x80, 0xFF, 0xFF, 0xFF, 0x40, 0xFF, 0xFF, 0xFF, 0xFF, 0xFF, 0xFF, 0xFF, 0xFF,
  0xFF, 0xFF, 0xFF, 0xFF, 0x00, 0xFF, 0xFF, 0xFF, 0xFF, 0xFF, 0xFF, 0xFF, 0xFF, 0xFF, 0xFF, 0xFF,
  0xFF, 0xC0, 0xFF, 0x80, 0xFF, 0xFF, 0xFF, 0x40, 0xFF, 0xFF, 0xFF, 0xFF, 0xFF, 0xFF, 0xFF, 0xFF,
  0xFF, 0xFF, 0xFF, 0xFF, 0x00, 0xFF, 0xFF, 0xFF, 0xFF, 0xFF, 0xFF, 0xFF, 0xFF, 0xFF, 0xFF, 0xFF,
  0xFF, 0xFF, 0xFF, 0xFF, 0xFF, 0xFF, 0xFF, 0xFF, 0xFF, 0xFF, 0xFF, 0xFF, 0xFF, 0xFF, 0xFF, 0xFF,
  0xFF, 0xFF, 0xFF, 0xFF, 0xFF, 0xFF, 0xFF, 0xFF, 0xFF, 0xFF, 0xFF, 0xFF, 0xFF, 0xFF, 0xFF, 0xFF,
  0xFF, 0xFF, 0xFF, 0xFF, 0xFF, 0xFF, 0xFF, 0xFF, 0xFF, 0xFF, 0xFF, 0xFF, 0xFF, 0xFF, 0xFF, 0xFF,
  0xFF, 0xFF, 0xFF, 0xFF, 0xFF, 0xFF, 0xFF, 0xFF, 0xFF, 0xFF, 0xFF, 0xFF, 0xFF, 0xFF, 0xFF, 0xFF,
  0xFF, 0xFF, 0xFF, 0xFF, 0xFF, 0xFF, 0xFF, 0xFF, 0xFF, 0xFF, 0xFF, 0xFF, 0xFF, 0xFF, 0xFF, 0xFF,
  0xFF, 0xFF, 0xFF, 0xFF, 0xFF, 0xFF, 0xFF, 0xFF, 0xFF, 0xFF, 0xFF, 0xFF, 0xFF, 0xFF, 0xFF, 0xFF,
  0xFF, 0xFF, 0xFF, 0xFF, 0xFF, 0xFF, 0xFF, 0xFF, 0xFF, 0xFF, 0xFF, 0xFF, 0xFF, 0xFF, 0xFF, 0xFF,
  0xFF, 0xFF, 0xFF, 0xFF, 0xFF, 0xFF, 0xFF, 0xFF, 0xFF, 0xFF, 0xFF, 0xFF, 0xFF, 0xFF, 0xFF, 0xFF]
/-- Table access `t[static_cast<unsigned char>(c)]`. -/
def lookup (t : List Nat) (c : Byte) : Nat := t.getD c.val 0xFF

/-! ## `ReadsProcessor` -/

/-- Fields of a `ReadsProcessor` object; `fw` and `rv` are the contents of
the two scratch buffers. -/
structure ReadsProcessor where
  kmerSize : Nat
  kmerSizeInBytes : Nat
  halfSizeOfKmerInBytes : Nat
  hangingBases : Nat
  hangingBasesExist : Nat
  fw : List Nat
  rv : List Nat
  deriving Repr

/-- Constructor `ReadsProcessor::ReadsProcessor(windowSize)`: the member
initialisers, the two nested `if`s, then the two allocations
`new unsigned char[kmerSizeInBytes]`, whose indeterminate bytes are given
here by `fwMem` and `rvMem`. The source asserts `kmerSize > 3`. -/
def ReadsProcessor.new (windowSize : Nat) (fwMem rvMem : Nat → Nat) : ReadsProcessor :=
  let kmerSizeInBytes := windowSize / 4
  let halfSizeOfKmerInBytes := windowSize / 8
  if windowSize % 8 ≠ 0 then
    let halfSizeOfKmerInBytes := halfSizeOfKmerInBytes + 1
    let hangingBases := windowSize % 4
    if hangingBases % 4 ≠ 0 then
      let kmerSizeInBytes := kmerSizeInBytes + 1
      { kmerSize := windowSize
        kmerSizeInBytes := kmerSizeInBytes
        halfSizeOfKmerInBytes := halfSizeOfKmerInBytes
        hangingBases := hangingBases
        hangingBasesExist := 1
        fw := (List.range kmerSizeInBytes).map fwMem
        rv := (List.range kmerSizeInBytes).map rvMem }
    else
      { kmerSize := windowSize
        kmerSizeInBytes := kmerSizeInBytes
        halfSizeOfKmerInBytes := halfSizeOfKmerInBytes
        hangingBases := hangingBases
        hangingBasesExist := 0
        fw := (List.range kmerSizeInBytes).map fwMem
        rv := (List.range kmerSizeInBytes).map rvMem }
  else
    { kmerSize := windowSize
      kmerSizeInBytes := kmerSizeInBytes
      halfSizeOfKmerInBytes := halfSizeOfKmerInBytes
      hangingBases := 0
      hangingBasesExist := 0
      fw := (List.range kmerSizeInBytes).map fwMem
      rv := (List.range kmerSizeInBytes).map rvMem }

/-- The five statements that pack four bases into `buf[outputIndex]`:
three `buf[o] |= t[sequence[idx]]` with `idx` stepped by `next`, the test
`buf[o] == 0xFF || t3[sequence[idx]] == 0xFF` (which returns `NULL`), then
`buf[o] |= t3[sequence[idx]]` with `idx` stepped by `last`.
Returns `none` for `return NULL`, else the buffer and the index. -/
def packFour (t0 t1 t2 t3 : List Nat) (next last : Nat → Nat) (sequence : List Byte)
    (buf : List Nat) (outputIndex idx : Nat) : Exec (Option (List Nat × Nat)) := do
  let c0 ← charAt sequence idx
  let buf ← orAt buf outputIndex (lookup t0 c0)
  let idx := next idx
  let c1 ← charAt sequence idx
  let buf ← orAt buf outputIndex (lookup t1 c1)
  let idx := next idx
  let c2 ← charAt sequence idx
  let buf ← orAt buf outputIndex (lookup t2 c2)
  let idx := next idx
  let b ← readAt buf outputIndex
  if b = 0xFF then pure none
  else do
    let c3 ← charAt sequence idx
    if lookup t3 c3 = 0xFF then pure none
    else do
      let buf ← orAt buf outputIndex (lookup t3 c3)
      pure (some (buf, last idx))

/-- The loop `for (...; outputIndex + hangingBasesExist < kmerSizeInBytes;
++outputIndex)` that completes the full bytes of one strand (entered after
the `++outputIndex` of its init clause). Returns `none` for `return NULL`. -/
def fillLoop (p : ReadsProcessor) (t0 t1 t2 t3 : List Nat) (next last : Nat → Nat)
    (sequence : List Byte) (fuel : Nat) (buf : List Nat) (outputIndex idx : Nat) :
    Exec (Option (List Nat × Nat × Nat)) :=
  if outputIndex + p.hangingBasesExist < p.kmerSizeInBytes then
    match fuel with
    | 0 => throw Fault.outOfFuel
    | fuel + 1 => do
      match ← packFour t0 t1 t2 t3 next last sequence buf outputIndex idx with
      | none => pure none
      | some (buf, idx) =>
        fillLoop p t0 t1 t2 t3 next last sequence fuel buf (outputIndex + 1) idx
  else pure (some (buf, outputIndex, idx))

/-- Forward last byte: `for (; index <= lastPos; --lastPos)` with body
`fw[o] = fw[o] >> 2; fw[o] |= fw0[sequence[lastPos]]`. -/
def fwLastLoop (sequence : List Byte) (index outputIndex : Nat) (fuel : Nat)
    (fw : List Nat) (lastPos : Nat) : Exec (List Nat) :=
  if index ≤ lastPos then
    match fuel with
    | 0 => throw Fault.outOfFuel
    | fuel + 1 => do
      let b ← readAt fw outputIndex
      let fw ← writeAt fw outputIndex (b >>> 2)
      let c ← charAt sequence lastPos
      let fw ← orAt fw outputIndex (lookup fw0 c)
      fwLastLoop sequence index outputIndex fuel fw (decSize lastPos)
  else pure fw

/-- Reverse last byte: `for (; revIndex >= position; ++position)` with body
`rv[o] = rv[o] >> 2; rv[o] |= rv0[sequence[position]]`. -/
def rvLastLoop (sequence : List Byte) (revIndex outputIndex : Nat) (fuel : Nat)
    (rv : List Nat) (position : Nat) : Exec (List Nat) :=
  if revIndex ≥ position then
    match fuel with
    | 0 => throw Fault.outOfFuel
    | fuel + 1 => do
      let b ← readAt rv outputIndex
      let rv ← writeAt rv outputIndex (b >>> 2)
      let c ← charAt sequence position
      let rv ← orAt rv outputIndex (lookup rv0 c)
      rvLastLoop sequence revIndex outputIndex fuel rv (incSize position)
  else pure rv

/-- Last byte of the palindromic path: `for (; index < lastPos; --lastPos)`
with body `fw[o] = fw[o] << 2; fw[o] |= fw0[sequence[lastPos]]`; the shift is
stored back into an `unsigned char`. -/
def palLastLoop (sequence : List Byte) (index outputIndex : Nat) (fuel : Nat)
    (fw : List Nat) (lastPos : Nat) : Exec (List Nat) :=
  if index < lastPos then
    match fuel with
    | 0 => throw Fault.outOfFuel
    | fuel + 1 => do
      let b ← readAt fw outputIndex
      let fw ← writeAt fw outputIndex ((b <<< 2) % 256)
      let c ← charAt sequence lastPos
      let fw ← orAt fw outputIndex (lookup fw0 c)
      palLastLoop sequence index outputIndex fuel fw (decSize lastPos)
  else pure fw

/-- Branch `if (fw[outputIndex] < rv[outputIndex])` of `prepSeq`: finish the
forward strand and return `fw`. -/
def finishForward (p : ReadsProcessor) (sequence : List Byte) (position : Nat)
    (fw : List Nat) (index outputIndex : Nat) : Exec (Option (List Nat)) := do
  match ← fillLoop p fw0 fw1 fw2 fw3 incSize incSize sequence p.kmerSize fw
      (outputIndex + 1) index with
  | none => pure none
  | some (fw, outputIndex, index) =>
    if p.hangingBasesExist ≠ 0 then do
      let lastPos := decSize (position + p.kmerSize)
      let c ← charAt sequence lastPos
      let fw ← writeAt fw outputIndex (lookup fw0 c)
      let lastPos := decSize lastPos
      let fw ← fwLastLoop sequence index outputIndex p.kmerSize fw lastPos
      let b ← readAt fw outputIndex
      if b = 0xFF then pure none else pure (some fw)
    else pure (some fw)

/-- Branch `else if (fw[outputIndex] > rv[outputIndex])` of `prepSeq`: finish
the reverse-complement strand and return `rv`. -/
def finishReverse (p : ReadsProcessor) (sequence : List Byte) (position : Nat)
    (rv : List Nat) (revIndex outputIndex : Nat) : Exec (Option (List Nat)) := do
  match ← fillLoop p rv0 rv1 rv2 rv3 decSize decSize sequence p.kmerSize rv
      (outputIndex + 1) revIndex with
  | none => pure none
  | some (rv, outputIndex, revIndex) =>
    if p.hangingBasesExist ≠ 0 then do
      let c ← charAt sequence position
      let rv ← writeAt rv outputIndex (lookup rv0 c)
      let position := incSize position
      let rv ← rvLastLoop sequence revIndex outputIndex p.kmerSize rv position
      let b ← readAt rv outputIndex
      if b = 0xFF then pure none else pure (some rv)
    else pure (some rv)

/-- Code of `prepSeq` after its main loop (the path commented
`palamdromic`). -/
def finishPalindromic (p : ReadsProcessor) (sequence : List Byte) (position : Nat)
    (fw : List Nat) (index outputIndex : Nat) : Exec (Option (List Nat)) := do
  match ← fillLoop p fw0 fw1 fw2 fw3 incSize id sequence p.kmerSize fw
      (outputIndex + 1) index with
  | none => pure none
  | some (fw, outputIndex, index) =>
    if p.hangingBases ≠ 0 then do
      let lastPos := decSize (position + p.kmerSize)
      let c ← charAt sequence lastPos
      let fw ← orAt fw outputIndex (lookup fw0 c)
      let fw ← palLastLoop sequence index outputIndex p.kmerSize fw lastPos
      let b ← readAt fw outputIndex
      if b = 0xFF then pure none else pure (some fw)
    else pure (some fw)

/-- Main loop of `prepSeq`:
`for (; outputIndex < halfSizeOfKmerInBytes; ++outputIndex)`, followed by the
palindromic path when the loop runs to its end. -/
def mainLoop (p : ReadsProcessor) (sequence : List Byte) (position : Nat) (fuel : Nat)
    (fw rv : List Nat) (index revIndex outputIndex : Nat) : Exec (Option (List Nat)) :=
  if outputIndex < p.halfSizeOfKmerInBytes then
    match fuel with
    | 0 => throw Fault.outOfFuel
    | fuel + 1 => do
      match ← packFour fw0 fw1 fw2 fw3 incSize incSize sequence fw outputIndex index with
      | none => pure none
      | some (fw, index) =>
        match ← packFour rv0 rv1 rv2 rv3 decSize decSize sequence rv outputIndex revIndex with
        | none => pure none
        | some (rv, revIndex) =>
          let f ← readAt fw outputIndex
          let r ← readAt rv outputIndex
          if f < r then finishForward p sequence position fw index outputIndex
          else if f > r then finishReverse p sequence position rv revIndex outputIndex
          else mainLoop p sequence position fuel fw rv index revIndex (outputIndex + 1)
  else finishPalindromic p sequence position fw index outputIndex

/-- Method `ReadsProcessor::prepSeq(sequence, position)`. -/
def prepSeq (p : ReadsProcessor) (sequence : List Byte) (position : Nat) :
    Exec (Option (List Nat)) := do
  let index := position
  let revIndex := decSize (position + p.kmerSize)
  let outputIndex := 0
  let fw ← memsetZero p.fw p.kmerSizeInBytes
  let rv ← memsetZero p.rv p.kmerSizeInBytes
  mainLoop p sequence position p.kmerSize fw rv index revIndex outputIndex

/-- Method `ReadsProcessor::getBases(c)`, loop
`for (unsigned i = 0; i < kmerSize; ++i)`; `currentOffset` is an `int`. -/
def getBasesLoop (p : ReadsProcessor) (c : List Nat) (fuel : Nat) (bases : List Byte)
    (currentIndex : Nat) (currentOffset : Int) (i : Nat) : Exec (List Byte) :=
  if i < p.kmerSize then
    match fuel with
    | 0 => throw Fault.outOfFuel
    | fuel + 1 => do
      let currentIndex := if currentOffset = -1 then currentIndex + 1 else currentIndex
      let currentOffset := if currentOffset = -1 then 3 else currentOffset
      let currentChr ← readAt c currentIndex
      let currentChr := currentChr >>> (2 * currentOffset).toNat
      let currentChr := currentChr &&& 3
      let bases := bases ++ [[65, 67, 71, 84].getD currentChr 0]
      getBasesLoop p c fuel bases currentIndex (currentOffset - 1) (i + 1)
  else pure bases

/-- Method `ReadsProcessor::getBases(c)`: the bases of a packed k-mer as
text. -/
def getBases (p : ReadsProcessor) (c : List Nat) : Exec (List Byte) :=
  getBasesLoop p c p.kmerSize [] 0 3 0

/-! ## Vocabulary of the specification -/

/-- The characters `A C G T a c g t`. -/
def isACGT (c : Byte) : Bool :=
  c = 65 || c = 67 || c = 71 || c = 84 || c = 97 || c = 99 || c = 103 || c = 116

/-- Two-bit code of a base, `A=0 C=1 G=2 T=3`, either case. -/
def baseCode (c : Byte) : Nat :=
  if c = 67 ∨ c = 99 then 1
  else if c = 71 ∨ c = 103 then 2
  else if c = 84 ∨ c = 116 then 3
  else 0

/-- Complement map `A<->T`, `C<->G`, keeping the case. -/
def complement (c : Byte) : Byte :=
  if c = 65 then 84 else if c = 84 then 65
  else if c = 67 then 71 else if c = 71 then 67
  else if c = 97 then 116 else if c = 116 then 97
  else if c = 99 then 103 else if c = 103 then 99
  else c

/-- Upper-case form of a base. -/
def upperBase (c : Byte) : Byte :=
  if c = 97 then 65 else if c = 99 then 67 else if c = 103 then 71
  else if c = 116 then 84 else c

/-- Reverse complement of a sequence. -/
def reverseComplement (w : List Byte) : List Byte := (w.map complement).reverse

/-- The window `seq[pos..pos+k)`. -/
def window (sequence : List Byte) (pos k : Nat) : List Byte := (sequence.drop pos).take k

/-- Code of base `t` of `w`; positions past the end contribute zero bits. -/
def digit (w : List Byte) (t : Nat) : Nat :=
  if t < w.length then baseCode (w.getD t 0) else 0

/-- Byte `j` of the packing: base `4j+i` sits in bits `7-2i` and `6-2i`. -/
def packByte (w : List Byte) (j : Nat) : Nat :=
  (digit w (4 * j) <<< 6) ||| (digit w (4 * j + 1) <<< 4) |||
    (digit w (4 * j + 2) <<< 2) ||| digit w (4 * j + 3)

/-- Two bits per base, `ceil(k/4)` bytes, unused low bits of the last byte
zero. -/
def pack (w : List Byte) : List Nat :=
  (List.range ((w.length + 3) / 4)).map (packByte w)

/-- Lexicographic `<` on sequences of unsigned values. -/
def lexLt : List Nat → List Nat → Bool
  | [], [] => false
  | [], _ :: _ => true
  | _ :: _, [] => false
  | a :: as, b :: bs => decide (a < b) || (decide (a = b) && lexLt as bs)

/-- The smaller of two sequences under `lexLt`. -/
def lexMin (a b : List Nat) : List Nat := if lexLt b a then b else a

/-- The canonical k-mer of the specification: the smaller packing of the
window and of its reverse complement. -/
def canonical (w : List Byte) : List Nat := lexMin (pack w) (pack (reverseComplement w))

/-- Text order `A<C<G<T` on strings of bases (the order of the byte values). -/
def textMin (u v : List Byte) : List Byte :=
  if lexLt (v.map Fin.val) (u.map Fin.val) then v else u

/-! ## Evaluation routines of `BioBloomClassifier.cpp`

`SeqEval::evalRead(rec, *m_filters[i], m_scoreThreshold)` and
`SeqEval::evalSingleScore(rec, *m_filters[i], ...)` are taken as functions
of the filter index `i` for the read at hand; `size` is `m_filters.size()`.
Scores are finite `double` values, read as rationals (on these `<`, `==` and
`>` are the rational comparisons). The loop counter is an `unsigned`; it is
kept as a natural number, the number of loaded filters being far below
`2^32`. -/

/-- Loop of `evaluateReadStd`: `for (unsigned i = 0; i != m_filters.size(); ++i)`. -/
def evaluateReadStdLoop (evalRead : Nat → Bool) (size : Nat) (fuel : Nat)
    (hits : List Nat) (i : Nat) : Exec (List Nat) :=
  if i ≠ size then
    match fuel with
    | 0 => throw Fault.outOfFuel
    | fuel + 1 =>
      let hits := if evalRead i then hits ++ [i] else hits
      evaluateReadStdLoop evalRead size fuel hits (i + 1)
  else pure hits

/-- Method `BioBloomClassifier::evaluateReadStd(rec, hits)`; returns `hits`. -/
def evaluateReadStd (evalRead : Nat → Bool) (size : Nat) (hits : List Nat) :
    Exec (List Nat) :=
  evaluateReadStdLoop evalRead size size hits 0

/-- Loop of `evaluateReadOrdered`, leaving at the first filter that passes
(`break`). -/
def evaluateReadOrderedLoop (evalRead : Nat → Bool) (size : Nat) (fuel : Nat)
    (hits : List Nat) (i : Nat) : Exec (List Nat) :=
  if i ≠ size then
    match fuel with
    | 0 => throw Fault.outOfFuel
    | fuel + 1 =>
      if evalRead i then pure (hits ++ [i])
      else evaluateReadOrderedLoop evalRead size fuel hits (i + 1)
  else pure hits

/-- Method `BioBloomClassifier::evaluateReadOrdered(rec, hits)`; returns
`hits`. -/
def evaluateReadOrdered (evalRead : Nat → Bool) (size : Nat) (hits : List Nat) :
    Exec (List Nat) :=
  evaluateReadOrderedLoop evalRead size size hits 0

/-- First loop of `evaluateReadBestHit`: tracks `maxScore` and `bestFilters`. -/
def bestHitScan (evalSingleScore : Nat → ℚ) (size : Nat) (fuel : Nat)
    (bestFilters : List Nat) (maxScore : ℚ) (i : Nat) : Exec (List Nat × ℚ) :=
  if i ≠ size then
    match fuel with
    | 0 => throw Fault.outOfFuel
    | fuel + 1 =>
      let score := evalSingleScore i
      if maxScore < score then
        bestHitScan evalSingleScore size fuel [i] score (i + 1)
      else if maxScore = score then
        bestHitScan evalSingleScore size fuel (bestFilters ++ [i]) maxScore (i + 1)
      else bestHitScan evalSingleScore size fuel bestFilters maxScore (i + 1)
  else pure (bestFilters, maxScore)

/-- Second loop of `evaluateReadBestHit`:
`for (unsigned i = 0; i < bestFilters.size(); ++i)` with body
`hits.push_back(i); scores.push_back(maxScore);`. -/
def bestHitEmit (bestFilters : List Nat) (maxScore : ℚ) (fuel : Nat)
    (hits : List Nat) (scores : List ℚ) (i : Nat) : Exec (List Nat × List ℚ) :=
  if i < bestFilters.length then
    match fuel with
    | 0 => throw Fault.outOfFuel
    | fuel + 1 =>
      bestHitEmit bestFilters maxScore fuel (hits ++ [i]) (scores ++ [maxScore]) (i + 1)
  else pure (hits, scores)

/-- Method `BioBloomClassifier::evaluateReadBestHit(rec, hits, scores)`;
returns the returned `maxScore` with the final `hits` and `scores`. -/
def evaluateReadBestHit (evalSingleScore : Nat → ℚ) (size : Nat) (hits : List Nat)
    (scores : List ℚ) : Exec (ℚ × List Nat × List ℚ) := do
  let (bestFilters, maxScore) ← bestHitScan evalSingleScore size size [] 0 0
  if maxScore > 0 then do
    let (hits, scores) ← bestHitEmit bestFilters maxScore bestFilters.length hits scores 0
    pure (maxScore, hits, scores)
  else pure (maxScore, hits, scores)

/-- Loop of `evaluateReadScore`: `for (unsigned i = 0; i < m_filters.size(); ++i)`. -/
def evaluateReadScoreLoop (evalSingleScore : Nat → ℚ) (m_scoreThreshold : ℚ) (size : Nat)
    (fuel : Nat) (hits : List Nat) (scores : List ℚ) (i : Nat) :
    Exec (List Nat × List ℚ) :=
  if i < size then
    match fuel with
    | 0 => throw Fault.outOfFuel
    | fuel + 1 =>
      let score := evalSingleScore i
      if m_scoreThreshold > score then
        evaluateReadScoreLoop evalSingleScore m_scoreThreshold size fuel
          (hits ++ [i]) (scores ++ [score]) (i + 1)
      else
        evaluateReadScoreLoop evalSingleScore m_scoreThreshold size fuel
          hits (scores ++ [0]) (i + 1)
  else pure (hits, scores)

/-- Method `BioBloomClassifier::evaluateReadScore(rec, hits, scores)`;
returns the final `hits` and `scores`. -/
def evaluateReadScore (evalSingleScore : Nat → ℚ) (m_scoreThreshold : ℚ) (size : Nat)
    (hits : List Nat) (scores : List ℚ) : Exec (List Nat × List ℚ) :=
  evaluateReadScoreLoop evalSingleScore m_scoreThreshold size size hits scores 0

/-! ## Auxiliary functions used in the proofs -/

/-- Buffer `buf` with bytes `o, o+1, ..., o+n-1` set to `G`. -/
def fillWith (G : Nat → Nat) (buf : List Nat) : Nat → Nat → List Nat
  | _, 0 => buf
  | o, n + 1 => fillWith G (buf.set o (G o)) (o + 1) n

/-- Base `t` of the window is one of `A C G T a c g t`. -/
def validAt (w : List Byte) (t : Nat) : Bool := isACGT (w.getD t 0)

/-- The four bases `t, t+1, t+2, t+3` are all valid. -/
def validFrom (w : List Byte) (t : Nat) : Bool :=
  validAt w t && validAt w (t + 1) && validAt w (t + 2) && validAt w (t + 3)

/-- Packed value of the four bases starting at `t`, read forwards. -/
def fourFrom (w : List Byte) (t : Nat) : Nat :=
  64 * baseCode (w.getD t 0) + 16 * baseCode (w.getD (t + 1) 0)
    + 4 * baseCode (w.getD (t + 2) 0) + baseCode (w.getD (t + 3) 0)

/-- Packed value of the complements of the four bases `t+3, t+2, t+1, t`,
read backwards. -/
def fourBack (w : List Byte) (t : Nat) : Nat :=
  64 * (3 - baseCode (w.getD (t + 3) 0)) + 16 * (3 - baseCode (w.getD (t + 2) 0))
    + 4 * (3 - baseCode (w.getD (t + 1) 0)) + (3 - baseCode (w.getD t 0))

/-- The field values the constructor gives for window size `k`. -/
def Geometry (p : ReadsProcessor) (k : Nat) : Prop :=
  p.kmerSize = k ∧ p.kmerSizeInBytes = (k + 3) / 4 ∧ p.halfSizeOfKmerInBytes = (k + 7) / 8
    ∧ p.hangingBases = k % 4 ∧ p.hangingBasesExist = (if k % 4 = 0 then 0 else 1)
    ∧ p.fw.length = (k + 3) / 4 ∧ p.rv.length = (k + 3) / 4

/-- Character of the string `"ACGT"` at index `n`, as a byte value. -/
def codeVal (n : Nat) : Nat := ([65, 67, 71, 84] : List Nat).getD n 0

/-- Byte values of the upper-case text of a sequence of bases. -/
def textOf (u : List Byte) : List Nat := (u.map upperBase).map Fin.val

/-- Byte `i` of the buffer the palindromic path leaves behind: the forward
bytes below `ceil(k/8)`, an untouched zero, then bytes packed from windows
that advance by three bases, and for `k % 4 = 2` one base in the top bits of
the last byte. -/
def palByte (w : List Byte) (i : Nat) : Nat :=
  let k := w.length
  let half := (k + 7) / 8
  if i < half then packByte w i
  else if i = half then 0
  else if i < k / 4 then
    let s := 4 * half + 3 * (i - half - 1)
    64 * digit w s + 16 * digit w (s + 1) + 4 * digit w (s + 2) + digit w (s + 3)
  else 64 * digit w (half + 3 * (k / 4) - 2)

/-- Closed form of the outcome of the palindromic path of `prepSeq` on an
all-ACGT window: the last-byte store falls outside the buffer when `k % 4`
is not zero and the filling loop has not advanced `outputIndex`. -/
def palSpec (w : List Byte) : Exec (Option (List Nat)) :=
  let k := w.length
  if k % 4 ≠ 0 ∧ k / 4 < (k + 7) / 8 + 1 then throw Fault.outOfBounds
  else pure (some ((List.range ((k + 3) / 4)).map (palByte w)))

/-- Closed form of the outcome of `prepSeq` as a function of the window alone
(proved equal to the code in `prepSeq_eq_prepSpec`). -/
def prepSpec (w : List Byte) : Exec (Option (List Nat)) :=
  if w.all isACGT then
    if pack w = pack (reverseComplement w) then palSpec w
    else pure (some (canonical w))
  else pure none

/-! ## Paired evaluation, construction and filter loading in `BioBloomClassifier.cpp` -/

/-- Bytes of an ASCII string literal. -/
def ascii (s : String) : List Byte := s.toList.map (fun c => Fin.ofNat c.toNat)

/-- Loop of `evaluateReadOrderedPair`:
`for (unsigned i = 0; i != m_filters.size(); ++i)`, leaving at the first
filter that is a hit for the pair (`break`). `evalRead1` and `evalRead2` are
`SeqEval::evalRead` on mate 1 and on mate 2. -/
def evaluateReadOrderedPairLoop (m_inclusive : Bool) (evalRead1 evalRead2 : Nat → Bool)
    (size : Nat) (fuel : Nat) (hits1 hits2 : List Nat) (i : Nat) :
    Exec (List Nat × List Nat) :=
  if i ≠ size then
    match fuel with
    | 0 => throw Fault.outOfFuel
    | fuel + 1 =>
      if m_inclusive then
        if evalRead1 i || evalRead2 i then pure (hits1 ++ [i], hits2 ++ [i])
        else evaluateReadOrderedPairLoop m_inclusive evalRead1 evalRead2 size fuel
          hits1 hits2 (i + 1)
      else
        if evalRead1 i && evalRead2 i then pure (hits1 ++ [i], hits2 ++ [i])
        else evaluateReadOrderedPairLoop m_inclusive evalRead1 evalRead2 size fuel
          hits1 hits2 (i + 1)
  else pure (hits1, hits2)

/-- Method `BioBloomClassifier::evaluateReadOrderedPair(rec1, rec2, hits1,
hits2)`; returns `hits1` and `hits2`. -/
def evaluateReadOrderedPair (m_inclusive : Bool) (evalRead1 evalRead2 : Nat → Bool)
    (size : Nat) (hits1 hits2 : List Nat) : Exec (List Nat × List Nat) :=
  evaluateReadOrderedPairLoop m_inclusive evalRead1 evalRead2 size size hits1 hits2 0

/-- Modelled from the spec: the mode enumeration of `BioBloomClassifier.h`
(the header is not among the sources); the spec names the four modes. -/
inductive Mode where
  | STD
  | ORDERED
  | BESTHIT
  | SCORES
  deriving DecidableEq, Repr

/-- Modelled from the spec: what `BloomFilterInfo(infoFileName)` reads from
the sidecar file (the class is not among the sources): the filter label, the
k-mer size and the number of hash functions. -/
structure BloomFilterInfo where
  filterID : List Byte
  kmerSize : Nat
  hashNum : Nat
  deriving DecidableEq, Repr

/-- The files a run can see: which paths open (`fexists`) and what the info
file at a path holds. -/
structure FileSystem where
  fexists : List Byte → Bool
  readInfo : List Byte → BloomFilterInfo

/-- The members `loadFilters` fills: `m_infoFiles`, `m_filters` (a loaded
`BloomFilter` is named by the path it was read from) and `m_filterOrder`. -/
structure LoadedFilters where
  m_infoFiles : List BloomFilterInfo
  m_filters : List (List Byte)
  m_filterOrder : List (List Byte)
  deriving DecidableEq, Repr

/-- A computation that may end the process with `exit(status)`:
`Except.error status`. -/
abbrev Proc := Except Nat

/-- Equality of process results is decidable. -/
instance instDecidableEqProc {α : Type} [DecidableEq α] : DecidableEq (Proc α)
  | Except.ok a, Except.ok b =>
    if h : a = b then isTrue (congrArg Except.ok h)
    else isFalse (fun h2 => h (Except.ok.inj h2))
  | Except.error a, Except.error b =>
    if h : a = b then isTrue (congrArg Except.error h)
    else isFalse (fun h2 => h (Except.error.inj h2))
  | Except.ok _, Except.error _ => isFalse (fun h => Except.noConfusion h)
  | Except.error _, Except.ok _ => isFalse (fun h => Except.noConfusion h)

/-- The expression `(*it).substr(0, (*it).length() - 2) + "txt"`; for a path
shorter than two characters the `size_t` count wraps and `substr` keeps the
whole path. -/
def infoFileName (path : List Byte) : List Byte :=
  (if path.length < 2 then path else path.take (path.length - 2)) ++ ascii "txt"

/-- Loop of `BioBloomClassifier::loadFilters(filterFilePaths)` over the
remaining paths; `exit(1)` when a filter or its info file cannot be opened. -/
def loadFiltersLoop (fs : FileSystem) : List (List Byte) → LoadedFilters → Proc LoadedFilters
  | [], loaded => pure loaded
  | it :: rest, loaded =>
    if ¬ fs.fexists it then throw 1
    else if ¬ fs.fexists (infoFileName it) then throw 1
    else
      let temp := fs.readInfo (infoFileName it)
      loadFiltersLoop fs rest
        { m_infoFiles := loaded.m_infoFiles ++ [temp]
          m_filters := loaded.m_filters ++ [it]
          m_filterOrder := loaded.m_filterOrder ++ [temp.filterID] }

/-- Method `BioBloomClassifier::loadFilters(filterFilePaths)` on a freshly
constructed object (the three vectors start empty). -/
def loadFilters (fs : FileSystem) (filterFilePaths : List (List Byte)) : Proc LoadedFilters :=
  loadFiltersLoop fs filterFilePaths { m_infoFiles := [], m_filters := [], m_filterOrder := [] }

/-- Data members of a `BioBloomClassifier` object. -/
structure BioBloomClassifier where
  m_scoreThreshold : ℚ
  m_filterNum : Nat
  m_prefix : List Byte
  m_postfix : List Byte
  m_mode : Mode
  m_stdout : Bool
  m_inclusive : Bool
  m_multiMatchIndex : Nat
  loaded : LoadedFilters

/-- Constructor `BioBloomClassifier::BioBloomClassifier(filterFilePaths,
scoreThreshold, prefix, outputPostFix, withScore)`: the member initialisers,
`loadFilters`, then the two `if`s that set `m_mode`. -/
def BioBloomClassifier.new (fs : FileSystem) (filterFilePaths : List (List Byte))
    (scoreThreshold : ℚ) (prefixArg outputPostFix : List Byte) (withScore : Bool) :
    Proc BioBloomClassifier := do
  let m_mode := Mode.STD
  let loaded ← loadFilters fs filterFilePaths
  let m_mode := if withScore then Mode.SCORES else m_mode
  let m_mode := if scoreThreshold = 1 then Mode.BESTHIT else m_mode
  pure
    { m_scoreThreshold := scoreThreshold
      m_filterNum := filterFilePaths.length
      m_prefix := prefixArg
      m_postfix := outputPostFix
      m_mode := m_mode
      m_stdout := false
      m_inclusive := false
      m_multiMatchIndex := filterFilePaths.length + 1
      loaded := loaded }

/-! ## Interleaved pairs in one file: `filterPair(file)` -/

/-- A `FaRec`: header, sequence and quality strings of one record. -/
structure FaRec where
  header : List Byte
  seq : List Byte
  qual : List Byte
  deriving DecidableEq, Repr

/-- The expression `string(rec.header, rec.header.length() - 2)`: the
`std::string(str, pos)` constructor copies `str` from position `pos` to its
end. For a header shorter than two characters the position wraps and the
constructor throws `std::out_of_range` (`none`). -/
def readID (header : List Byte) : Option (List Byte) :=
  if header.length < 2 then none else some (header.drop (header.length - 2))

/-- The call `unPairedReads.find(readID)`: the stored record, if any. -/
def mapFind (unPairedReads : List (List Byte × FaRec)) (key : List Byte) : Option FaRec :=
  match unPairedReads with
  | [] => none
  | (k, r) :: rest => if k = key then some r else mapFind rest key

/-- What the single-file paired pipeline has done so far: the holding table
`unPairedReads`, the counter `totalReads` and the calls of `evaluateReadPair`
made, in order, as `(rec1, rec2)`. -/
structure PairState where
  unPairedReads : List (List Byte × FaRec)
  totalReads : Nat
  calls : List (FaRec × FaRec)
  deriving DecidableEq, Repr

/-- One pass of the loop `for (int l;;)` of `filterPair(file)` for a record
`rec` read by `kseq_read`, run by a single thread. `pairFound` is declared
without an initialiser and assigned only when the key is found; `uninit` is
the value the variable holds otherwise. `none` is the uncaught
`std::out_of_range`. -/
def filterPairStep (uninit : Bool) (st : PairState) (rec : FaRec) : Option PairState :=
  match readID rec.header with
  | none => none
  | some key =>
    let found := (mapFind st.unPairedReads key).isSome
    let pairFound := if found then true else uninit
    let unPairedReads := if found then st.unPairedReads else st.unPairedReads ++ [(key, rec)]
    if pairFound then
      let stored := (mapFind unPairedReads key).getD rec
      let isMate1 : Bool := rec.header.getD (rec.header.length - 1) 0 = 49
      let rec1 := if isMate1 then rec else stored
      let rec2 := if isMate1 then stored else rec
      some { unPairedReads := unPairedReads
             totalReads := st.totalReads + 1
             calls := st.calls ++ [(rec1, rec2)] }
    else
      some { unPairedReads := unPairedReads
             totalReads := st.totalReads
             calls := st.calls }

/-- The loop of `filterPair(file)` over the records of the file, in order,
until `kseq_read` reports the end; `uninit n` is the indeterminate value of
`pairFound` in pass `n`. -/
def filterPairLoop (uninit : Nat → Bool) : List FaRec → Nat → PairState → Option PairState
  | [], _, st => some st
  | rec :: rest, n, st =>
    match filterPairStep (uninit n) st rec with
    | none => none
    | some st => filterPairLoop uninit rest (n + 1) st

/-- The record loop of `filterPair(file)` from its initial state: empty
`unPairedReads`, `totalReads = 0`. The loop of
`filterPairPrint(file, outputType)` is the same, with `printPairToFile`
after each evaluated pair. -/
def filterPair (uninit : Nat → Bool) (records : List FaRec) : Option PairState :=
  filterPairLoop uninit records 0 { unPairedReads := [], totalReads := 0, calls := [] }

/-! ## Tables by slot -/

/-- The forward table for slot `i`: `fw0`, `fw1`, `fw2`, `fw3`. -/
def fwTable (i : Fin 4) : List Nat :=
  if i = 0 then fw0 else if i = 1 then fw1 else if i = 2 then fw2 else fw3

/-- The reverse-complement table for slot `i`: `rv0`, `rv1`, `rv2`, `rv3`. -/
def rvTable (i : Fin 4) : List Nat :=
  if i = 0 then rv0 else if i = 1 then rv1 else if i = 2 then rv2 else rv3

/-! ## The exits of the main loop of `prepSeq` -/

/-- How control leaves the main loop of `prepSeq`, with the buffer and the
indices the code continues with: `return NULL` inside the loop, the branch
`fw[outputIndex] < rv[outputIndex]`, the branch
`fw[outputIndex] > rv[outputIndex]`, or the loop test failing (the code
commented `palamdromic` follows). -/
inductive LoopExit where
  | null
  | forward (fw : List Nat) (index outputIndex : Nat)
  | reverse (rv : List Nat) (revIndex outputIndex : Nat)
  | palindromic (fw : List Nat) (index outputIndex : Nat)
  deriving DecidableEq, Repr

/-- Main loop of `prepSeq` up to the point where it is left: the statements
of `mainLoop`, stopping at the exit taken instead of running the code that
follows it. -/
def mainLoopExit (p : ReadsProcessor) (sequence : List Byte) (fuel : Nat)
    (fw rv : List Nat) (index revIndex outputIndex : Nat) : Exec LoopExit :=
  if outputIndex < p.halfSizeOfKmerInBytes then
    match fuel with
    | 0 => throw Fault.outOfFuel
    | fuel + 1 => do
      match ← packFour fw0 fw1 fw2 fw3 incSize incSize sequence fw outputIndex index with
      | none => pure LoopExit.null
      | some (fw, index) =>
        match ← packFour rv0 rv1 rv2 rv3 decSize decSize sequence rv outputIndex revIndex with
        | none => pure LoopExit.null
        | some (rv, revIndex) =>
          let f ← readAt fw outputIndex
          let r ← readAt rv outputIndex
          if f < r then pure (LoopExit.forward fw index outputIndex)
          else if f > r then pure (LoopExit.reverse rv revIndex outputIndex)
          else mainLoopExit p sequence fuel fw rv index revIndex (outputIndex + 1)
  else pure (LoopExit.palindromic fw index outputIndex)

/-- The code of `prepSeq` that follows each exit of the main loop. -/
def afterLoop (p : ReadsProcessor) (sequence : List Byte) (position : Nat) :
    LoopExit → Exec (Option (List Nat))
  | LoopExit.null => pure none
  | LoopExit.forward fw index outputIndex =>
    finishForward p sequence position fw index outputIndex
  | LoopExit.reverse rv revIndex outputIndex =>
    finishReverse p sequence position rv revIndex outputIndex
  | LoopExit.palindromic fw index outputIndex =>
    finishPalindromic p sequence position fw index outputIndex

/-- The start of `prepSeq(sequence, position)`, the two `memset` calls and
the main loop, up to the exit taken. -/
def prepSeqExit (p : ReadsProcessor) (sequence : List Byte) (position : Nat) :
    Exec LoopExit := do
  let index := position
  let revIndex := decSize (position + p.kmerSize)
  let outputIndex := 0
  let fw ← memsetZero p.fw p.kmerSizeInBytes
  let rv ← memsetZero p.rv p.kmerSizeInBytes
  mainLoopExit p sequence p.kmerSize fw rv index revIndex outputIndex

/-- The naive algorithm of the specification: pack both strands of the
window in full into `ceil(k/4)` bytes, compare the two byte-wise as unsigned
values, and return the smaller. -/
def naiveCanonical (sequence : List Byte) (pos k : Nat) : List Nat :=
  let fwFull := pack (window sequence pos k)
  let rvFull := pack (reverseComplement (window sequence pos k))
  if lexLt rvFull fwFull then rvFull else fwFull

/-! ## Output writers of the printing entry points

A `Dynamicofstream` is identified by the file name it is constructed with;
a vector of writers is the list of these names. `NO_MATCH` and `MULTI_MATCH`
are the two label constants of the class, whose values are given outside
`BioBloomClassifier.cpp`. `m_filterOrder.size()` is kept as a natural
number. -/

/-- The call `outputFiles[i].close()` on a vector holding `size` writers:
the index closed is recorded; `operator[]` has no element at `i >= size`. -/
def closeAt (size : Nat) (closed : List Nat) (i : Nat) : Exec (List Nat) :=
  if i < size then pure (closed ++ [i]) else throw Fault.outOfBounds

/-- Loop of `filterPrint` over `m_filterOrder`, pushing one writer per filter
id: `m_prefix + "_" + *i + "." + outputType + m_postfix`. -/
def filterPrintOpenLoop ( m_prefix m_postfix outputType : List Byte) :
    List (List Byte) → List (List Byte) → List (List Byte)
  | [], outputFiles => outputFiles
  | i :: rest, outputFiles =>
    filterPrintOpenLoop m_prefix m_postfix outputType rest
      (outputFiles ++ [ m_prefix ++ ascii "_" ++ i ++ ascii "." ++ outputType ++ m_postfix])

/-- Opening section of `filterPrint` (lines 121-136): the vector
`outputFiles` after the loop and the two `push_back` calls. -/
def filterPrintOpen ( m_prefix m_postfix : List Byte) (m_filterOrder : List (List Byte))
    (NO_MATCH MULTI_MATCH outputType : List Byte) : List (List Byte) :=
  let outputFiles := filterPrintOpenLoop m_prefix m_postfix outputType m_filterOrder []
  let outputFiles := outputFiles ++
    [ m_prefix ++ ascii "_" ++ NO_MATCH ++ ascii "." ++ outputType ++ m_postfix]
  let outputFiles := outputFiles ++
    [ m_prefix ++ ascii "_" ++ MULTI_MATCH ++ ascii "." ++ outputType ++ m_postfix]
  outputFiles

/-- Closing loop of `filterPrint`:
`for (unsigned i = 0; i < m_filterOrder.size(); ++i) outputFiles[i].close();`. -/
def filterPrintCloseLoop (filterOrderSize size : Nat) (fuel : Nat) (closed : List Nat)
    (i : Nat) : Exec (List Nat) :=
  if i < filterOrderSize then
    match fuel with
    | 0 => throw Fault.outOfFuel
    | fuel + 1 => do
      let closed ← closeAt size closed i
      filterPrintCloseLoop filterOrderSize size fuel closed (i + 1)
  else pure closed

/-- Closing section of `filterPrint` (lines 194-207) on a vector of `size`
writers: the indices on which `close()` is called, in order. -/
def filterPrintClose (filterOrderSize size : Nat) : Exec (List Nat) := do
  let closed ← filterPrintCloseLoop filterOrderSize size filterOrderSize [] 0
  let closed ← closeAt size closed (filterOrderSize + 1)
  let closed ← closeAt size closed (filterOrderSize + 1)
  pure closed

/-- The writers of `filterPrint`: the names opened, and the indices closed
before the summary is written. The record loop between the two sections
writes to the writers and neither opens nor closes any. -/
def filterPrint ( m_prefix m_postfix : List Byte) (m_filterOrder : List (List Byte))
    (NO_MATCH MULTI_MATCH outputType : List Byte) : Exec (List (List Byte) × List Nat) := do
  let outputFiles := filterPrintOpen m_prefix m_postfix m_filterOrder NO_MATCH MULTI_MATCH
    outputType
  let closed ← filterPrintClose m_filterOrder.length outputFiles.length
  pure (outputFiles, closed)

/-- One `close()` call of a paired printing routine: on `outputFiles1[i]` or
on `outputFiles2[i]`. -/
inductive CloseCall where
  | files1 (i : Nat)
  | files2 (i : Nat)
  deriving DecidableEq, Repr

/-- The call `outputFiles1[i].close()` or `outputFiles2[i].close()` on
vectors of `size1` and `size2` writers. -/
def closePairAt (size1 size2 : Nat) (closed : List CloseCall) :
    CloseCall → Exec (List CloseCall)
  | CloseCall.files1 i =>
    if i < size1 then pure (closed ++ [CloseCall.files1 i]) else throw Fault.outOfBounds
  | CloseCall.files2 i =>
    if i < size2 then pure (closed ++ [CloseCall.files2 i]) else throw Fault.outOfBounds

/-- Loop over `m_filterOrder` in `filterPairPrint(file1, file2, outputType)`
and, with the same text, in `filterPairPrint(file, outputType)`: one writer
pushed on `outputFiles1` and one on `outputFiles2` per filter id. -/
def filterPairPrintOpenLoop ( m_prefix m_postfix outputType : List Byte) :
    List (List Byte) → List (List Byte) × List (List Byte)
      → List (List Byte) × List (List Byte)
  | [], files => files
  | i :: rest, (outputFiles1, outputFiles2) =>
    filterPairPrintOpenLoop m_prefix m_postfix outputType rest
      (outputFiles1 ++ [ m_prefix ++ ascii "_" ++ i ++ ascii "_1." ++ outputType ++ m_postfix],
        outputFiles2 ++ [ m_prefix ++ ascii "_" ++ i ++ ascii "_2." ++ outputType ++ m_postfix])

/-- Opening section of `filterPairPrint(file1, file2, outputType)` (lines
322-350) and of `filterPairPrint(file, outputType)` (lines 587-615, the same
text): the loop, then four `outputFiles1.push_back` calls. Returns
`(outputFiles1, outputFiles2)`. -/
def filterPairPrintOpen ( m_prefix m_postfix : List Byte) (m_filterOrder : List (List Byte))
    (NO_MATCH MULTI_MATCH outputType : List Byte) : List (List Byte) × List (List Byte) :=
  let (outputFiles1, outputFiles2) :=
    filterPairPrintOpenLoop m_prefix m_postfix outputType m_filterOrder ([], [])
  let outputFiles1 := outputFiles1 ++
    [ m_prefix ++ ascii "_" ++ NO_MATCH ++ ascii "_1." ++ outputType ++ m_postfix]
  let outputFiles1 := outputFiles1 ++
    [ m_prefix ++ ascii "_" ++ NO_MATCH ++ ascii "_2." ++ outputType ++ m_postfix]
  let outputFiles1 := outputFiles1 ++
    [ m_prefix ++ ascii "_" ++ MULTI_MATCH ++ ascii "_1." ++ outputType ++ m_postfix]
  let outputFiles1 := outputFiles1 ++
    [ m_prefix ++ ascii "_" ++ MULTI_MATCH ++ ascii "_2." ++ outputType ++ m_postfix]
  (outputFiles1, outputFiles2)

/-- Loop over `m_filterOrder` in
`filterPairPrint(inputFiles1, inputFiles2, outputType)`:
`m_prefix + *i + "_1." + outputType + m_postfix` and the same with `"_2."`. -/
def filterPairPrintSetsOpenLoop ( m_prefix m_postfix outputType : List Byte) :
    List (List Byte) → List (List Byte) × List (List Byte)
      → List (List Byte) × List (List Byte)
  | [], files => files
  | i :: rest, (outputFiles1, outputFiles2) =>
    filterPairPrintSetsOpenLoop m_prefix m_postfix outputType rest
      (outputFiles1 ++ [ m_prefix ++ i ++ ascii "_1." ++ outputType ++ m_postfix],
        outputFiles2 ++ [ m_prefix ++ i ++ ascii "_2." ++ outputType ++ m_postfix])

/-- Opening section of `filterPairPrint(inputFiles1, inputFiles2,
outputType)` (lines 829-853): the loop, then four `outputFiles1.push_back`
calls, the last two both with `MULTI_MATCH + "_1."`. -/
def filterPairPrintSetsOpen ( m_prefix m_postfix : List Byte)
    (m_filterOrder : List (List Byte)) (NO_MATCH MULTI_MATCH outputType : List Byte) :
    List (List Byte) × List (List Byte) :=
  let (outputFiles1, outputFiles2) :=
    filterPairPrintSetsOpenLoop m_prefix m_postfix outputType m_filterOrder ([], [])
  let outputFiles1 := outputFiles1 ++
    [ m_prefix ++ NO_MATCH ++ ascii "_1." ++ outputType ++ m_postfix]
  let outputFiles1 := outputFiles1 ++
    [ m_prefix ++ NO_MATCH ++ ascii "_2." ++ outputType ++ m_postfix]
  let outputFiles1 := outputFiles1 ++
    [ m_prefix ++ MULTI_MATCH ++ ascii "_1." ++ outputType ++ m_postfix]
  let outputFiles1 := outputFiles1 ++
    [ m_prefix ++ MULTI_MATCH ++ ascii "_1." ++ outputType ++ m_postfix]
  (outputFiles1, outputFiles2)

/-- Closing loop of the paired printing routines:
`for (unsigned i = 0; i < m_filterOrder.size(); ++i)` with body
`outputFiles1[i].close(); outputFiles2[i].close();`. -/
def filterPairPrintCloseLoop (filterOrderSize size1 size2 : Nat) (fuel : Nat)
    (closed : List CloseCall) (i : Nat) : Exec (List CloseCall) :=
  if i < filterOrderSize then
    match fuel with
    | 0 => throw Fault.outOfFuel
    | fuel + 1 => do
      let closed ← closePairAt size1 size2 closed (CloseCall.files1 i)
      let closed ← closePairAt size1 size2 closed (CloseCall.files2 i)
      filterPairPrintCloseLoop filterOrderSize size1 size2 fuel closed (i + 1)
  else pure closed

/-- Closing section of the three paired printing routines (lines 428-454,
699-725 and 913-938, the same text): the `close()` calls made, in order. -/
def filterPairPrintClose (filterOrderSize size1 size2 : Nat) : Exec (List CloseCall) := do
  let closed ← filterPairPrintCloseLoop filterOrderSize size1 size2 filterOrderSize [] 0
  let closed ← closePairAt size1 size2 closed (CloseCall.files1 (filterOrderSize + 1))
  let closed ← closePairAt size1 size2 closed (CloseCall.files2 (filterOrderSize + 1))
  let closed ← closePairAt size1 size2 closed (CloseCall.files1 (filterOrderSize + 1))
  let closed ← closePairAt size1 size2 closed (CloseCall.files2 (filterOrderSize + 1))
  pure closed

/-- The writers of `filterPairPrint(file1, file2, outputType)`: the two
vectors as opened, and the `close()` calls made before the summary is
written. -/
def filterPairPrint ( m_prefix m_postfix : List Byte) (m_filterOrder : List (List Byte))
    (NO_MATCH MULTI_MATCH outputType : List Byte) :
    (List (List Byte) × List (List Byte)) × Exec (List CloseCall) :=
  let files := filterPairPrintOpen m_prefix m_postfix m_filterOrder NO_MATCH MULTI_MATCH
    outputType
  (files, filterPairPrintClose m_filterOrder.length files.1.length files.2.length)

/-- The writers of `filterPairPrint(file, outputType)`, whose opening and
closing sections repeat those of `filterPairPrint(file1, file2, outputType)`. -/
def filterPairPrintFile ( m_prefix m_postfix : List Byte) (m_filterOrder : List (List Byte))
    (NO_MATCH MULTI_MATCH outputType : List Byte) :
    (List (List Byte) × List (List Byte)) × Exec (List CloseCall) :=
  let files := filterPairPrintOpen m_prefix m_postfix m_filterOrder NO_MATCH MULTI_MATCH
    outputType
  (files, filterPairPrintClose m_filterOrder.length files.1.length files.2.length)

/-- The writers of `filterPairPrint(inputFiles1, inputFiles2, outputType)`. -/
def filterPairPrintSets ( m_prefix m_postfix : List Byte) (m_filterOrder : List (List Byte))
    (NO_MATCH MULTI_MATCH outputType : List Byte) :
    (List (List Byte) × List (List Byte)) × Exec (List CloseCall) :=
  let files := filterPairPrintSetsOpen m_prefix m_postfix m_filterOrder NO_MATCH MULTI_MATCH
    outputType
  (files, filterPairPrintClose m_filterOrder.length files.1.length files.2.length)

/-! ## `main` of `BioBloomCategorizer.cpp`

The command line is given as `getopt_long` hands it to the `switch`: the
options in order, then the operands `argv[optind..argc)`. For the options
read through a `stringstream`, the option carries what `convert >> x`
extracts, `none` when the extraction fails. `double` values are read as
rationals. -/

/-- One value returned by `getopt_long` in `main`: the cases `'m'`, `'t'`,
`'f'`, `'p'`, `'h'`, `'o'`, `'e'`, `'c'` of the `switch`, and `other` for its
`default`. -/
inductive OptEvent where
  | m (extracted : Option ℚ)
  | t (extracted : Option Nat)
  | f (optarg : List Byte)
  | p (optarg : List Byte)
  | h
  | o
  | e
  | c (extracted : Option Nat)
  | other

/-- The command line variables of `main`. -/
structure Options where
  outputPrefix : List Byte
  filtersFile : List Byte
  minHit : Nat
  percentHit : ℚ
  printReads : Bool
  die : Bool
  paired : Bool
  rawCounts : Nat

/-- How `main` ends, up to the declaration of the classifier: with an exit
status (`return` from `main` or `exit`), with the `std::out_of_range` that
`substr` throws and nothing catches, or by reaching
`BioBloomClassifier BBC(filterFilePaths, minHit, percentHit, rawCounts)`,
which loads the filters. -/
inductive MainResult where
  | exit (status : Nat)
  | out_of_range
  | construct (filterFilePaths : List (List Byte)) (minHit : Nat) (percentHit : ℚ)
      (rawCounts : Nat)

/-- The `while ((c = getopt_long(...)) != -1) switch (c)` loop of `main`;
an error is the status the program ends with (`return 0` in the cases `'m'`,
`'t'` and `'c'`, `exit(0)` in `printHelpDialog`). -/
def optionLoop : List OptEvent → Options → Proc Options
  | [], opts => pure opts
  | OptEvent.m extracted :: rest, opts =>
    match extracted with
    | none => throw 0
    | some percentHit =>
      if percentHit > 1 then throw 0
      else optionLoop rest { opts with percentHit := percentHit }
  | OptEvent.t extracted :: rest, opts =>
    match extracted with
    | none => throw 0
    | some minHit => optionLoop rest { opts with minHit := minHit }
  | OptEvent.f optarg :: rest, opts => optionLoop rest { opts with filtersFile := optarg }
  | OptEvent.p optarg :: rest, opts => optionLoop rest { opts with outputPrefix := optarg }
  | OptEvent.h :: _, _ => throw 0
  | OptEvent.o :: rest, opts => optionLoop rest { opts with printReads := true }
  | OptEvent.e :: rest, opts => optionLoop rest { opts with paired := true }
  | OptEvent.c extracted :: rest, opts =>
    match extracted with
    | none => throw 0
    | some rawCounts => optionLoop rest { opts with rawCounts := rawCounts }
  | OptEvent.other :: rest, opts => optionLoop rest { opts with die := true }

/-- White space as `operator>>` on a `stringstream` skips it. -/
def isspace (c : Byte) : Bool :=
  c = 32 || c = 9 || c = 10 || c = 11 || c = 12 || c = 13

/-- Loop `while (converter >> temp) currentInfoFile.push_back(temp)` of
`convertInputString`, over the characters left in the stream. -/
def convertLoop : List Byte → List Byte → List (List Byte) → List (List Byte)
  | [], temp, currentInfoFile =>
    if temp = [] then currentInfoFile else currentInfoFile ++ [temp]
  | ch :: rest, temp, currentInfoFile =>
    if isspace ch then
      if temp = [] then convertLoop rest [] currentInfoFile
      else convertLoop rest [] (currentInfoFile ++ [temp])
    else convertLoop rest (temp ++ [ch]) currentInfoFile

/-- Function `convertInputString`: the white-space separated words of the
input. -/
def convertInputString (inputString : List Byte) : List (List Byte) :=
  convertLoop inputString [] []

/-- The `size_t` subtraction `a - b`, wrapping below zero. -/
def subSize (a b : Nat) : Nat := (a + 2 ^ 64 - b % 2 ^ 64) % 2 ^ 64

/-- The call `s.substr(pos)`: the characters from `pos` to the end,
`std::out_of_range` (`none`) when `pos > s.size()`. -/
def substr (s : List Byte) (pos : Nat) : Option (List Byte) :=
  if pos > s.length then none else some (s.drop pos)

/-- Condition of the paired-mode check of `main`,
`inputFiles.size() != 2 || inputFiles[0].substr(inputFiles[0].size() - 4) == "bam"
|| inputFiles[1].substr(inputFiles[0].size() - 4) == "bam"`, evaluated left
to right; `none` when a `substr` throws. -/
def pairedCheck (inputFiles : List (List Byte)) : Option Bool :=
  if inputFiles.length ≠ 2 then some true
  else
    match substr (inputFiles.getD 0 []) (subSize (inputFiles.getD 0 []).length 4) with
    | none => none
    | some s0 =>
      if s0 = ascii "bam" then some true
      else
        match substr (inputFiles.getD 1 []) (subSize (inputFiles.getD 0 []).length 4) with
        | none => none
        | some s1 => some (decide (s1 = ascii "bam"))

/-- Function `folderCheck(path)`: `stat path` is `none` when `stat` fails and
else tells whether the path is a directory; an error is the exit status. -/
def folderCheck (stat : List Byte → Option Bool) (path : List Byte) : Proc Unit :=
  match stat path with
  | some isDir => if ¬ isDir then throw 1 else pure ()
  | none => throw 1

/-- The part of `main` after the option loop, up to the declaration of the
classifier. -/
def afterOptions (stat : List Byte → Option Bool) (opts : Options)
    (operands : List (List Byte)) : MainResult :=
  let filterFilePaths := convertInputString opts.filtersFile
  let inputFiles := convertInputString [] ++ operands
  match (if opts.paired then pairedCheck inputFiles else some false) with
  | none => MainResult.out_of_range
  | some true => MainResult.exit 1
  | some false =>
    let die := if inputFiles.length = 0 then true else opts.die
    let die := if filterFilePaths.length = 0 then true else die
    if die then MainResult.exit 1
    else
      let checked : Proc Unit :=
        if (47 : Byte) ∈ opts.outputPrefix then
          folderCheck stat
            (opts.outputPrefix.take
              (opts.outputPrefix.length - 1 - opts.outputPrefix.reverse.indexOf 47))
        else pure ()
      match checked with
      | Except.error status => MainResult.exit status
      | Except.ok _ =>
        MainResult.construct filterFilePaths opts.minHit opts.percentHit opts.rawCounts

/-- Function `main`, up to the declaration of the classifier. -/
def main (stat : List Byte → Option Bool) (options : List OptEvent)
    (operands : List (List Byte)) : MainResult :=
  match optionLoop options
      { outputPrefix := []
        filtersFile := []
        minHit := 2
        percentHit := 1 / 5
        printReads := false
        die := false
        paired := false
        rawCounts := 0 } with
  | Except.error status => MainResult.exit status
  | Except.ok opts => afterOptions stat opts operands

/-! ## Text of an arbitrary packed buffer -/

set_option maxRecDepth 100000 in
theorem lookup_fw0 : ∀ c : Byte, lookup fw0 c = if isACGT c then 64 * baseCode c else 255 := by
  decide

set_option maxRecDepth 100000 in
theorem lookup_fw1 : ∀ c : Byte, lookup fw1 c = if isACGT c then 16 * baseCode c else 255 := by
  decide

set_option maxRecDepth 100000 in
theorem lookup_fw2 : ∀ c : Byte, lookup fw2 c = if isACGT c then 4 * baseCode c else 255 := by
  decide

set_option maxRecDepth 100000 in
theorem lookup_fw3 : ∀ c : Byte, lookup fw3 c = if isACGT c then baseCode c else 255 := by
  decide

set_option maxRecDepth 100000 in
theorem lookup_rv0 :
    ∀ c : Byte, lookup rv0 c = if isACGT c then 64 * (3 - baseCode c) else 255 := by
  decide

set_option maxRecDepth 100000 in
theorem lookup_rv1 :
    ∀ c : Byte, lookup rv1 c = if isACGT c then 16 * (3 - baseCode c) else 255 := by
  decide

set_option maxRecDepth 100000 in
theorem lookup_rv2 :
    ∀ c : Byte, lookup rv2 c = if isACGT c then 4 * (3 - baseCode c) else 255 := by
  decide

set_option maxRecDepth 100000 in
theorem lookup_rv3 : ∀ c : Byte, lookup rv3 c = if isACGT c then 3 - baseCode c else 255 := by
  decide

set_option maxRecDepth 100000 in
theorem baseCode_lt : ∀ c : Byte, baseCode c < 4 := by decide

set_option maxRecDepth 100000 in
theorem isACGT_complement : ∀ c : Byte, isACGT (complement c) = isACGT c := by decide

set_option maxRecDepth 100000 in
theorem baseCode_complement :
    ∀ c : Byte, isACGT c = true → baseCode (complement c) = 3 - baseCode c := by decide

set_option maxRecDepth 100000 in
theorem complement_complement : ∀ c : Byte, complement (complement c) = c := by decide

theorem charAt_eq (sequence : List Byte) (i : Nat) (h : i ≤ sequence.length) :
    charAt sequence i = Except.ok (sequence.getD i 0) := by
  unfold charAt
  by_cases h1 : i < sequence.length
  · simp [h1, pure, Except.pure, List.getD_eq_getElem?_getD]
  · have h2 : i = sequence.length := by omega
    simp [h2, pure, Except.pure, List.getD_eq_getElem?_getD]

theorem readAt_eq (buf : List Nat) (i : Nat) (h : i < buf.length) :
    readAt buf i = Except.ok (buf.getD i 0) := by
  unfold readAt
  simp [h, pure, Except.pure, List.getD_eq_getElem?_getD]

theorem writeAt_eq (buf : List Nat) (i v : Nat) (h : i < buf.length) :
    writeAt buf i v = Except.ok (buf.set i v) := by
  unfold writeAt
  simp [h, pure, Except.pure]

theorem orAt_eq (buf : List Nat) (i v : Nat) (h : i < buf.length) :
    orAt buf i v = Except.ok (buf.set i (buf.getD i 0 ||| v)) := by
  unfold orAt
  rw [readAt_eq buf i h]
  simp only [bind, Except.bind]
  exact writeAt_eq buf i _ h

theorem getD_set_self (buf : List Nat) (i v : Nat) (h : i < buf.length) :
    (buf.set i v).getD i 0 = v := by
  simp [List.getD_eq_getElem?_getD, h]

theorem getD_set_other (buf : List Nat) (i j v : Nat) (h : i ≠ j) :
    (buf.set i v).getD j 0 = buf.getD j 0 := by
  simp [List.getD_eq_getElem?_getD, List.getElem?_set_ne h]

theorem packFour_eq (t0 t1 t2 t3 : List Nat) (next last : Nat → Nat) (sequence : List Byte)
    (buf : List Nat) (o i : Nat) (ho : o < buf.length) (hz : buf.getD o 0 = 0)
    (h0 : i ≤ sequence.length) (h1 : next i ≤ sequence.length)
    (h2 : next (next i) ≤ sequence.length)
    (h3 : next (next (next i)) ≤ sequence.length) :
    packFour t0 t1 t2 t3 next last sequence buf o i =
      if (lookup t0 (sequence.getD i 0) ||| lookup t1 (sequence.getD (next i) 0)
            ||| lookup t2 (sequence.getD (next (next i)) 0)) = 255
      then Except.ok none
      else if lookup t3 (sequence.getD (next (next (next i))) 0) = 255 then Except.ok none
      else Except.ok (some (buf.set o
            (lookup t0 (sequence.getD i 0) ||| lookup t1 (sequence.getD (next i) 0)
              ||| lookup t2 (sequence.getD (next (next i)) 0)
              ||| lookup t3 (sequence.getD (next (next (next i))) 0)),
          last (next (next (next i))))) := by
  unfold packFour
  simp only [charAt_eq _ _ h0, charAt_eq _ _ h1, charAt_eq _ _ h2, charAt_eq _ _ h3,
    bind, Except.bind, pure, Except.pure]
  rw [orAt_eq _ _ _ ho]
  simp only []
  rw [orAt_eq _ _ _ (by simpa using ho)]
  simp only []
  rw [orAt_eq _ _ _ (by simpa using ho)]
  simp only []
  rw [readAt_eq _ _ (by simpa using ho)]
  simp only [getD_set_self _ _ _ ho, List.set_set, hz, Nat.zero_or,
    getD_set_self _ _ _ (show o < (buf.set o _).length by simpa using ho)]
  split
  · rfl
  · split
    · rfl
    · rw [orAt_eq _ _ _ (by simpa using ho)]
      simp only [getD_set_self _ _ _ ho, List.set_set]

/-! ## Theorems: packing four bases -/

theorem or_digits_fin : ∀ a b c d : Fin 4,
    (64 * a.val ||| 16 * b.val ||| 4 * c.val) ≠ 255 ∧ d.val ≠ 255
      ∧ (64 * a.val ||| 16 * b.val ||| 4 * c.val ||| d.val)
          = 64 * a.val + 16 * b.val + 4 * c.val + d.val := by
  decide

theorem or_digits (a b c d : Nat) (ha : a < 4) (hb : b < 4) (hc : c < 4) (hd : d < 4) :
    (64 * a ||| 16 * b ||| 4 * c) ≠ 255 ∧ d ≠ 255
      ∧ (64 * a ||| 16 * b ||| 4 * c ||| d) = 64 * a + 16 * b + 4 * c + d :=
  or_digits_fin ⟨a, ha⟩ ⟨b, hb⟩ ⟨c, hc⟩ ⟨d, hd⟩

set_option maxRecDepth 100000 in
theorem or_255_right_fin : ∀ x : Fin 256, x.val ||| 255 = 255 := by decide

set_option maxRecDepth 100000 in
theorem or_255_left_fin : ∀ x : Fin 256, 255 ||| x.val = 255 := by decide

theorem or_255_right (x : Nat) (h : x < 256) : x ||| 255 = 255 := or_255_right_fin ⟨x, h⟩

theorem or_255_left (x : Nat) (h : x < 256) : 255 ||| x = 255 := or_255_left_fin ⟨x, h⟩

theorem or_three_255 (x y z : Nat) (hx : x < 256) (hy : y < 256) (hz : z < 256)
    (h : x = 255 ∨ y = 255 ∨ z = 255) : x ||| y ||| z = 255 := by
  have hxy : x ||| y < 256 := @Nat.or_lt_two_pow x y 8 hx hy
  rcases h with h | h | h
  · subst h
    rw [or_255_left y hy, or_255_left z hz]
  · subst h
    rw [or_255_right x hx, or_255_left z hz]
  · subst h
    exact or_255_right _ hxy

theorem pack_ite {α : Type} (x0 x1 x2 x3 : Bool) (a b c d : Nat) (ha : a < 4) (hb : b < 4)
    (hc : c < 4) (hd : d < 4) (f : Nat → α) (z : α) :
    (if ((if x0 = true then 64 * a else 255) ||| (if x1 = true then 16 * b else 255)
          ||| (if x2 = true then 4 * c else 255)) = 255 then z
      else if (if x3 = true then d else 255) = 255 then z
      else f (((if x0 = true then 64 * a else 255) ||| (if x1 = true then 16 * b else 255)
          ||| (if x2 = true then 4 * c else 255)) ||| (if x3 = true then d else 255)))
      = if (x0 && x1 && x2 && x3) = true then f (64 * a + 16 * b + 4 * c + d) else z := by
  have facts := or_digits a b c d ha hb hc hd
  have bad : (x0 = false ∨ x1 = false ∨ x2 = false) →
      ((if x0 = true then 64 * a else 255) ||| (if x1 = true then 16 * b else 255)
          ||| (if x2 = true then 4 * c else 255)) = 255 := by
    intro h
    apply or_three_255
    · split <;> omega
    · split <;> omega
    · split <;> omega
    · rcases h with h | h | h
      · left; simp [h]
      · right; left; simp [h]
      · right; right; simp [h]
  cases x0
  · rw [if_pos (bad (Or.inl rfl))]; simp
  · cases x1
    · rw [if_pos (bad (Or.inr (Or.inl rfl)))]; simp
    · cases x2
      · rw [if_pos (bad (Or.inr (Or.inr rfl)))]; simp
      · cases x3
        · simp only [if_true, facts.1, if_false]
          simp
        · simp only [if_true, facts.1, facts.2.1, if_false, facts.2.2, Bool.and_self]

theorem packFour_fw (last : Nat → Nat) (sequence : List Byte) (buf : List Nat) (o i : Nat)
    (ho : o < buf.length) (hz : buf.getD o 0 = 0) (hi : i + 3 < sequence.length) :
    packFour fw0 fw1 fw2 fw3 incSize last sequence buf o i =
      if (isACGT (sequence.getD i 0) && isACGT (sequence.getD (i + 1) 0)
          && isACGT (sequence.getD (i + 2) 0) && isACGT (sequence.getD (i + 3) 0)) = true
      then Except.ok (some (buf.set o
        (64 * baseCode (sequence.getD i 0) + 16 * baseCode (sequence.getD (i + 1) 0)
          + 4 * baseCode (sequence.getD (i + 2) 0) + baseCode (sequence.getD (i + 3) 0)),
        last (i + 3)))
      else Except.ok none := by
  rw [packFour_eq _ _ _ _ _ _ _ _ _ _ ho hz (by omega) (by unfold incSize; omega)
    (by unfold incSize; omega) (by unfold incSize; omega)]
  simp only [incSize, lookup_fw0, lookup_fw1, lookup_fw2, lookup_fw3]
  have e3 : i + 1 + 1 + 1 = i + 3 := by omega
  have e2 : i + 1 + 1 = i + 2 := by omega
  rw [e3, e2]
  exact pack_ite _ _ _ _ _ _ _ _ (baseCode_lt _) (baseCode_lt _) (baseCode_lt _)
    (baseCode_lt _) (fun v => Except.ok (some (buf.set o v, last (i + 3)))) (Except.ok none)

theorem packFour_rv (sequence : List Byte) (buf : List Nat) (o i : Nat)
    (ho : o < buf.length) (hz : buf.getD o 0 = 0) (hi : i + 3 < sequence.length) :
    packFour rv0 rv1 rv2 rv3 decSize decSize sequence buf o (i + 3) =
      if (isACGT (sequence.getD (i + 3) 0) && isACGT (sequence.getD (i + 2) 0)
          && isACGT (sequence.getD (i + 1) 0) && isACGT (sequence.getD i 0)) = true
      then Except.ok (some (buf.set o
        (64 * (3 - baseCode (sequence.getD (i + 3) 0))
          + 16 * (3 - baseCode (sequence.getD (i + 2) 0))
          + 4 * (3 - baseCode (sequence.getD (i + 1) 0)) + (3 - baseCode (sequence.getD i 0))),
        decSize i))
      else Except.ok none := by
  have d1 : decSize (i + 3) = i + 2 := by unfold decSize; simp
  have d2 : decSize (i + 2) = i + 1 := by unfold decSize; simp
  have d3 : decSize (i + 1) = i := by unfold decSize; simp
  rw [packFour_eq _ _ _ _ _ _ _ _ _ _ ho hz (by omega) (by rw [d1]; omega)
    (by rw [d1, d2]; omega) (by rw [d1, d2, d3]; omega)]
  simp only [d1, d2, d3, lookup_rv0, lookup_rv1, lookup_rv2, lookup_rv3]
  exact pack_ite _ _ _ _ _ _ _ _ (by omega) (by omega) (by omega) (by omega)
    (fun v => Except.ok (some (buf.set o v, decSize i))) (Except.ok none)

/-! ## Theorems: windows, filled buffers and the byte-filling loop -/

theorem window_length (sequence : List Byte) (pos k : Nat) (h : pos + k ≤ sequence.length) :
    (window sequence pos k).length = k := by
  unfold window
  simp only [List.length_take, List.length_drop]
  omega

theorem window_getD (sequence : List Byte) (pos k t : Nat) (h : t < k) :
    (window sequence pos k).getD t 0 = sequence.getD (pos + t) 0 := by
  unfold window
  simp only [List.getD_eq_getElem?_getD, List.getElem?_take, h, if_true, List.getElem?_drop]

theorem fillWith_length (G : Nat → Nat) :
    ∀ (n o : Nat) (buf : List Nat), (fillWith G buf o n).length = buf.length := by
  intro n
  induction n with
  | zero => intro o buf; rfl
  | succ n ih =>
    intro o buf
    show (fillWith G (buf.set o (G o)) (o + 1) n).length = buf.length
    rw [ih]
    simp

theorem fillWith_getD (G : Nat → Nat) :
    ∀ (n o : Nat) (buf : List Nat) (j : Nat), o + n ≤ buf.length →
      (fillWith G buf o n).getD j 0 = if o ≤ j ∧ j < o + n then G j else buf.getD j 0 := by
  intro n
  induction n with
  | zero =>
    intro o buf j _
    have : ¬ (o ≤ j ∧ j < o + 0) := by omega
    rw [if_neg this]
    rfl
  | succ n ih =>
    intro o buf j h
    show (fillWith G (buf.set o (G o)) (o + 1) n).getD j 0 = _
    rw [ih (o + 1) _ j (by simp; omega)]
    by_cases hj : o = j
    · subst hj
      have h1 : ¬ (o + 1 ≤ o ∧ o < o + 1 + n) := by omega
      have h2 : o ≤ o ∧ o < o + (n + 1) := by omega
      rw [if_neg h1, if_pos h2, getD_set_self _ _ _ (by omega)]
    · rw [getD_set_other _ _ _ _ hj]
      by_cases hc : o + 1 ≤ j ∧ j < o + 1 + n
      · rw [if_pos hc, if_pos (by omega)]
      · rw [if_neg hc, if_neg (by omega)]

theorem fillLoop_done (p : ReadsProcessor) (t0 t1 t2 t3 : List Nat) (next last : Nat → Nat)
    (sequence : List Byte) (fuel : Nat) (buf : List Nat) (o idx : Nat)
    (h : ¬ (o + p.hangingBasesExist < p.kmerSizeInBytes)) :
    fillLoop p t0 t1 t2 t3 next last sequence fuel buf o idx
      = Except.ok (some (buf, o, idx)) := by
  cases fuel <;> simp [fillLoop, h, pure, Except.pure]

theorem fillLoop_eq (p : ReadsProcessor) (t0 t1 t2 t3 : List Nat) (next last : Nat → Nat)
    (sequence : List Byte) (full : Nat)
    (hB : p.kmerSizeInBytes = full + p.hangingBasesExist)
    (G : Nat → Nat) (V : Nat → Bool) (I : Nat → Nat) :
    ∀ (n fuel o : Nat) (buf : List Nat), o + n = full → n ≤ fuel →
      buf.length = p.kmerSizeInBytes → (∀ j, o ≤ j → buf.getD j 0 = 0) →
      (∀ (j : Nat) (b : List Nat), o ≤ j → j < full → b.length = p.kmerSizeInBytes →
        b.getD j 0 = 0 →
        packFour t0 t1 t2 t3 next last sequence b j (I j)
          = if V j = true then Except.ok (some (b.set j (G j), I (j + 1)))
            else Except.ok none) →
      fillLoop p t0 t1 t2 t3 next last sequence fuel buf o (I o)
        = if (List.range' o n).all V = true
          then Except.ok (some (fillWith G buf o n, full, I full))
          else Except.ok none := by
  intro n
  induction n with
  | zero =>
    intro fuel o buf hon _ _ _ _
    have ho : o = full := by omega
    subst ho
    rw [fillLoop_done _ _ _ _ _ _ _ _ _ _ _ _ (by omega)]
    simp [fillWith]
  | succ n ih =>
    intro fuel o buf hon hfuel hlen hzero hblk
    obtain ⟨f, rfl⟩ : ∃ f, fuel = f + 1 := ⟨fuel - 1, by omega⟩
    unfold fillLoop
    rw [if_pos (by omega)]
    simp only []
    rw [hblk o buf (le_refl o) (by omega) hlen (hzero o (le_refl o))]
    cases hv : V o
    · simp [List.range', hv, bind, Except.bind, pure, Except.pure]
    · simp only [if_true, bind, Except.bind]
      rw [ih f (o + 1) (buf.set o (G o)) (by omega) (by omega) (by simpa using hlen)
        (fun j hj => by rw [getD_set_other _ _ _ _ (by omega)]; exact hzero j (by omega))
        (fun j b hj1 hj2 hb hbz => hblk j b (by omega) hj2 hb hbz)]
      simp [List.range', hv, fillWith]

/-! ## Theorems: geometry, packing arithmetic, blocks in window coordinates -/

theorem new_geometry (k : Nat) (fwMem rvMem : Nat → Nat) :
    Geometry (ReadsProcessor.new k fwMem rvMem) k := by
  unfold Geometry ReadsProcessor.new
  by_cases h8 : k % 8 = 0
  · have h4 : k % 4 = 0 := by omega
    simp [h8, h4]
    omega
  · by_cases h4 : k % 4 = 0
    · simp [h8, h4]
      omega
    · simp [h8, h4]
      omega

theorem digit_lt (w : List Byte) (t : Nat) : digit w t < 4 := by
  unfold digit
  split
  · exact baseCode_lt _
  · omega

theorem digit_eq (w : List Byte) (t : Nat) (h : t < w.length) :
    digit w t = baseCode (w.getD t 0) := by
  unfold digit
  rw [if_pos h]

theorem digit_zero (w : List Byte) (t : Nat) (h : w.length ≤ t) : digit w t = 0 := by
  unfold digit
  rw [if_neg (by omega)]

theorem shift_digits_fin : ∀ a b c d : Fin 4,
    (a.val <<< 6 ||| b.val <<< 4 ||| c.val <<< 2 ||| d.val)
      = 64 * a.val + 16 * b.val + 4 * c.val + d.val := by
  decide

theorem packByte_eq (w : List Byte) (j : Nat) :
    packByte w j = 64 * digit w (4 * j) + 16 * digit w (4 * j + 1)
      + 4 * digit w (4 * j + 2) + digit w (4 * j + 3) :=
  shift_digits_fin ⟨_, digit_lt w _⟩ ⟨_, digit_lt w _⟩ ⟨_, digit_lt w _⟩ ⟨_, digit_lt w _⟩

theorem packByte_full (w : List Byte) (j : Nat) (h : 4 * j + 3 < w.length) :
    packByte w j = fourFrom w (4 * j) := by
  rw [packByte_eq, digit_eq w _ (by omega), digit_eq w _ (by omega), digit_eq w _ (by omega),
    digit_eq w _ h]
  rfl

theorem pack_length (w : List Byte) : (pack w).length = (w.length + 3) / 4 := by
  simp [pack]

theorem pack_getD (w : List Byte) (j : Nat) (h : j < (w.length + 3) / 4) :
    (pack w).getD j 0 = packByte w j := by
  simp [pack, List.getD_eq_getElem?_getD, h]

theorem list_ext_getD (a b : List Nat) (hl : a.length = b.length)
    (h : ∀ j, j < a.length → a.getD j 0 = b.getD j 0) : a = b := by
  apply List.ext_getElem hl
  intro n h1 h2
  have := h n h1
  simpa [List.getD_eq_getElem?_getD, h1, h2] using this

theorem eq_pack (w : List Byte) (buf : List Nat) (hl : buf.length = (w.length + 3) / 4)
    (h : ∀ j, j < (w.length + 3) / 4 → buf.getD j 0 = packByte w j) : buf = pack w := by
  apply list_ext_getD _ _ (by rw [hl, pack_length])
  intro j hj
  rw [h j (by omega), pack_getD w j (by omega)]

theorem fw_block (last : Nat → Nat) (sequence : List Byte) (pos k : Nat) (w : List Byte)
    (hw : w = window sequence pos k) (hlen : pos + k ≤ sequence.length)
    (b : List Nat) (o t : Nat) (ht : t + 3 < k) (ho : o < b.length) (hz : b.getD o 0 = 0) :
    packFour fw0 fw1 fw2 fw3 incSize last sequence b o (pos + t)
      = if validFrom w t = true
        then Except.ok (some (b.set o (fourFrom w t), last (pos + t + 3)))
        else Except.ok none := by
  rw [packFour_fw last sequence b o (pos + t) ho hz (by omega)]
  unfold validFrom validAt fourFrom
  rw [hw, window_getD _ _ _ t (by omega), window_getD _ _ _ (t + 1) (by omega),
    window_getD _ _ _ (t + 2) (by omega), window_getD _ _ _ (t + 3) (by omega)]
  simp only [Nat.add_assoc]

theorem rv_block (sequence : List Byte) (pos k : Nat) (w : List Byte)
    (hw : w = window sequence pos k) (hlen : pos + k ≤ sequence.length)
    (b : List Nat) (o t : Nat) (ht : t + 3 < k) (ho : o < b.length) (hz : b.getD o 0 = 0) :
    packFour rv0 rv1 rv2 rv3 decSize decSize sequence b o (pos + t + 3)
      = if validFrom w t = true
        then Except.ok (some (b.set o (fourBack w t), decSize (pos + t)))
        else Except.ok none := by
  rw [packFour_rv sequence b o (pos + t) ho hz (by omega)]
  unfold validFrom validAt fourBack
  rw [hw, window_getD _ _ _ t (by omega), window_getD _ _ _ (t + 1) (by omega),
    window_getD _ _ _ (t + 2) (by omega), window_getD _ _ _ (t + 3) (by omega)]
  simp only [Nat.add_assoc]
  have e : (isACGT (sequence.getD (pos + (t + 3)) 0) && isACGT (sequence.getD (pos + (t + 2)) 0)
      && isACGT (sequence.getD (pos + (t + 1)) 0) && isACGT (sequence.getD (pos + t) 0))
      = (isACGT (sequence.getD (pos + t) 0) && isACGT (sequence.getD (pos + (t + 1)) 0)
      && isACGT (sequence.getD (pos + (t + 2)) 0) && isACGT (sequence.getD (pos + (t + 3)) 0)) := by
    cases isACGT (sequence.getD (pos + (t + 3)) 0) <;>
      cases isACGT (sequence.getD (pos + (t + 2)) 0) <;>
      cases isACGT (sequence.getD (pos + (t + 1)) 0) <;>
      cases isACGT (sequence.getD (pos + t) 0) <;> rfl
  rw [e]

/-! ## Theorems: the last, partial byte of each strand -/

theorem shr_one_fin : ∀ a b : Fin 4,
    ((64 * a.val) >>> 2) ||| (64 * b.val) = 64 * b.val + 16 * a.val := by decide

theorem shr_two_fin : ∀ a b c : Fin 4,
    ((64 * b.val + 16 * a.val) >>> 2) ||| (64 * c.val)
      = 64 * c.val + 16 * b.val + 4 * a.val := by decide

theorem lookup_fw0_valid (c : Byte) (h : isACGT c = true) : lookup fw0 c = 64 * baseCode c := by
  rw [lookup_fw0, if_pos h]

theorem lookup_rv0_valid (c : Byte) (h : isACGT c = true) :
    lookup rv0 c = 64 * (3 - baseCode c) := by
  rw [lookup_rv0, if_pos h]

theorem fwLastLoop_done (sequence : List Byte) (index o fuel : Nat) (fw : List Nat)
    (lastPos : Nat) (h : lastPos < index) :
    fwLastLoop sequence index o fuel fw lastPos = Except.ok fw := by
  cases fuel <;> simp [fwLastLoop, Nat.not_le.mpr h, pure, Except.pure]

theorem fwLastLoop_step (sequence : List Byte) (index o fuel : Nat) (fw : List Nat)
    (lastPos : Nat) (h : index ≤ lastPos) (ho : o < fw.length)
    (hl : lastPos ≤ sequence.length) :
    fwLastLoop sequence index o (fuel + 1) fw lastPos
      = fwLastLoop sequence index o fuel
          (fw.set o ((fw.getD o 0 >>> 2) ||| lookup fw0 (sequence.getD lastPos 0)))
          (decSize lastPos) := by
  rw [fwLastLoop, if_pos h]
  rw [readAt_eq _ _ ho]
  simp only [bind, Except.bind]
  rw [writeAt_eq _ _ _ ho, charAt_eq _ _ hl]
  simp only []
  rw [orAt_eq _ _ _ (by simpa using ho)]
  simp only [getD_set_self _ _ _ ho, List.set_set]

theorem rvLastLoop_done (sequence : List Byte) (revIndex o fuel : Nat) (rv : List Nat)
    (position : Nat) (h : revIndex < position) :
    rvLastLoop sequence revIndex o fuel rv position = Except.ok rv := by
  cases fuel <;> simp [rvLastLoop, Nat.not_le.mpr h, pure, Except.pure]

theorem rvLastLoop_step (sequence : List Byte) (revIndex o fuel : Nat) (rv : List Nat)
    (position : Nat) (h : position ≤ revIndex) (ho : o < rv.length)
    (hl : position ≤ sequence.length) :
    rvLastLoop sequence revIndex o (fuel + 1) rv position
      = rvLastLoop sequence revIndex o fuel
          (rv.set o ((rv.getD o 0 >>> 2) ||| lookup rv0 (sequence.getD position 0)))
          (incSize position) := by
  rw [rvLastLoop, if_pos h]
  rw [readAt_eq _ _ ho]
  simp only [bind, Except.bind]
  rw [writeAt_eq _ _ _ ho, charAt_eq _ _ hl]
  simp only []
  rw [orAt_eq _ _ _ (by simpa using ho)]
  simp only [getD_set_self _ _ _ ho, List.set_set]

/-- Forward strand: the code from `size_t lastPos = position + kmerSize - 1`
to the end of the last-byte loop leaves `packByte w (k/4)` in the last byte
and touches no other byte. -/
theorem fw_last_byte (sequence : List Byte) (pos k : Nat) (w : List Byte)
    (hw : w = window sequence pos k) (hlen : pos + k ≤ sequence.length) (hk : 3 < k)
    (h4 : k % 4 ≠ 0) (fw : List Nat) (hfl : k / 4 < fw.length) (fuel : Nat) (hfuel : 2 ≤ fuel)
    (hv : ∀ t, 4 * (k / 4) ≤ t → t < k → validAt w t = true) :
    ∃ fw1, fwLastLoop sequence (pos + 4 * (k / 4)) (k / 4) fuel
          (fw.set (k / 4) (lookup fw0 (sequence.getD (decSize (pos + k)) 0)))
          (decSize (decSize (pos + k))) = Except.ok fw1
      ∧ fw1.length = fw.length ∧ fw1.getD (k / 4) 0 = packByte w (k / 4)
      ∧ ∀ j, j ≠ k / 4 → fw1.getD j 0 = fw.getD j 0 := by
  have hwl : w.length = k := by rw [hw]; exact window_length _ _ _ hlen
  have d1 : decSize (pos + k) = pos + k - 1 := by unfold decSize; rw [if_neg (by omega)]
  have d2 : decSize (pos + k - 1) = pos + k - 2 := by
    unfold decSize; rw [if_neg (by omega)]; omega
  have d3 : decSize (pos + k - 2) = pos + k - 3 := by
    unfold decSize; rw [if_neg (by omega)]; omega
  have d4 : decSize (pos + k - 3) = pos + k - 4 := by
    unfold decSize; rw [if_neg (by omega)]; omega
  have hget : ∀ t, t < k → sequence.getD (pos + t) 0 = w.getD t 0 := by
    intro t ht; rw [hw, window_getD _ _ _ t ht]
  have hval : ∀ t, 4 * (k / 4) ≤ t → t < k →
      lookup fw0 (sequence.getD (pos + t) 0) = 64 * baseCode (w.getD t 0) := by
    intro t h1 h2
    rw [hget t h2]
    exact lookup_fw0_valid _ (hv t h1 h2)
  obtain ⟨fuel, rfl⟩ : ∃ f, fuel = f + 2 := ⟨fuel - 2, by omega⟩
  rw [d1, d2]
  have e1 : pos + k - 1 = pos + (k - 1) := by omega
  rw [e1, hval (k - 1) (by omega) (by omega)]
  have hmod : k % 4 = 1 ∨ k % 4 = 2 ∨ k % 4 = 3 := by omega
  rcases hmod with hm | hm | hm
  · -- one hanging base: the loop body never runs
    rw [fwLastLoop_done _ _ _ _ _ _ (by omega)]
    refine ⟨_, rfl, by simp, ?_, fun j hj => getD_set_other _ _ _ _ (Ne.symm hj)⟩
    rw [getD_set_self _ _ _ hfl, packByte_eq, digit_eq w _ (by omega),
      digit_zero w _ (by omega), digit_zero w _ (by omega), digit_zero w _ (by omega)]
    have : 4 * (k / 4) = k - 1 := by omega
    rw [this]
    omega
  · -- two hanging bases: one pass
    rw [fwLastLoop_step _ _ _ _ _ _ (by omega) (by simpa using hfl) (by omega),
      d3, fwLastLoop_done _ _ _ _ _ _ (by omega)]
    have e2 : pos + k - 2 = pos + (k - 2) := by omega
    simp only [getD_set_self _ _ _ hfl, List.set_set]
    rw [e2, hval (k - 2) (by omega) (by omega)]
    refine ⟨_, rfl, by simp, ?_, fun j hj => getD_set_other _ _ _ _ (Ne.symm hj)⟩
    rw [getD_set_self _ _ _ hfl, packByte_eq, digit_eq w _ (by omega),
      digit_eq w _ (by omega), digit_zero w _ (by omega), digit_zero w _ (by omega)]
    have t1 : 4 * (k / 4) = k - 2 := by omega
    have t2 : 4 * (k / 4) + 1 = k - 1 := by omega
    rw [t1, ← t1, t2]
    have := shr_one_fin ⟨_, baseCode_lt (w.getD (k - 1) 0)⟩ ⟨_, baseCode_lt (w.getD (k - 2) 0)⟩
    simp only [] at this
    rw [t1, this]
    omega
  · -- three hanging bases: two passes
    rw [fwLastLoop_step _ _ _ _ _ _ (by omega) (by simpa using hfl) (by omega),
      d3, fwLastLoop_step _ _ _ _ _ _ (by omega) (by simpa using hfl) (by omega),
      d4, fwLastLoop_done _ _ _ _ _ _ (by omega)]
    have e2 : pos + k - 2 = pos + (k - 2) := by omega
    have e3 : pos + k - 3 = pos + (k - 3) := by omega
    simp only [getD_set_self _ _ _ hfl, List.set_set,
      getD_set_self _ _ _ (show k / 4 < (fw.set (k / 4) _).length by simpa using hfl)]
    rw [e2, e3, hval (k - 2) (by omega) (by omega), hval (k - 3) (by omega) (by omega)]
    refine ⟨_, rfl, by simp, ?_, fun j hj => getD_set_other _ _ _ _ (Ne.symm hj)⟩
    rw [getD_set_self _ _ _ hfl, packByte_eq, digit_eq w _ (by omega),
      digit_eq w _ (by omega), digit_eq w _ (by omega), digit_zero w _ (by omega)]
    have t1 : 4 * (k / 4) = k - 3 := by omega
    have t2 : k - 3 + 1 = k - 2 := by omega
    have t3 : k - 3 + 2 = k - 1 := by omega
    rw [t1, t2, t3]
    have s1 := shr_one_fin ⟨_, baseCode_lt (w.getD (k - 1) 0)⟩
      ⟨_, baseCode_lt (w.getD (k - 2) 0)⟩
    have s2 := shr_two_fin ⟨_, baseCode_lt (w.getD (k - 1) 0)⟩
      ⟨_, baseCode_lt (w.getD (k - 2) 0)⟩ ⟨_, baseCode_lt (w.getD (k - 3) 0)⟩
    simp only [] at s1 s2
    rw [s1, s2]
    omega

/-! ## Theorems: reverse complement, last byte of the reverse strand -/

theorem reverseComplement_length (w : List Byte) : (reverseComplement w).length = w.length := by
  simp [reverseComplement]

theorem reverseComplement_getD (w : List Byte) (t : Nat) (h : t < w.length) :
    (reverseComplement w).getD t 0 = complement (w.getD (w.length - 1 - t) 0) := by
  unfold reverseComplement
  have h2 : w.length - 1 - t < w.length := by omega
  simp [List.getD_eq_getElem?_getD, List.getElem?_reverse, h, h2]

theorem digit_reverseComplement (w : List Byte) (t : Nat) (h : t < w.length)
    (hv : validAt w (w.length - 1 - t) = true) :
    digit (reverseComplement w) t = 3 - baseCode (w.getD (w.length - 1 - t) 0) := by
  rw [digit_eq _ _ (by rw [reverseComplement_length]; exact h), reverseComplement_getD w t h]
  exact baseCode_complement _ hv

/-- Reverse strand: the code from `rv[outputIndex] = rv0[sequence[position++]]`
to the end of the last-byte loop leaves the last byte of the packing of the
reverse complement and touches no other byte. -/
theorem rv_last_byte (sequence : List Byte) (pos k : Nat) (w : List Byte)
    (hw : w = window sequence pos k) (hlen : pos + k ≤ sequence.length) (hk : 3 < k)
    (h4 : k % 4 ≠ 0) (rv : List Nat) (hfl : k / 4 < rv.length) (fuel : Nat) (hfuel : 2 ≤ fuel)
    (hv : ∀ t, t < k % 4 → validAt w t = true) :
    ∃ rv1, rvLastLoop sequence (decSize (pos + k - 4 * (k / 4))) (k / 4) fuel
          (rv.set (k / 4) (lookup rv0 (sequence.getD pos 0))) (incSize pos) = Except.ok rv1
      ∧ rv1.length = rv.length
      ∧ rv1.getD (k / 4) 0 = packByte (reverseComplement w) (k / 4)
      ∧ ∀ j, j ≠ k / 4 → rv1.getD j 0 = rv.getD j 0 := by
  have hwl : w.length = k := by rw [hw]; exact window_length _ _ _ hlen
  have hrl : (reverseComplement w).length = k := by rw [reverseComplement_length, hwl]
  have d1 : decSize (pos + k - 4 * (k / 4)) = pos + k % 4 - 1 := by
    unfold decSize; rw [if_neg (by omega)]; omega
  have hval : ∀ t, t < k % 4 →
      lookup rv0 (sequence.getD (pos + t) 0) = 64 * (3 - baseCode (w.getD t 0)) := by
    intro t h1
    have : sequence.getD (pos + t) 0 = w.getD t 0 := by
      rw [hw, window_getD _ _ _ t (by omega)]
    rw [this]
    exact lookup_rv0_valid _ (hv t h1)
  have hdig : ∀ t, k - k % 4 ≤ t → t < k →
      digit (reverseComplement w) t = 3 - baseCode (w.getD (k - 1 - t) 0) := by
    intro t h1 h2
    have := digit_reverseComplement w t (by omega) (by rw [hwl]; exact hv _ (by omega))
    rw [hwl] at this
    exact this
  obtain ⟨fuel, rfl⟩ : ∃ f, fuel = f + 2 := ⟨fuel - 2, by omega⟩
  rw [d1]
  have e0 : sequence.getD pos 0 = sequence.getD (pos + 0) 0 := by rw [Nat.add_zero]
  rw [e0, hval 0 (by omega)]
  unfold incSize
  have hmod : k % 4 = 1 ∨ k % 4 = 2 ∨ k % 4 = 3 := by omega
  rcases hmod with hm | hm | hm
  · rw [rvLastLoop_done _ _ _ _ _ _ (by omega)]
    refine ⟨_, rfl, by simp, ?_, fun j hj => getD_set_other _ _ _ _ (Ne.symm hj)⟩
    rw [getD_set_self _ _ _ hfl, packByte_eq, hdig _ (by omega) (by omega),
      digit_zero _ _ (by omega), digit_zero _ _ (by omega), digit_zero _ _ (by omega)]
    have : k - 1 - 4 * (k / 4) = 0 := by omega
    rw [this]
    omega
  · rw [rvLastLoop_step _ _ _ _ _ _ (by omega) (by simpa using hfl) (by omega),
      rvLastLoop_done _ _ _ _ _ _ (by unfold incSize; omega)]
    simp only [getD_set_self _ _ _ hfl, List.set_set]
    rw [hval 1 (by omega)]
    refine ⟨_, rfl, by simp, ?_, fun j hj => getD_set_other _ _ _ _ (Ne.symm hj)⟩
    rw [getD_set_self _ _ _ hfl, packByte_eq, hdig _ (by omega) (by omega),
      hdig _ (by omega) (by omega), digit_zero _ _ (by omega), digit_zero _ _ (by omega)]
    have t1 : k - 1 - 4 * (k / 4) = 1 := by omega
    have t2 : k - 1 - (4 * (k / 4) + 1) = 0 := by omega
    rw [t1, t2]
    have := shr_one_fin ⟨3 - baseCode (w.getD 0 0), by omega⟩
      ⟨3 - baseCode (w.getD 1 0), by omega⟩
    simp only [] at this
    rw [this]
    omega
  · rw [rvLastLoop_step _ _ _ _ _ _ (by omega) (by simpa using hfl) (by omega)]
    unfold incSize
    rw [rvLastLoop_step _ _ _ _ _ _ (by omega) (by simpa using hfl) (by omega),
      rvLastLoop_done _ _ _ _ _ _ (by unfold incSize; omega)]
    simp only [getD_set_self _ _ _ hfl, List.set_set,
      getD_set_self _ _ _ (show k / 4 < (rv.set (k / 4) _).length by simpa using hfl)]
    have e2 : pos + 1 + 1 = pos + 2 := by omega
    rw [e2, hval 1 (by omega), hval 2 (by omega)]
    refine ⟨_, rfl, by simp, ?_, fun j hj => getD_set_other _ _ _ _ (Ne.symm hj)⟩
    rw [getD_set_self _ _ _ hfl, packByte_eq, hdig _ (by omega) (by omega),
      hdig _ (by omega) (by omega), hdig _ (by omega) (by omega), digit_zero _ _ (by omega)]
    have t1 : k - 1 - 4 * (k / 4) = 2 := by omega
    have t2 : k - 1 - (4 * (k / 4) + 1) = 1 := by omega
    have t3 : k - 1 - (4 * (k / 4) + 2) = 0 := by omega
    rw [t1, t2, t3]
    have s1 := shr_one_fin ⟨3 - baseCode (w.getD 0 0), by omega⟩
      ⟨3 - baseCode (w.getD 1 0), by omega⟩
    have s2 := shr_two_fin ⟨3 - baseCode (w.getD 0 0), by omega⟩
      ⟨3 - baseCode (w.getD 1 0), by omega⟩ ⟨3 - baseCode (w.getD 2 0), by omega⟩
    simp only [] at s1 s2
    rw [s1, s2]
    omega

/-! ## Theorems: finishing one strand -/

theorem packByte_short_ne_255 (w : List Byte) (j : Nat) (h : w.length ≤ 4 * j + 3) :
    packByte w j ≠ 255 := by
  rw [packByte_eq, digit_zero w (4 * j + 3) h]
  omega

theorem finishForward_eq (p : ReadsProcessor) (k : Nat) (sequence : List Byte) (pos : Nat)
    (w : List Byte) (fw : List Nat) (o : Nat)
    (hp : Geometry p k) (hk : 3 < k) (hlen : pos + k ≤ sequence.length)
    (hw : w = window sequence pos k) (ho : o < k / 4) (hfl : fw.length = (k + 3) / 4)
    (hpre : ∀ j, j ≤ o → fw.getD j 0 = packByte w j)
    (hzero : ∀ j, o < j → fw.getD j 0 = 0)
    (htail : ∀ t, 4 * (k / 4) ≤ t → t < k → validAt w t = true) :
    finishForward p sequence pos fw (pos + 4 * (o + 1)) o =
      if (List.range' (o + 1) (k / 4 - (o + 1))).all (fun j => validFrom w (4 * j)) = true
      then Except.ok (some (pack w)) else Except.ok none := by
  obtain ⟨hks, hB, _, _, hE, _, _⟩ := hp
  have hwl : w.length = k := by rw [hw]; exact window_length _ _ _ hlen
  have hBE : p.kmerSizeInBytes = k / 4 + p.hangingBasesExist := by
    rw [hB, hE]; split <;> omega
  have hfill := fillLoop_eq p fw0 fw1 fw2 fw3 incSize incSize sequence (k / 4) hBE
    (fun j => fourFrom w (4 * j)) (fun j => validFrom w (4 * j)) (fun j => pos + 4 * j)
    (k / 4 - (o + 1)) k (o + 1) fw (by omega) (by omega) (by rw [hfl, hB])
    (fun j hj => hzero j (by omega))
    (by
      intro j b _ hj2 hb hbz
      have := fw_block incSize sequence pos k w hw hlen b j (4 * j) (by omega)
        (by rw [hb, hB]; omega) hbz
      simp only []
      rw [this]
      have e : incSize (pos + 4 * j + 3) = pos + 4 * (j + 1) := by unfold incSize; omega
      rw [e])
  simp only [] at hfill
  unfold finishForward
  rw [hks, hfill]
  by_cases hall : (List.range' (o + 1) (k / 4 - (o + 1))).all (fun j => validFrom w (4 * j)) = true
  · rw [if_pos hall, if_pos hall]
    simp only [bind, Except.bind]
    have hall2 : ∀ j, o + 1 ≤ j → j < k / 4 → validFrom w (4 * j) = true := by
      intro j h1 h2
      rw [List.all_eq_true] at hall
      exact hall j (by rw [List.mem_range'_1]; omega)
    have hfilled : ∀ j, j < k / 4 →
        (fillWith (fun j => fourFrom w (4 * j)) fw (o + 1) (k / 4 - (o + 1))).getD j 0
          = packByte w j := by
      intro j hj
      rw [fillWith_getD _ _ _ _ _ (by rw [hfl]; omega)]
      by_cases hc : o + 1 ≤ j ∧ j < o + 1 + (k / 4 - (o + 1))
      · rw [if_pos hc, packByte_full w j (by omega)]
      · rw [if_neg hc]
        exact hpre j (by omega)
    by_cases h4 : k % 4 = 0
    · rw [hE, if_pos h4]
      simp only [ne_eq, not_true_eq_false, if_false, pure, Except.pure]
      congr 2
      apply eq_pack
      · rw [fillWith_length, hfl, hwl]
      · intro j hj
        rw [hwl] at hj
        exact hfilled j (by omega)
    · rw [hE, if_neg h4]
      simp only [ne_eq, one_ne_zero, not_false_eq_true, if_true]
      rw [charAt_eq _ _ (by unfold decSize; split <;> omega)]
      simp only []
      rw [writeAt_eq _ _ _ (by rw [fillWith_length, hfl]; omega)]
      simp only []
      obtain ⟨fw1, hrun, hl1, hlast, hother⟩ := fw_last_byte sequence pos k w hw hlen hk h4
        (fillWith (fun j => fourFrom w (4 * j)) fw (o + 1) (k / 4 - (o + 1)))
        (by rw [fillWith_length, hfl]; omega) k (by omega) htail
      rw [hrun]
      simp only []
      rw [readAt_eq _ _ (by rw [hl1, fillWith_length, hfl]; omega), hlast]
      simp only []
      rw [if_neg (packByte_short_ne_255 w _ (by omega))]
      simp only [pure, Except.pure]
      congr 2
      apply eq_pack
      · rw [hl1, fillWith_length, hfl, hwl]
      · intro j hj
        rw [hwl] at hj
        by_cases hj2 : j = k / 4
        · rw [hj2, hlast]
        · rw [hother j hj2]
          exact hfilled j (by omega)
  · rw [if_neg hall, if_neg hall]
    rfl

theorem validFrom_iff (w : List Byte) (t : Nat) :
    validFrom w t = true ↔
      validAt w t = true ∧ validAt w (t + 1) = true ∧ validAt w (t + 2) = true
        ∧ validAt w (t + 3) = true := by
  unfold validFrom
  simp only [Bool.and_eq_true]
  tauto

theorem packByte_rc_full (w : List Byte) (j : Nat) (h : 4 * j + 3 < w.length)
    (hv : validFrom w (w.length - 4 * (j + 1)) = true) :
    packByte (reverseComplement w) j = fourBack w (w.length - 4 * (j + 1)) := by
  rw [validFrom_iff] at hv
  obtain ⟨v0, v1, v2, v3⟩ := hv
  have e0 : w.length - 1 - (4 * j + 3) = w.length - 4 * (j + 1) := by omega
  have e1 : w.length - 1 - (4 * j + 2) = w.length - 4 * (j + 1) + 1 := by omega
  have e2 : w.length - 1 - (4 * j + 1) = w.length - 4 * (j + 1) + 2 := by omega
  have e3 : w.length - 1 - (4 * j) = w.length - 4 * (j + 1) + 3 := by omega
  rw [packByte_eq,
    digit_reverseComplement w (4 * j) (by omega) (by rw [e3]; exact v3),
    digit_reverseComplement w (4 * j + 1) (by omega) (by rw [e2]; exact v2),
    digit_reverseComplement w (4 * j + 2) (by omega) (by rw [e1]; exact v1),
    digit_reverseComplement w (4 * j + 3) (by omega) (by rw [e0]; exact v0),
    e0, e1, e2, e3]
  rfl

theorem finishReverse_eq (p : ReadsProcessor) (k : Nat) (sequence : List Byte) (pos : Nat)
    (w : List Byte) (rv : List Nat) (o : Nat)
    (hp : Geometry p k) (hk : 3 < k) (hlen : pos + k ≤ sequence.length)
    (hw : w = window sequence pos k) (ho : o < k / 4) (hfl : rv.length = (k + 3) / 4)
    (hpre : ∀ j, j ≤ o → rv.getD j 0 = packByte (reverseComplement w) j)
    (hzero : ∀ j, o < j → rv.getD j 0 = 0)
    (hhead : ∀ t, t < k % 4 → validAt w t = true) :
    finishReverse p sequence pos rv (decSize (pos + k - 4 * (o + 1))) o =
      if (List.range' (o + 1) (k / 4 - (o + 1))).all
          (fun j => validFrom w (k - 4 * (j + 1))) = true
      then Except.ok (some (pack (reverseComplement w))) else Except.ok none := by
  obtain ⟨hks, hB, _, _, hE, _, _⟩ := hp
  have hwl : w.length = k := by rw [hw]; exact window_length _ _ _ hlen
  have hrl : (reverseComplement w).length = k := by rw [reverseComplement_length, hwl]
  have hBE : p.kmerSizeInBytes = k / 4 + p.hangingBasesExist := by
    rw [hB, hE]; split <;> omega
  have hfill := fillLoop_eq p rv0 rv1 rv2 rv3 decSize decSize sequence (k / 4) hBE
    (fun j => fourBack w (k - 4 * (j + 1))) (fun j => validFrom w (k - 4 * (j + 1)))
    (fun j => decSize (pos + k - 4 * j))
    (k / 4 - (o + 1)) k (o + 1) rv (by omega) (by omega) (by rw [hfl, hB])
    (fun j hj => hzero j (by omega))
    (by
      intro j b _ hj2 hb hbz
      have := rv_block sequence pos k w hw hlen b j (k - 4 * (j + 1)) (by omega)
        (by rw [hb, hB]; omega) hbz
      simp only []
      have e1 : decSize (pos + k - 4 * j) = pos + (k - 4 * (j + 1)) + 3 := by
        unfold decSize; rw [if_neg (by omega)]; omega
      have e2 : pos + (k - 4 * (j + 1)) = pos + k - 4 * (j + 1) := by omega
      rw [e1, this, e2])
  simp only [] at hfill
  unfold finishReverse
  rw [hks, hfill]
  by_cases hall : (List.range' (o + 1) (k / 4 - (o + 1))).all
      (fun j => validFrom w (k - 4 * (j + 1))) = true
  · rw [if_pos hall, if_pos hall]
    simp only [bind, Except.bind]
    have hall2 : ∀ j, o + 1 ≤ j → j < k / 4 → validFrom w (k - 4 * (j + 1)) = true := by
      intro j h1 h2
      rw [List.all_eq_true] at hall
      exact hall j (by rw [List.mem_range'_1]; omega)
    have hfilled : ∀ j, j < k / 4 →
        (fillWith (fun j => fourBack w (k - 4 * (j + 1))) rv (o + 1) (k / 4 - (o + 1))).getD j 0
          = packByte (reverseComplement w) j := by
      intro j hj
      rw [fillWith_getD _ _ _ _ _ (by rw [hfl]; omega)]
      by_cases hc : o + 1 ≤ j ∧ j < o + 1 + (k / 4 - (o + 1))
      · rw [if_pos hc]
        have := packByte_rc_full w j (by omega) (by rw [hwl]; exact hall2 j hc.1 hj)
        rw [this, hwl]
      · rw [if_neg hc]
        exact hpre j (by omega)
    by_cases h4 : k % 4 = 0
    · rw [hE, if_pos h4]
      simp only [ne_eq, not_true_eq_false, if_false, pure, Except.pure]
      congr 2
      apply eq_pack
      · rw [fillWith_length, hfl, hrl]
      · intro j hj
        rw [hrl] at hj
        exact hfilled j (by omega)
    · rw [hE, if_neg h4]
      simp only [ne_eq, one_ne_zero, not_false_eq_true, if_true]
      rw [charAt_eq _ _ (by omega)]
      simp only []
      rw [writeAt_eq _ _ _ (by rw [fillWith_length, hfl]; omega)]
      simp only []
      obtain ⟨rv1, hrun, hl1, hlast, hother⟩ := rv_last_byte sequence pos k w hw hlen hk h4
        (fillWith (fun j => fourBack w (k - 4 * (j + 1))) rv (o + 1) (k / 4 - (o + 1)))
        (by rw [fillWith_length, hfl]; omega) k (by omega) hhead
      rw [hrun]
      simp only []
      rw [readAt_eq _ _ (by rw [hl1, fillWith_length, hfl]; omega), hlast]
      simp only []
      rw [if_neg (packByte_short_ne_255 _ _ (by rw [hrl]; omega))]
      simp only [pure, Except.pure]
      congr 2
      apply eq_pack
      · rw [hl1, fillWith_length, hfl, hrl]
      · intro j hj
        rw [hrl] at hj
        by_cases hj2 : j = k / 4
        · rw [hj2, hlast]
        · rw [hother j hj2]
          exact hfilled j (by omega)
  · rw [if_neg hall, if_neg hall]
    rfl

/-! ## Theorems: the palindromic path -/

theorem shl_drop_fin : ∀ x y : Fin 4,
    (((64 * x.val) <<< 2) % 256) ||| (64 * y.val) = 64 * y.val := by decide

theorem palLastLoop_done (sequence : List Byte) (index o fuel : Nat) (fw : List Nat)
    (lastPos : Nat) (h : lastPos ≤ index) :
    palLastLoop sequence index o fuel fw lastPos = Except.ok fw := by
  cases fuel <;> simp [palLastLoop, Nat.not_lt.mpr h, pure, Except.pure]

theorem palLastLoop_step (sequence : List Byte) (index o fuel : Nat) (fw : List Nat)
    (lastPos : Nat) (h : index < lastPos) (ho : o < fw.length)
    (hl : lastPos ≤ sequence.length) :
    palLastLoop sequence index o (fuel + 1) fw lastPos
      = palLastLoop sequence index o fuel
          (fw.set o (((fw.getD o 0 <<< 2) % 256) ||| lookup fw0 (sequence.getD lastPos 0)))
          (decSize lastPos) := by
  rw [palLastLoop, if_pos h]
  rw [readAt_eq _ _ ho]
  simp only [bind, Except.bind]
  rw [writeAt_eq _ _ _ ho, charAt_eq _ _ hl]
  simp only []
  rw [orAt_eq _ _ _ (by simpa using ho)]
  simp only [getD_set_self _ _ _ ho, List.set_set]

theorem palLastLoop_eq (sequence : List Byte) (pos k : Nat) (w : List Byte)
    (hw : w = window sequence pos k) (hlen : pos + k ≤ sequence.length)
    (hvalid : ∀ t, t < k → validAt w t = true) (index o : Nat) (hidx : pos ≤ index) :
    ∀ (n fuel : Nat) (fw : List Nat) (lastPos : Nat), lastPos = index + n → n ≤ fuel →
      lastPos < pos + k → o < fw.length → (∃ x, x < 4 ∧ fw.getD o 0 = 64 * x) →
      ∃ fw1, palLastLoop sequence index o fuel fw lastPos = Except.ok fw1
        ∧ fw1.length = fw.length ∧ (∀ j, j ≠ o → fw1.getD j 0 = fw.getD j 0)
        ∧ fw1.getD o 0
            = if n = 0 then fw.getD o 0 else 64 * baseCode (w.getD (index + 1 - pos) 0) := by
  intro n
  induction n with
  | zero =>
    intro fuel fw lastPos hl _ _ _ _
    rw [palLastLoop_done _ _ _ _ _ _ (by omega)]
    exact ⟨fw, rfl, rfl, fun _ _ => rfl, by simp⟩
  | succ n ih =>
    intro fuel fw lastPos hl hfuel hlt ho hx
    obtain ⟨f, rfl⟩ : ∃ f, fuel = f + 1 := ⟨fuel - 1, by omega⟩
    obtain ⟨x, hx4, hxe⟩ := hx
    rw [palLastLoop_step _ _ _ _ _ _ (by omega) ho (by omega)]
    have hch : sequence.getD lastPos 0 = w.getD (lastPos - pos) 0 := by
      rw [hw, window_getD _ _ _ (lastPos - pos) (by omega)]
      congr 1
      omega
    have hlk : lookup fw0 (sequence.getD lastPos 0) = 64 * baseCode (w.getD (lastPos - pos) 0) := by
      rw [hch]
      exact lookup_fw0_valid _ (hvalid _ (by omega))
    have hnum := shl_drop_fin ⟨x, hx4⟩ ⟨_, baseCode_lt (w.getD (lastPos - pos) 0)⟩
    simp only [] at hnum
    rw [hxe, hlk, hnum]
    have hd : decSize lastPos = index + n := by
      unfold decSize; rw [if_neg (by omega)]; omega
    obtain ⟨fw1, hrun, hl1, hoth, hval⟩ := ih f
      (fw.set o (64 * baseCode (w.getD (lastPos - pos) 0))) (decSize lastPos) hd (by omega)
      (by omega) (by simpa using ho) ⟨_, baseCode_lt _, getD_set_self _ _ _ ho⟩
    refine ⟨fw1, hrun, by simpa using hl1, ?_, ?_⟩
    · intro j hj
      rw [hoth j hj, getD_set_other _ _ _ _ (Ne.symm hj)]
    · rw [hval, getD_set_self _ _ _ ho]
      by_cases hn : n = 0
      · rw [if_pos hn, if_neg (by omega)]
        have : lastPos - pos = index + 1 - pos := by omega
        rw [this]
      · rw [if_neg hn, if_neg (by omega)]

theorem finishPalindromic_eq (p : ReadsProcessor) (k : Nat) (sequence : List Byte) (pos : Nat)
    (w : List Byte) (fw : List Nat)
    (hp : Geometry p k) (hk : 3 < k) (hlen : pos + k ≤ sequence.length)
    (hw : w = window sequence pos k) (hfl : fw.length = (k + 3) / 4)
    (hpre : ∀ j, j < (k + 7) / 8 → fw.getD j 0 = packByte w j)
    (hzero : ∀ j, (k + 7) / 8 ≤ j → fw.getD j 0 = 0)
    (hvalid : ∀ t, t < k → validAt w t = true) :
    finishPalindromic p sequence pos fw (pos + 4 * ((k + 7) / 8)) ((k + 7) / 8) = palSpec w := by
  obtain ⟨hks, hB, _, hHB, hE, _, _⟩ := hp
  have hwl : w.length = k := by rw [hw]; exact window_length _ _ _ hlen
  have hBE : p.kmerSizeInBytes = k / 4 + p.hangingBasesExist := by
    rw [hB, hE]; split <;> omega
  have hhalf : (k + 7) / 8 ≤ k / 4 := by omega
  unfold finishPalindromic palSpec
  rw [hks, hHB, hwl]
  by_cases hfull : k / 4 < (k + 7) / 8 + 1
  · -- the filling loop does not run
    rw [fillLoop_done _ _ _ _ _ _ _ _ _ _ _ _ (by rw [hBE]; omega)]
    simp only [bind, Except.bind]
    by_cases h4 : k % 4 = 0
    · rw [if_neg (by simpa using h4), if_neg (by omega)]
      simp only [pure, Except.pure]
      congr 2
      apply list_ext_getD
      · simp [hfl]
      · intro j hj
        rw [hfl] at hj
        have hjh : j < (k + 7) / 8 := by omega
        rw [hpre j hjh]
        simp [List.getD_eq_getElem?_getD, hj, palByte, hwl, hjh]
    · rw [if_pos h4, if_pos ⟨h4, hfull⟩]
      rw [charAt_eq _ _ (by unfold decSize; split <;> omega)]
      simp only []
      unfold orAt readAt
      rw [dif_neg (by rw [hfl]; omega)]
      rfl
  · -- the filling loop runs from byte `half + 1`
    have hfill := fillLoop_eq p fw0 fw1 fw2 fw3 incSize id sequence (k / 4) hBE
      (fun j => fourFrom w (4 * ((k + 7) / 8) + 3 * (j - (k + 7) / 8 - 1)))
      (fun j => validFrom w (4 * ((k + 7) / 8) + 3 * (j - (k + 7) / 8 - 1)))
      (fun j => pos + (4 * ((k + 7) / 8) + 3 * (j - (k + 7) / 8 - 1)))
      (k / 4 - ((k + 7) / 8 + 1)) k ((k + 7) / 8 + 1) fw (by omega) (by omega)
      (by rw [hfl, hB]) (fun j hj => hzero j (by omega))
      (by
        intro j b hj1 hj2 hb hbz
        have := fw_block id sequence pos k w hw hlen b j
          (4 * ((k + 7) / 8) + 3 * (j - (k + 7) / 8 - 1)) (by omega)
          (by rw [hb, hB]; omega) hbz
        simp only []
        rw [this]
        have e : id (pos + (4 * ((k + 7) / 8) + 3 * (j - (k + 7) / 8 - 1)) + 3)
            = pos + (4 * ((k + 7) / 8) + 3 * (j + 1 - (k + 7) / 8 - 1)) := by
          simp only [id]; omega
        rw [e])
    simp only [] at hfill
    have e0 : pos + 4 * ((k + 7) / 8)
        = pos + (4 * ((k + 7) / 8) + 3 * ((k + 7) / 8 + 1 - (k + 7) / 8 - 1)) := by omega
    rw [e0, hfill]
    have hall : (List.range' ((k + 7) / 8 + 1) (k / 4 - ((k + 7) / 8 + 1))).all
        (fun j => validFrom w (4 * ((k + 7) / 8) + 3 * (j - (k + 7) / 8 - 1))) = true := by
      rw [List.all_eq_true]
      intro j hj
      rw [List.mem_range'_1] at hj
      rw [validFrom_iff]
      exact ⟨hvalid _ (by omega), hvalid _ (by omega), hvalid _ (by omega),
        hvalid _ (by omega)⟩
    rw [if_pos hall]
    simp only [bind, Except.bind]
    have hfilled : ∀ j, j < k / 4 →
        (fillWith (fun j => fourFrom w (4 * ((k + 7) / 8) + 3 * (j - (k + 7) / 8 - 1))) fw
          ((k + 7) / 8 + 1) (k / 4 - ((k + 7) / 8 + 1))).getD j 0 = palByte w j := by
      intro j hj
      rw [fillWith_getD _ _ _ _ _ (by rw [hfl]; omega)]
      unfold palByte
      simp only [hwl]
      by_cases hc : (k + 7) / 8 + 1 ≤ j ∧ j < (k + 7) / 8 + 1 + (k / 4 - ((k + 7) / 8 + 1))
      · rw [if_pos hc, if_neg (by omega), if_neg (by omega), if_pos hj]
        unfold fourFrom
        rw [digit_eq w _ (by omega), digit_eq w _ (by omega), digit_eq w _ (by omega),
          digit_eq w _ (by omega)]
      · rw [if_neg hc]
        by_cases hj1 : j < (k + 7) / 8
        · rw [if_pos hj1]
          exact hpre j hj1
        · rw [if_neg hj1, if_pos (by omega)]
          exact hzero j (by omega)
    by_cases h4 : k % 4 = 0
    · rw [if_neg (by simpa using h4), if_neg (by omega)]
      simp only [pure, Except.pure]
      congr 2
      apply list_ext_getD
      · simp [fillWith_length, hfl]
      · intro j hj
        rw [fillWith_length, hfl] at hj
        rw [hfilled j (by omega)]
        simp [List.getD_eq_getElem?_getD, hj]
    · rw [if_pos h4, if_neg (by omega)]
      rw [charAt_eq _ _ (by unfold decSize; split <;> omega)]
      simp only []
      have hd : decSize (pos + k) = pos + (k - 1) := by
        unfold decSize; rw [if_neg (by omega)]; omega
      have hfz : (fillWith (fun j => fourFrom w (4 * ((k + 7) / 8) + 3 * (j - (k + 7) / 8 - 1)))
          fw ((k + 7) / 8 + 1) (k / 4 - ((k + 7) / 8 + 1))).getD (k / 4) 0 = 0 := by
        rw [fillWith_getD _ _ _ _ _ (by rw [hfl]; omega), if_neg (by omega)]
        exact hzero _ (by omega)
      rw [orAt_eq _ _ _ (by rw [fillWith_length, hfl]; omega), hfz, Nat.zero_or, hd]
      have hch : sequence.getD (pos + (k - 1)) 0 = w.getD (k - 1) 0 := by
        rw [hw, window_getD _ _ _ (k - 1) (by omega)]
      rw [hch, lookup_fw0_valid _ (hvalid _ (by omega))]
      simp only []
      obtain ⟨fw1, hrun, hl1, hoth, hval⟩ := palLastLoop_eq sequence pos k w hw hlen hvalid
        (pos + (4 * ((k + 7) / 8) + 3 * (k / 4 - (k + 7) / 8 - 1))) (k / 4) (by omega)
        (k - 1 - (4 * ((k + 7) / 8) + 3 * (k / 4 - (k + 7) / 8 - 1))) k
        ((fillWith (fun j => fourFrom w (4 * ((k + 7) / 8) + 3 * (j - (k + 7) / 8 - 1)))
          fw ((k + 7) / 8 + 1) (k / 4 - ((k + 7) / 8 + 1))).set (k / 4)
            (64 * baseCode (w.getD (k - 1) 0)))
        (pos + (k - 1)) (by omega) (by omega) (by omega)
        (by simp [fillWith_length, hfl]; omega)
        ⟨_, baseCode_lt _, getD_set_self _ _ _ (by rw [fillWith_length, hfl]; omega)⟩
      rw [hrun]
      simp only []
      rw [readAt_eq _ _ (by rw [hl1]; simp [fillWith_length, hfl]; omega), hval,
        if_neg (by omega)]
      simp only []
      rw [if_neg (by have := baseCode_lt (w.getD
        (pos + (4 * ((k + 7) / 8) + 3 * (k / 4 - (k + 7) / 8 - 1)) + 1 - pos) 0); omega)]
      simp only [pure, Except.pure]
      congr 2
      apply list_ext_getD
      · rw [hl1]; simp [fillWith_length, hfl]
      · intro j hj
        rw [hl1] at hj
        simp only [List.length_set, fillWith_length, hfl] at hj
        have hrhs : ((List.range ((k + 3) / 4)).map (palByte w)).getD j 0 = palByte w j := by
          simp [List.getD_eq_getElem?_getD, hj]
        rw [hrhs]
        by_cases hj2 : j = k / 4
        · rw [hj2, hval, if_neg (by omega)]
          unfold palByte
          simp only [hwl]
          rw [if_neg (by omega), if_neg (by omega), if_neg (by omega),
            digit_eq w _ (by omega)]
          congr 3
          omega
        · rw [hoth j hj2, getD_set_other _ _ _ _ (Ne.symm hj2)]
          exact hfilled j (by omega)

/-! ## Theorems: the main loop and `prepSeq` as a function of the window -/

theorem lexLt_of_first_diff :
    ∀ (o : Nat) (a b : List Nat), a.length = b.length → o < a.length →
      (∀ j, j < o → a.getD j 0 = b.getD j 0) → a.getD o 0 < b.getD o 0 →
      lexLt a b = true ∧ lexLt b a = false := by
  intro o
  induction o with
  | zero =>
    intro a b hl ho _ hlt
    cases a with
    | nil => simp at ho
    | cons x as =>
      cases b with
      | nil => simp at hl
      | cons y bs =>
        simp only [List.getD_cons_zero] at hlt
        have h1 : ¬ y < x := by omega
        have h2 : ¬ y = x := by omega
        simp [lexLt, hlt, h1, h2]
  | succ n ih =>
    intro a b hl ho heq hlt
    cases a with
    | nil => simp at ho
    | cons x as =>
      cases b with
      | nil => simp at hl
      | cons y bs =>
        have hxy : x = y := by simpa using heq 0 (by omega)
        subst hxy
        have := ih as bs (by simpa using hl) (by simpa using ho)
          (fun j hj => by simpa using heq (j + 1) (by omega)) (by simpa using hlt)
        simp [lexLt, this.1, this.2]

theorem all_valid_iff (w : List Byte) :
    w.all isACGT = true ↔ ∀ t, t < w.length → validAt w t = true := by
  rw [List.all_eq_true]
  constructor
  · intro h t ht
    unfold validAt
    have : w.getD t 0 = w[t] := by simp [List.getD_eq_getElem?_getD, ht]
    rw [this]
    exact h _ (List.getElem_mem ht)
  · intro h c hc
    obtain ⟨t, ht, rfl⟩ := List.getElem_of_mem hc
    have := h t ht
    unfold validAt at this
    simpa [List.getD_eq_getElem?_getD, ht] using this

theorem digits_of_packByte_eq (u v : List Byte) (j : Nat) (h : packByte u j = packByte v j) :
    digit u (4 * j) = digit v (4 * j) ∧ digit u (4 * j + 1) = digit v (4 * j + 1)
      ∧ digit u (4 * j + 2) = digit v (4 * j + 2) ∧ digit u (4 * j + 3) = digit v (4 * j + 3) := by
  rw [packByte_eq, packByte_eq] at h
  have a0 := digit_lt u (4 * j)
  have a1 := digit_lt u (4 * j + 1)
  have a2 := digit_lt u (4 * j + 2)
  have a3 := digit_lt u (4 * j + 3)
  have b0 := digit_lt v (4 * j)
  have b1 := digit_lt v (4 * j + 1)
  have b2 := digit_lt v (4 * j + 2)
  have b3 := digit_lt v (4 * j + 3)
  omega

theorem packByte_congr (u v : List Byte) (j : Nat)
    (h : ∀ t, digit u t = digit v t) : packByte u j = packByte v j := by
  rw [packByte_eq, packByte_eq, h, h, h, h]

/-- When the first `ceil(k/8)` bytes of the two packings agree, the window
is its own reverse complement and the packings agree everywhere. -/
theorem pack_eq_of_ties (w : List Byte) (hvalid : ∀ t, t < w.length → validAt w t = true)
    (hties : ∀ j, j < (w.length + 7) / 8 → packByte w j = packByte (reverseComplement w) j) :
    pack w = pack (reverseComplement w) := by
  have hlow : ∀ t, t < 4 * ((w.length + 7) / 8) → digit w t = digit (reverseComplement w) t := by
    intro t ht
    have hj : t / 4 < (w.length + 7) / 8 := by omega
    have := digits_of_packByte_eq w (reverseComplement w) (t / 4) (hties _ hj)
    have hm : t % 4 = 0 ∨ t % 4 = 1 ∨ t % 4 = 2 ∨ t % 4 = 3 := by omega
    rcases hm with hm | hm | hm | hm
    · have e : 4 * (t / 4) = t := by omega
      rw [e] at this; exact this.1
    · have e : 4 * (t / 4) + 1 = t := by omega
      rw [e] at this; exact this.2.1
    · have e : 4 * (t / 4) + 2 = t := by omega
      rw [e] at this; exact this.2.2.1
    · have e : 4 * (t / 4) + 3 = t := by omega
      rw [e] at this; exact this.2.2.2
  have hall : ∀ t, digit w t = digit (reverseComplement w) t := by
    intro t
    by_cases ht : t < 4 * ((w.length + 7) / 8)
    · exact hlow t ht
    · by_cases htk : t < w.length
      · have h1 := hlow (w.length - 1 - t) (by omega)
        have h2 := digit_reverseComplement w (w.length - 1 - t) (by omega)
          (by apply hvalid; omega)
        have h3 := digit_reverseComplement w t htk (by apply hvalid; omega)
        have e : w.length - 1 - (w.length - 1 - t) = t := by omega
        rw [e] at h2
        rw [digit_eq w (w.length - 1 - t) (by omega)] at h1
        rw [digit_eq w t htk] at *
        have := baseCode_lt (w.getD t 0)
        have := baseCode_lt (w.getD (w.length - 1 - t) 0)
        omega
      · rw [digit_zero w t (by omega),
          digit_zero _ t (by rw [reverseComplement_length]; omega)]
  unfold pack
  rw [reverseComplement_length]
  apply List.map_congr_left
  intro j _
  exact packByte_congr _ _ j hall

theorem memsetZero_eq (buf : List Nat) (n : Nat) (h : buf.length = n) :
    memsetZero buf n = Except.ok (List.replicate n 0) := by
  unfold memsetZero
  rw [if_pos (by omega)]
  simp [pure, Except.pure, ← h]

theorem replicate_getD (n j : Nat) : (List.replicate n 0).getD j 0 = 0 := by
  simp only [List.getD_eq_getElem?_getD, List.getElem?_replicate]
  split <;> rfl

theorem prepSpec_of_invalid (w : List Byte)
    (h : ¬ ∀ t, t < w.length → validAt w t = true) : prepSpec w = Except.ok none := by
  unfold prepSpec
  rw [if_neg (by rw [all_valid_iff]; exact h)]
  rfl

theorem prepSpec_of_ties (w : List Byte) (hvalid : ∀ t, t < w.length → validAt w t = true)
    (hties : ∀ j, j < (w.length + 7) / 8 → packByte w j = packByte (reverseComplement w) j) :
    prepSpec w = palSpec w := by
  unfold prepSpec
  rw [if_pos ((all_valid_iff w).mpr hvalid), if_pos (pack_eq_of_ties w hvalid hties)]

theorem pack_ne_of_byte (w : List Byte) (o : Nat) (ho : o < (w.length + 3) / 4)
    (h : packByte w o ≠ packByte (reverseComplement w) o) :
    pack w ≠ pack (reverseComplement w) := by
  intro heq
  apply h
  rw [← pack_getD w o ho, heq, pack_getD _ o (by rw [reverseComplement_length]; exact ho)]

theorem prepSpec_of_fw_less (w : List Byte) (hvalid : ∀ t, t < w.length → validAt w t = true)
    (o : Nat) (ho : o < (w.length + 3) / 4)
    (hties : ∀ j, j < o → packByte w j = packByte (reverseComplement w) j)
    (hlt : packByte w o < packByte (reverseComplement w) o) :
    prepSpec w = Except.ok (some (pack w)) := by
  unfold prepSpec
  rw [if_pos ((all_valid_iff w).mpr hvalid), if_neg (pack_ne_of_byte w o ho (by omega))]
  have hr : o < (reverseComplement w).length / 4 + 1 ∧ (reverseComplement w).length = w.length :=
    ⟨by rw [reverseComplement_length]; omega, reverseComplement_length w⟩
  have := lexLt_of_first_diff o (pack w) (pack (reverseComplement w))
    (by rw [pack_length, pack_length, reverseComplement_length])
    (by rw [pack_length]; exact ho)
    (fun j hj => by
      rw [pack_getD w j (by omega), pack_getD _ j (by rw [reverseComplement_length]; omega)]
      exact hties j hj)
    (by
      rw [pack_getD w o ho, pack_getD _ o (by rw [reverseComplement_length]; exact ho)]
      exact hlt)
  unfold canonical lexMin
  rw [this.2]
  rfl

theorem prepSpec_of_rv_less (w : List Byte) (hvalid : ∀ t, t < w.length → validAt w t = true)
    (o : Nat) (ho : o < (w.length + 3) / 4)
    (hties : ∀ j, j < o → packByte w j = packByte (reverseComplement w) j)
    (hlt : packByte (reverseComplement w) o < packByte w o) :
    prepSpec w = Except.ok (some (pack (reverseComplement w))) := by
  unfold prepSpec
  rw [if_pos ((all_valid_iff w).mpr hvalid), if_neg (pack_ne_of_byte w o ho (by omega))]
  have := lexLt_of_first_diff o (pack (reverseComplement w)) (pack w)
    (by rw [pack_length, pack_length, reverseComplement_length])
    (by rw [pack_length, reverseComplement_length]; exact ho)
    (fun j hj => by
      rw [pack_getD w j (by omega), pack_getD _ j (by rw [reverseComplement_length]; omega)]
      exact (hties j hj).symm)
    (by
      rw [pack_getD w o ho, pack_getD _ o (by rw [reverseComplement_length]; exact ho)]
      exact hlt)
  unfold canonical lexMin
  rw [this.1]
  rfl

theorem validAt_of_block (w : List Byte) (s t : Nat) (h : validFrom w s = true)
    (h1 : s ≤ t) (h2 : t < s + 4) : validAt w t = true := by
  rw [validFrom_iff] at h
  have hc : t = s ∨ t = s + 1 ∨ t = s + 2 ∨ t = s + 3 := by omega
  rcases hc with hc | hc | hc | hc <;> subst hc
  · exact h.1
  · exact h.2.1
  · exact h.2.2.1
  · exact h.2.2.2

theorem validFrom_of_all (w : List Byte) (k : Nat) (hvalid : ∀ t, t < k → validAt w t = true)
    (s : Nat) (h : s + 3 < k) : validFrom w s = true := by
  rw [validFrom_iff]
  exact ⟨hvalid _ (by omega), hvalid _ (by omega), hvalid _ (by omega), hvalid _ (by omega)⟩

theorem mainLoop_eq (p : ReadsProcessor) (k : Nat) (sequence : List Byte) (pos : Nat)
    (w : List Byte) (hp : Geometry p k) (hk : 3 < k) (hlen : pos + k ≤ sequence.length)
    (hw : w = window sequence pos k) :
    ∀ (n fuel o : Nat) (fw rv : List Nat), o + n = (k + 7) / 8 → n ≤ fuel →
      fw.length = (k + 3) / 4 → rv.length = (k + 3) / 4 →
      (∀ j, j < o → fw.getD j 0 = packByte w j) → (∀ j, o ≤ j → fw.getD j 0 = 0) →
      (∀ j, j < o → rv.getD j 0 = packByte (reverseComplement w) j) →
      (∀ j, o ≤ j → rv.getD j 0 = 0) →
      (∀ j, j < o → packByte w j = packByte (reverseComplement w) j) →
      (∀ t, t < 4 * o → validAt w t = true) →
      (∀ t, k - 4 * o ≤ t → t < k → validAt w t = true) →
      mainLoop p sequence pos fuel fw rv (pos + 4 * o) (decSize (pos + k - 4 * o)) o
        = prepSpec w := by
  have hwl : w.length = k := by rw [hw]; exact window_length _ _ _ hlen
  have hH : p.halfSizeOfKmerInBytes = (k + 7) / 8 := hp.2.2.1
  intro n
  induction n with
  | zero =>
    intro fuel o fw rv hon _ hfl _ hfpre hfz _ _ hties hv1 hv2
    have ho : o = (k + 7) / 8 := by omega
    subst ho
    have hvalid : ∀ t, t < k → validAt w t = true := by
      intro t ht
      by_cases h : t < 4 * ((k + 7) / 8)
      · exact hv1 t h
      · exact hv2 t (by omega) ht
    unfold mainLoop
    rw [if_neg (by rw [hH]; omega)]
    rw [finishPalindromic_eq p k sequence pos w fw hp hk hlen hw hfl hfpre hfz hvalid]
    rw [prepSpec_of_ties w (by rw [hwl]; exact hvalid) (by rw [hwl]; exact hties)]
  | succ n ih =>
    intro fuel o fw rv hon hfuel hfl hrl hfpre hfz hrpre hrz hties hv1 hv2
    obtain ⟨f, rfl⟩ : ∃ f, fuel = f + 1 := ⟨fuel - 1, by omega⟩
    have ho4 : 4 * o + 3 < k := by omega
    unfold mainLoop
    rw [if_pos (by rw [hH]; omega)]
    simp only []
    rw [fw_block incSize sequence pos k w hw hlen fw o (4 * o) ho4 (by rw [hfl]; omega)
      (hfz o (le_refl o))]
    by_cases hvf : validFrom w (4 * o) = true
    swap
    · rw [if_neg hvf]
      simp only [bind, Except.bind, pure, Except.pure]
      rw [prepSpec_of_invalid]
      intro hall
      exact hvf (validFrom_of_all w k (by rw [← hwl]; exact hall) _ ho4)
    rw [if_pos hvf]
    simp only [bind, Except.bind]
    have e1 : decSize (pos + k - 4 * o) = pos + (k - 4 * (o + 1)) + 3 := by
      unfold decSize; rw [if_neg (by omega)]; omega
    rw [e1, rv_block sequence pos k w hw hlen rv o (k - 4 * (o + 1)) (by omega)
      (by rw [hrl]; omega) (hrz o (le_refl o))]
    by_cases hvr : validFrom w (k - 4 * (o + 1)) = true
    swap
    · rw [if_neg hvr]
      simp only [pure, Except.pure]
      rw [prepSpec_of_invalid]
      intro hall
      exact hvr (validFrom_of_all w k (by rw [← hwl]; exact hall) _ (by omega))
    rw [if_pos hvr]
    simp only []
    rw [readAt_eq _ _ (by simp [hfl]; omega), readAt_eq _ _ (by simp [hrl]; omega)]
    simp only []
    rw [getD_set_self _ _ _ (by rw [hfl]; omega), getD_set_self _ _ _ (by rw [hrl]; omega)]
    have hF : fourFrom w (4 * o) = packByte w o := (packByte_full w o (by omega)).symm
    have hR : fourBack w (k - 4 * (o + 1)) = packByte (reverseComplement w) o := by
      have := packByte_rc_full w o (by omega) (by rw [hwl]; exact hvr)
      rw [this, hwl]
    rw [hF, hR]
    -- validity known so far
    have hv1n : ∀ t, t < 4 * (o + 1) → validAt w t = true := by
      intro t ht
      by_cases h : t < 4 * o
      · exact hv1 t h
      · exact validAt_of_block w (4 * o) t hvf (by omega) (by omega)
    have hv2n : ∀ t, k - 4 * (o + 1) ≤ t → t < k → validAt w t = true := by
      intro t h1 h2
      by_cases h : k - 4 * o ≤ t
      · exact hv2 t h h2
      · exact validAt_of_block w (k - 4 * (o + 1)) t hvr h1 (by omega)
    have hfpren : ∀ j, j ≤ o → (fw.set o (packByte w o)).getD j 0 = packByte w j := by
      intro j hj
      by_cases h : j = o
      · subst h; exact getD_set_self _ _ _ (by rw [hfl]; omega)
      · rw [getD_set_other _ _ _ _ (Ne.symm h)]; exact hfpre j (by omega)
    have hrpren : ∀ j, j ≤ o →
        (rv.set o (packByte (reverseComplement w) o)).getD j 0
          = packByte (reverseComplement w) j := by
      intro j hj
      by_cases h : j = o
      · subst h; exact getD_set_self _ _ _ (by rw [hrl]; omega)
      · rw [getD_set_other _ _ _ _ (Ne.symm h)]; exact hrpre j (by omega)
    have hfzn : ∀ j, o < j → (fw.set o (packByte w o)).getD j 0 = 0 := by
      intro j hj
      rw [getD_set_other _ _ _ _ (by omega)]; exact hfz j (by omega)
    have hrzn : ∀ j, o < j → (rv.set o (packByte (reverseComplement w) o)).getD j 0 = 0 := by
      intro j hj
      rw [getD_set_other _ _ _ _ (by omega)]; exact hrz j (by omega)
    by_cases hlt : packByte w o < packByte (reverseComplement w) o
    · rw [if_pos hlt]
      have e2 : incSize (pos + 4 * o + 3) = pos + 4 * (o + 1) := by unfold incSize; omega
      rw [e2, finishForward_eq p k sequence pos w _ o hp hk hlen hw (by omega)
        (by simp [hfl]) hfpren hfzn (fun t h1 h2 => hv2n t (by omega) h2)]
      by_cases hall : (List.range' (o + 1) (k / 4 - (o + 1))).all
          (fun j => validFrom w (4 * j)) = true
      · rw [if_pos hall]
        rw [List.all_eq_true] at hall
        have hvalid : ∀ t, t < w.length → validAt w t = true := by
          intro t ht
          rw [hwl] at ht
          by_cases h1 : t < 4 * (o + 1)
          · exact hv1n t h1
          · by_cases h2 : t < 4 * (k / 4)
            · exact validAt_of_block w (4 * (t / 4)) t
                (hall (t / 4) (by rw [List.mem_range'_1]; omega)) (by omega) (by omega)
            · exact hv2n t (by omega) ht
        rw [prepSpec_of_fw_less w hvalid o (by rw [hwl]; omega) hties hlt]
      · rw [if_neg hall, prepSpec_of_invalid]
        intro hv
        apply hall
        rw [List.all_eq_true]
        intro j hj
        rw [List.mem_range'_1] at hj
        exact validFrom_of_all w k (by rw [← hwl]; exact hv) _ (by omega)
    · rw [if_neg hlt]
      by_cases hgt : packByte w o > packByte (reverseComplement w) o
      · rw [if_pos hgt]
        have e3 : pos + (k - 4 * (o + 1)) = pos + k - 4 * (o + 1) := by omega
        rw [e3, finishReverse_eq p k sequence pos w _ o hp hk hlen hw (by omega)
          (by simp [hrl]) hrpren hrzn (fun t h1 => hv1n t (by omega))]
        by_cases hall : (List.range' (o + 1) (k / 4 - (o + 1))).all
            (fun j => validFrom w (k - 4 * (j + 1))) = true
        · rw [if_pos hall]
          rw [List.all_eq_true] at hall
          have hvalid : ∀ t, t < w.length → validAt w t = true := by
            intro t ht
            rw [hwl] at ht
            by_cases h1 : k - 4 * (o + 1) ≤ t
            · exact hv2n t h1 ht
            · by_cases h2 : t < k - 4 * (k / 4)
              · exact hv1n t (by omega)
              · exact validAt_of_block w (k - 4 * ((k - 1 - t) / 4 + 1)) t
                  (hall ((k - 1 - t) / 4) (by rw [List.mem_range'_1]; omega))
                  (by omega) (by omega)
          rw [prepSpec_of_rv_less w hvalid o (by rw [hwl]; omega) hties hgt]
        · rw [if_neg hall, prepSpec_of_invalid]
          intro hv
          apply hall
          rw [List.all_eq_true]
          intro j hj
          rw [List.mem_range'_1] at hj
          exact validFrom_of_all w k (by rw [← hwl]; exact hv) _ (by omega)
      · rw [if_neg hgt]
        have heq : packByte w o = packByte (reverseComplement w) o := by omega
        have e2 : incSize (pos + 4 * o + 3) = pos + 4 * (o + 1) := by unfold incSize; omega
        have e3 : pos + (k - 4 * (o + 1)) = pos + k - 4 * (o + 1) := by omega
        rw [e2, e3]
        exact ih f (o + 1) _ _ (by omega) (by omega) (by simp [hfl]) (by simp [hrl])
          (fun j hj => hfpren j (by omega)) (fun j hj => hfzn j (by omega))
          (fun j hj => hrpren j (by omega)) (fun j hj => hrzn j (by omega))
          (fun j hj => by
            by_cases h : j = o
            · subst h; exact heq
            · exact hties j (by omega))
          hv1n hv2n

/-- The outcome of `prepSeq` on a processor built for window size `k`, whatever
the scratch buffers held before, is the function `prepSpec` of the window. -/
theorem prepSeq_eq_prepSpec (k : Nat) (fwMem rvMem : Nat → Nat) (sequence : List Byte)
    (pos : Nat) (hk : 3 < k) (hlen : pos + k ≤ sequence.length) :
    prepSeq (ReadsProcessor.new k fwMem rvMem) sequence pos
      = prepSpec (window sequence pos k) := by
  have hp := new_geometry k fwMem rvMem
  obtain ⟨hks, hB, _, _, _, hfl, hrl⟩ := hp
  unfold prepSeq
  rw [memsetZero_eq _ _ (by rw [hfl, hB]), memsetZero_eq _ _ (by rw [hrl, hB])]
  simp only [bind, Except.bind]
  rw [hks]
  have := mainLoop_eq (ReadsProcessor.new k fwMem rvMem) k sequence pos (window sequence pos k)
    (new_geometry k fwMem rvMem) hk hlen rfl ((k + 7) / 8) k 0
    (List.replicate (ReadsProcessor.new k fwMem rvMem).kmerSizeInBytes 0)
    (List.replicate (ReadsProcessor.new k fwMem rvMem).kmerSizeInBytes 0)
    (by omega) (by omega) (by simp [hB]) (by simp [hB])
    (fun j hj => by omega) (fun j _ => replicate_getD _ j)
    (fun j hj => by omega) (fun j _ => replicate_getD _ j)
    (fun j hj => by omega) (fun t ht => by omega) (fun t h1 h2 => by omega)
  simpa using this

/-! ## Theorems: the canonical k-mer (claims on `prepSeq`) -/

theorem digits_of_pack_eq (u v : List Byte) (hl : u.length = v.length)
    (h : pack u = pack v) : ∀ t, digit u t = digit v t := by
  intro t
  by_cases ht : t < u.length
  · have hj : t / 4 < (u.length + 3) / 4 := by omega
    have hb : packByte u (t / 4) = packByte v (t / 4) := by
      rw [← pack_getD u _ hj, h, pack_getD v _ (by rw [← hl]; exact hj)]
    have := digits_of_packByte_eq u v (t / 4) hb
    have hm : t % 4 = 0 ∨ t % 4 = 1 ∨ t % 4 = 2 ∨ t % 4 = 3 := by omega
    rcases hm with hm | hm | hm | hm
    · have e : 4 * (t / 4) = t := by omega
      rw [e] at this; exact this.1
    · have e : 4 * (t / 4) + 1 = t := by omega
      rw [e] at this; exact this.2.1
    · have e : 4 * (t / 4) + 2 = t := by omega
      rw [e] at this; exact this.2.2.1
    · have e : 4 * (t / 4) + 3 = t := by omega
      rw [e] at this; exact this.2.2.2
  · rw [digit_zero u t (by omega), digit_zero v t (by omega)]

/-- A window that is its own reverse complement has even length: the middle
base of an odd window would equal its own complement. -/
theorem even_of_pack_eq (w : List Byte) (hvalid : ∀ t, t < w.length → validAt w t = true)
    (h : pack w = pack (reverseComplement w)) : w.length % 2 = 0 := by
  by_contra hodd
  have hd := digits_of_pack_eq w (reverseComplement w) (reverseComplement_length w).symm h
    (w.length / 2)
  have h2 := digit_reverseComplement w (w.length / 2) (by omega) (by apply hvalid; omega)
  have e : w.length - 1 - w.length / 2 = w.length / 2 := by omega
  rw [e] at h2
  rw [digit_eq w _ (by omega)] at hd
  have := baseCode_lt (w.getD (w.length / 2) 0)
  omega

theorem palSpec_buffer (w : List Byte) (hk : 3 < w.length) (heven : w.length % 2 = 0)
    (h6 : w.length ≠ 6) (h10 : w.length ≠ 10) :
    ∃ buf, palSpec w = Except.ok (some buf) ∧ buf.length = (w.length + 3) / 4
      ∧ buf.take ((w.length + 7) / 8) = (pack w).take ((w.length + 7) / 8) := by
  refine ⟨(List.range ((w.length + 3) / 4)).map (palByte w), ?_, by simp, ?_⟩
  · unfold palSpec
    simp only []
    rw [if_neg (by omega)]
    rfl
  · unfold pack
    rw [← List.map_take, ← List.map_take]
    apply List.map_congr_left
    intro j hj
    rw [List.take_range, List.mem_range] at hj
    unfold palByte
    simp only []
    rw [if_pos (by omega)]

theorem mem_window_iff (w : List Byte) :
    (∀ c, c ∈ w → isACGT c = true) ↔ ∀ t, t < w.length → validAt w t = true := by
  rw [← all_valid_iff, List.all_eq_true]

/-- What `prepSeq` returns on an all-ACGT window, by whether the window is
its own reverse complement. -/
theorem prepSeq_valid_window (k : Nat) (fwMem rvMem : Nat → Nat) (sequence : List Byte)
    (pos : Nat) (hk : 3 < k) (hlen : pos + k ≤ sequence.length)
    (hvalid : ∀ c, c ∈ window sequence pos k → isACGT c = true) :
    (pack (window sequence pos k) ≠ pack (reverseComplement (window sequence pos k)) →
        prepSeq (ReadsProcessor.new k fwMem rvMem) sequence pos
            = Except.ok (some (canonical (window sequence pos k)))
          ∧ (canonical (window sequence pos k)).length = (k + 3) / 4)
      ∧ (pack (window sequence pos k) = pack (reverseComplement (window sequence pos k)) →
          k ≠ 6 → k ≠ 10 →
          ∃ buf, prepSeq (ReadsProcessor.new k fwMem rvMem) sequence pos = Except.ok (some buf)
            ∧ buf.length = (k + 3) / 4
            ∧ buf.take ((k + 7) / 8) = (pack (window sequence pos k)).take ((k + 7) / 8)) := by
  have hwl : (window sequence pos k).length = k := window_length _ _ _ hlen
  have hall : (window sequence pos k).all isACGT = true := by
    rw [List.all_eq_true]; exact hvalid
  rw [prepSeq_eq_prepSpec k fwMem rvMem sequence pos hk hlen]
  constructor
  · intro hne
    constructor
    · unfold prepSpec
      rw [if_pos hall, if_neg hne]
      rfl
    · unfold canonical lexMin
      split
      · rw [pack_length, reverseComplement_length, hwl]
      · rw [pack_length, hwl]
  · intro heq h6 h10
    have hev := even_of_pack_eq _ ((mem_window_iff _).mp hvalid) heq
    obtain ⟨buf, h1, h2, h3⟩ := palSpec_buffer (window sequence pos k) (by omega) hev
      (by omega) (by omega)
    refine ⟨buf, ?_, by rw [h2, hwl], by rw [hwl] at h3; exact h3⟩
    unfold prepSpec
    rw [if_pos hall, if_pos heq]
    exact h1

theorem palSpec_ne_null (w : List Byte) : palSpec w ≠ Except.ok none := by
  unfold palSpec
  simp only []
  split
  · intro h; cases h
  · intro h; cases h

/-- For `k > 3` and `pos + k <= len(seq)`, the outcome of `prepSeq` is `NULL`
if and only if some character of the window is not one of `A C G T a c g t`. -/
theorem prepSeq_null_iff (k : Nat) (fwMem rvMem : Nat → Nat) (sequence : List Byte)
    (pos : Nat) (hk : 3 < k) (hlen : pos + k ≤ sequence.length) :
    prepSeq (ReadsProcessor.new k fwMem rvMem) sequence pos = Except.ok none
      ↔ ∃ c, c ∈ window sequence pos k ∧ isACGT c = false := by
  rw [prepSeq_eq_prepSpec k fwMem rvMem sequence pos hk hlen]
  unfold prepSpec
  by_cases hall : (window sequence pos k).all isACGT = true
  · rw [if_pos hall]
    have hno : ¬ ∃ c, c ∈ window sequence pos k ∧ isACGT c = false := by
      rintro ⟨c, hc, hf⟩
      rw [List.all_eq_true] at hall
      rw [hall c hc] at hf
      cases hf
    constructor
    · intro h
      exfalso
      split at h
      · exact palSpec_ne_null _ h
      · cases h
    · intro h
      exact absurd h hno
  · rw [if_neg hall]
    constructor
    · intro _
      by_contra hno
      apply hall
      rw [List.all_eq_true]
      intro c hc
      cases hv : isACGT c
      · exact absurd ⟨c, hc, hv⟩ hno
      · rfl
    · intro _
      rfl

/-- Example: in `AAAANNNN` with `k = 4` position 0 is accepted and positions
1 to 4 are rejected. -/
theorem prepSeq_null_iff_witness :
    3 < 4 ∧ 4 + 4 ≤ ([65, 65, 65, 65, 78, 78, 78, 78] : List Byte).length
      ∧ prepSeq (ReadsProcessor.new 4 (fun _ => 7) (fun _ => 9))
          [65, 65, 65, 65, 78, 78, 78, 78] 0 ≠ Except.ok none
      ∧ ∀ pos, pos ∈ [1, 2, 3, 4] →
          prepSeq (ReadsProcessor.new 4 (fun _ => 7) (fun _ => 9))
            [65, 65, 65, 65, 78, 78, 78, 78] pos = Except.ok none := by
  refine ⟨by decide, by decide, ?_, ?_⟩
  · intro h
    have := (prepSeq_null_iff 4 (fun _ => 7) (fun _ => 9) [65, 65, 65, 65, 78, 78, 78, 78] 0
      (by decide) (by decide)).mp h
    revert this
    decide
  · intro pos hpos
    have hp : pos + 4 ≤ ([65, 65, 65, 65, 78, 78, 78, 78] : List Byte).length := by
      simp only [List.mem_cons, List.mem_singleton, List.not_mem_nil, or_false] at hpos
      simp only [List.length_cons, List.length_nil]
      omega
    apply (prepSeq_null_iff 4 (fun _ => 7) (fun _ => 9) [65, 65, 65, 65, 78, 78, 78, 78] pos
      (by decide) hp).mpr
    refine ⟨78, ?_, by decide⟩
    simp only [List.mem_cons, List.mem_singleton, List.not_mem_nil, or_false] at hpos
    rcases hpos with h | h | h | h <;> subst h <;> decide

/-- C5 (failing input): for `k = 8` the palindromic window `AAAATTTT` and the
different, non-palindromic window `AAAAAAAA` both yield the buffer
`[0x00, 0x00]`. -/
theorem prepSeq_collision :
    prepSeq (ReadsProcessor.new 8 (fun _ => 0) (fun _ => 0))
        [65, 65, 65, 65, 84, 84, 84, 84] 0 = Except.ok (some [0, 0])
      ∧ prepSeq (ReadsProcessor.new 8 (fun _ => 0) (fun _ => 0))
        [65, 65, 65, 65, 65, 65, 65, 65] 0 = Except.ok (some [0, 0])
      ∧ ([65, 65, 65, 65, 65, 65, 65, 65] : List Byte) ≠ [65, 65, 65, 65, 84, 84, 84, 84]
      ∧ ([65, 65, 65, 65, 65, 65, 65, 65] : List Byte)
          ≠ reverseComplement [65, 65, 65, 65, 84, 84, 84, 84]
      ∧ reverseComplement [65, 65, 65, 65, 65, 65, 65, 65]
          ≠ ([65, 65, 65, 65, 65, 65, 65, 65] : List Byte) := by
  decide

/-! ## Theorems: reverse-complement invariance -/

theorem bytes_ext (a b : List Byte) (hl : a.length = b.length)
    (h : ∀ j, j < a.length → a.getD j 0 = b.getD j 0) : a = b := by
  apply List.ext_getElem hl
  intro n h1 h2
  have := h n h1
  simpa [List.getD_eq_getElem?_getD, h1, h2] using this

theorem window_reverseComplement (sequence : List Byte) (pos k : Nat)
    (hlen : pos + k ≤ sequence.length) :
    window (reverseComplement sequence) (sequence.length - pos - k) k
      = reverseComplement (window sequence pos k) := by
  have hl1 : (window (reverseComplement sequence) (sequence.length - pos - k) k).length = k :=
    window_length _ _ _ (by rw [reverseComplement_length]; omega)
  have hl2 : (window sequence pos k).length = k := window_length _ _ _ hlen
  apply bytes_ext
  · rw [hl1, reverseComplement_length, hl2]
  · intro j hj
    rw [hl1] at hj
    rw [window_getD _ _ _ j hj, reverseComplement_getD _ _ (by omega),
      reverseComplement_getD _ _ (by rw [hl2]; exact hj), hl2,
      window_getD _ _ _ (k - 1 - j) (by omega)]
    congr 2
    omega

theorem reverseComplement_involutive (w : List Byte) :
    reverseComplement (reverseComplement w) = w := by
  unfold reverseComplement
  rw [List.map_reverse, List.reverse_reverse, List.map_map]
  have : complement ∘ complement = id := by
    funext c
    exact complement_complement c
  rw [this, List.map_id]

theorem reverseComplement_valid (w : List Byte) (h : ∀ c, c ∈ w → isACGT c = true) :
    ∀ c, c ∈ reverseComplement w → isACGT c = true := by
  intro c hc
  unfold reverseComplement at hc
  rw [List.mem_reverse, List.mem_map] at hc
  obtain ⟨d, hd, rfl⟩ := hc
  rw [isACGT_complement]
  exact h d hd

theorem lexLt_tri : ∀ a b : List Nat, a.length = b.length →
    (lexLt a b = true ∧ lexLt b a = false) ∨ (a = b ∧ lexLt a b = false ∧ lexLt b a = false)
      ∨ (lexLt b a = true ∧ lexLt a b = false) := by
  intro a
  induction a with
  | nil =>
    intro b hl
    cases b with
    | nil => right; left; exact ⟨rfl, rfl, rfl⟩
    | cons y bs => simp at hl
  | cons x as ih =>
    intro b hl
    cases b with
    | nil => simp at hl
    | cons y bs =>
      rcases Nat.lt_trichotomy x y with h | h | h
      · left
        have h1 : ¬ y < x := by omega
        have h2 : ¬ y = x := by omega
        simp [lexLt, h, h1, h2]
      · subst h
        rcases ih bs (by simpa using hl) with h | h | h
        · left; simp [lexLt, h.1, h.2]
        · right; left
          refine ⟨by rw [h.1], ?_, ?_⟩ <;> simp [lexLt, h.2.1, h.2.2]
        · right; right; simp [lexLt, h.1, h.2]
      · right; right
        have h1 : ¬ x < y := by omega
        have h2 : ¬ x = y := by omega
        simp [lexLt, h, h1, h2]

theorem lexMin_comm (a b : List Nat) (hl : a.length = b.length) : lexMin a b = lexMin b a := by
  unfold lexMin
  rcases lexLt_tri a b hl with h | h | h
  · rw [h.1, h.2]; rfl
  · rw [h.2.1, h.2.2, h.1]
  · rw [h.1, h.2]; rfl

theorem palSpec_congr (u v : List Byte) (hl : u.length = v.length)
    (hd : ∀ t, digit u t = digit v t) : palSpec u = palSpec v := by
  unfold palSpec
  simp only []
  rw [hl]
  have : ∀ i, palByte u i = palByte v i := by
    intro i
    unfold palByte
    simp only [hl, hd, packByte_congr u v i hd]
  rw [List.map_congr_left (fun i _ => this i)]

theorem prepSpec_reverseComplement (w : List Byte) (hv : ∀ c, c ∈ w → isACGT c = true) :
    prepSpec (reverseComplement w) = prepSpec w := by
  have h1 : w.all isACGT = true := by rw [List.all_eq_true]; exact hv
  have h2 : (reverseComplement w).all isACGT = true := by
    rw [List.all_eq_true]; exact reverseComplement_valid w hv
  unfold prepSpec
  rw [if_pos h1, if_pos h2, reverseComplement_involutive]
  by_cases heq : pack w = pack (reverseComplement w)
  · rw [if_pos heq, if_pos heq.symm]
    exact palSpec_congr _ _ (reverseComplement_length w)
      (fun t => (digits_of_pack_eq w _ (reverseComplement_length w).symm heq t).symm)
  · rw [if_neg heq, if_neg (fun h => heq h.symm)]
    unfold canonical
    rw [reverseComplement_involutive, lexMin_comm _ _
      (by rw [pack_length, pack_length, reverseComplement_length])]

/-- For `k > 3`, a sequence `S` of bases and `p + k <= len(S)`, the call
`prepSeq(S, p)` and the call `prepSeq(reverse_complement(S), len(S) - p - k)`
have the same outcome, byte for byte; unless the window is its own reverse
complement with `k` equal to 6 or 10, that outcome is a buffer of `ceil(k/4)`
bytes. -/
theorem prepSeq_reverseComplement (k : Nat) (fwMem rvMem : Nat → Nat) (S : List Byte)
    (p : Nat) (hk : 3 < k) (hlen : p + k ≤ S.length) (hS : ∀ c, c ∈ S → isACGT c = true) :
    prepSeq (ReadsProcessor.new k fwMem rvMem) S p
        = prepSeq (ReadsProcessor.new k fwMem rvMem) (reverseComplement S) (S.length - p - k)
      ∧ ((pack (window S p k) ≠ pack (reverseComplement (window S p k)) ∨ (k ≠ 6 ∧ k ≠ 10)) →
          ∃ buf, prepSeq (ReadsProcessor.new k fwMem rvMem) S p = Except.ok (some buf)
            ∧ buf.length = (k + 3) / 4) := by
  have hwv : ∀ c, c ∈ window S p k → isACGT c = true := by
    intro c hc
    unfold window at hc
    exact hS c (List.mem_of_mem_drop (List.mem_of_mem_take hc))
  constructor
  · rw [prepSeq_eq_prepSpec k fwMem rvMem S p hk hlen,
      prepSeq_eq_prepSpec k fwMem rvMem (reverseComplement S) (S.length - p - k) hk
        (by rw [reverseComplement_length]; omega),
      window_reverseComplement S p k hlen, prepSpec_reverseComplement _ hwv]
  · intro h
    have hc := prepSeq_valid_window k fwMem rvMem S p hk hlen hwv
    by_cases hne : pack (window S p k) ≠ pack (reverseComplement (window S p k))
    · exact ⟨_, (hc.1 hne).1, (hc.1 hne).2⟩
    · have heq : pack (window S p k) = pack (reverseComplement (window S p k)) := by
        by_contra h2; exact hne h2
      rcases h with h | h
      · exact absurd h hne
      · obtain ⟨buf, hb1, hb2, _⟩ := hc.2 heq h.1 h.2
        exact ⟨buf, hb1, hb2⟩

set_option maxRecDepth 100000 in
/-- Example: with `k = 4` the 4-mer at position 1 of `GGGGTTTT` is the
4-mer at position 3 of its reverse complement `AAAACCCC`. -/
theorem prepSeq_reverseComplement_witness :
    3 < 4 ∧ 1 + 4 ≤ ([71, 71, 71, 71, 84, 84, 84, 84] : List Byte).length
      ∧ reverseComplement [71, 71, 71, 71, 84, 84, 84, 84] = [65, 65, 65, 65, 67, 67, 67, 67]
      ∧ prepSeq (ReadsProcessor.new 4 (fun _ => 7) (fun _ => 9))
          [71, 71, 71, 71, 84, 84, 84, 84] 1
        = prepSeq (ReadsProcessor.new 4 (fun _ => 7) (fun _ => 9))
          (reverseComplement [71, 71, 71, 71, 84, 84, 84, 84])
          (([71, 71, 71, 71, 84, 84, 84, 84] : List Byte).length - 1 - 4) :=
  ⟨by decide, by decide, by decide,
    (prepSeq_reverseComplement 4 (fun _ => 7) (fun _ => 9) [71, 71, 71, 71, 84, 84, 84, 84] 1
      (by decide) (by decide) (by decide)).1⟩

/-! ## Theorems: unpacking with `getBases` -/

set_option maxRecDepth 100000 in
theorem acgt_getD_baseCode :
    ∀ c : Byte, isACGT c = true → ([65, 67, 71, 84] : List Byte).getD (baseCode c) 0 = upperBase c := by
  decide

set_option maxRecDepth 100000 in
theorem upperBase_val :
    ∀ c : Byte, isACGT c = true → (upperBase c).val = codeVal (baseCode c) := by
  decide

set_option maxRecDepth 100000 in
theorem complement_upperBase :
    ∀ c : Byte, complement (upperBase c) = upperBase (complement c) := by
  decide

theorem codeVal_lt_fin : ∀ a b : Fin 4, a.val < b.val → codeVal a.val < codeVal b.val := by
  decide

theorem extract_digit_fin : ∀ a b c d m : Fin 4,
    ((64 * a.val + 16 * b.val + 4 * c.val + d.val) >>> (2 * (3 - m.val))) &&& 3
      = [a.val, b.val, c.val, d.val].getD m.val 0 := by
  decide

theorem extract_digit (u : List Byte) (i : Nat) :
    (packByte u (i / 4) >>> (2 * (3 - i % 4))) &&& 3 = digit u i := by
  rw [packByte_eq]
  have h := extract_digit_fin ⟨_, digit_lt u (4 * (i / 4))⟩ ⟨_, digit_lt u (4 * (i / 4) + 1)⟩
    ⟨_, digit_lt u (4 * (i / 4) + 2)⟩ ⟨_, digit_lt u (4 * (i / 4) + 3)⟩
    ⟨i % 4, Nat.mod_lt _ (by omega)⟩
  simp only [] at h
  rw [h]
  have hm : i % 4 = 0 ∨ i % 4 = 1 ∨ i % 4 = 2 ∨ i % 4 = 3 := by omega
  rcases hm with hm | hm | hm | hm
  · have e : 4 * (i / 4) = i := by omega
    rw [hm, e]; rfl
  · have e : 4 * (i / 4) + 1 = i := by omega
    rw [hm, e]; rfl
  · have e : 4 * (i / 4) + 2 = i := by omega
    rw [hm, e]; rfl
  · have e : 4 * (i / 4) + 3 = i := by omega
    rw [hm, e]; rfl

theorem getBasesLoop_eq (p : ReadsProcessor) (u : List Byte) (hk : p.kmerSize = u.length)
    (hv : ∀ t, t < u.length → validAt u t = true) :
    ∀ (n fuel i : Nat) (bases : List Byte) (idx : Nat) (off : Int),
      i + n = u.length → n ≤ fuel →
      (if off = -1 then idx + 1 else idx) = i / 4 →
      (if off = -1 then (3 : Int) else off) = 3 - ((i % 4 : Nat) : Int) →
      getBasesLoop p (pack u) fuel bases idx off i
        = Except.ok (bases ++ (u.drop i).map upperBase) := by
  intro n
  induction n with
  | zero =>
    intro fuel i bases idx off hin _ _ _
    have hi : i = u.length := by omega
    have : ¬ i < p.kmerSize := by omega
    unfold getBasesLoop
    rw [if_neg this]
    simp [hi, pure, Except.pure]
  | succ n ih =>
    intro fuel i bases idx off hin hfuel h1 h2
    obtain ⟨f, rfl⟩ : ∃ f, fuel = f + 1 := ⟨fuel - 1, by omega⟩
    have hi : i < u.length := by omega
    rw [getBasesLoop, if_pos (by omega)]
    simp only [h1, h2]
    rw [readAt_eq _ _ (by rw [pack_length]; omega), pack_getD u _ (by omega)]
    simp only [bind, Except.bind]
    have hsh : (2 * ((3 : Int) - ((i % 4 : Nat) : Int))).toNat = 2 * (3 - i % 4) := by omega
    rw [hsh, extract_digit, digit_eq u i hi, acgt_getD_baseCode _ (hv i hi)]
    rw [ih f (i + 1) _ (i / 4) _ (by omega) (by omega)]
    · have hd : u.drop i = u.getD i 0 :: u.drop (i + 1) := by
        rw [List.drop_eq_getElem_cons hi]
        simp [List.getD_eq_getElem?_getD, hi]
      rw [hd]
      simp
    · split <;> omega
    · split <;> omega

/-- On the packing of an all-ACGT k-mer `getBases` returns its upper-case
text. -/
theorem getBases_pack (p : ReadsProcessor) (u : List Byte) (hk : p.kmerSize = u.length)
    (hv : ∀ c, c ∈ u → isACGT c = true) :
    getBases p (pack u) = Except.ok (u.map upperBase) := by
  unfold getBases
  rw [getBasesLoop_eq p u hk ((mem_window_iff u).mp hv) u.length p.kmerSize 0 [] 0 3
    (by omega) (by omega) (by simp) (by simp)]
  simp

/-! ## Theorems: round trip through `getBases` -/

theorem textOf_length (u : List Byte) : (textOf u).length = u.length := by
  simp [textOf]

theorem textOf_getD (u : List Byte) (t : Nat) (ht : t < u.length)
    (hv : validAt u t = true) : (textOf u).getD t 0 = codeVal (digit u t) := by
  rw [digit_eq u t ht, ← upperBase_val _ hv]
  unfold textOf
  simp [List.getD_eq_getElem?_getD, ht]

theorem pack_eq_of_digits (u v : List Byte) (hl : u.length = v.length)
    (hd : ∀ t, digit u t = digit v t) : pack u = pack v := by
  unfold pack
  rw [hl]
  exact List.map_congr_left (fun j _ => packByte_congr u v j hd)

theorem order_of_first_diff (x y : List Byte) (hl : x.length = y.length)
    (hx : ∀ t, t < x.length → validAt x t = true)
    (hy : ∀ t, t < y.length → validAt y t = true)
    (t0 : Nat) (ht0 : t0 < x.length) (heq : ∀ t, t < t0 → digit x t = digit y t)
    (hlt : digit x t0 < digit y t0) :
    (lexLt (pack x) (pack y) = true ∧ lexLt (pack y) (pack x) = false)
      ∧ (lexLt (textOf x) (textOf y) = true ∧ lexLt (textOf y) (textOf x) = false) := by
  constructor
  · apply lexLt_of_first_diff (t0 / 4) (pack x) (pack y)
    · rw [pack_length, pack_length, hl]
    · rw [pack_length]; omega
    · intro j hj
      rw [pack_getD x j (by omega), pack_getD y j (by omega), packByte_eq, packByte_eq,
        heq _ (by omega), heq _ (by omega), heq _ (by omega), heq _ (by omega)]
    · rw [pack_getD x _ (by omega), pack_getD y _ (by omega), packByte_eq, packByte_eq]
      have a0 := digit_lt x (4 * (t0 / 4))
      have a1 := digit_lt x (4 * (t0 / 4) + 1)
      have a2 := digit_lt x (4 * (t0 / 4) + 2)
      have a3 := digit_lt x (4 * (t0 / 4) + 3)
      have b0 := digit_lt y (4 * (t0 / 4))
      have b1 := digit_lt y (4 * (t0 / 4) + 1)
      have b2 := digit_lt y (4 * (t0 / 4) + 2)
      have b3 := digit_lt y (4 * (t0 / 4) + 3)
      have hm : t0 % 4 = 0 ∨ t0 % 4 = 1 ∨ t0 % 4 = 2 ∨ t0 % 4 = 3 := by omega
      rcases hm with hm | hm | hm | hm
      · have e : 4 * (t0 / 4) = t0 := by omega
        have ex : digit x (4 * (t0 / 4)) = digit x t0 := by rw [e]
        have ey : digit y (4 * (t0 / 4)) = digit y t0 := by rw [e]
        omega
      · have e : 4 * (t0 / 4) + 1 = t0 := by omega
        have e0 := heq (4 * (t0 / 4)) (by omega)
        have ex : digit x (4 * (t0 / 4) + 1) = digit x t0 := by rw [e]
        have ey : digit y (4 * (t0 / 4) + 1) = digit y t0 := by rw [e]
        omega
      · have e : 4 * (t0 / 4) + 2 = t0 := by omega
        have e0 := heq (4 * (t0 / 4)) (by omega)
        have e1 := heq (4 * (t0 / 4) + 1) (by omega)
        have ex : digit x (4 * (t0 / 4) + 2) = digit x t0 := by rw [e]
        have ey : digit y (4 * (t0 / 4) + 2) = digit y t0 := by rw [e]
        omega
      · have e : 4 * (t0 / 4) + 3 = t0 := by omega
        have e0 := heq (4 * (t0 / 4)) (by omega)
        have e1 := heq (4 * (t0 / 4) + 1) (by omega)
        have e2 := heq (4 * (t0 / 4) + 2) (by omega)
        have ex : digit x (4 * (t0 / 4) + 3) = digit x t0 := by rw [e]
        have ey : digit y (4 * (t0 / 4) + 3) = digit y t0 := by rw [e]
        omega
  · apply lexLt_of_first_diff t0 (textOf x) (textOf y)
    · rw [textOf_length, textOf_length, hl]
    · rw [textOf_length]; exact ht0
    · intro j hj
      rw [textOf_getD x j (by omega) (hx j (by omega)),
        textOf_getD y j (by omega) (hy j (by omega)), heq j hj]
    · rw [textOf_getD x t0 ht0 (hx t0 ht0), textOf_getD y t0 (by omega) (hy t0 (by omega))]
      exact codeVal_lt_fin ⟨_, digit_lt x t0⟩ ⟨_, digit_lt y t0⟩ hlt

theorem reverseComplement_map_upperBase (w : List Byte) :
    reverseComplement (w.map upperBase) = (reverseComplement w).map upperBase := by
  unfold reverseComplement
  rw [List.map_reverse, List.map_map, List.map_map]
  congr 2
  funext c
  exact complement_upperBase c

theorem text_eq_of_pack_eq (u v : List Byte) (hl : u.length = v.length)
    (hu : ∀ t, t < u.length → validAt u t = true)
    (hv : ∀ t, t < v.length → validAt v t = true) (h : pack u = pack v) :
    u.map upperBase = v.map upperBase := by
  have hd := digits_of_pack_eq u v hl h
  apply bytes_ext
  · simp [hl]
  · intro j hj
    rw [List.length_map] at hj
    have e1 : (u.map upperBase).getD j 0 = upperBase (u.getD j 0) := by
      simp [List.getD_eq_getElem?_getD, hj]
    have e2 : (v.map upperBase).getD j 0 = upperBase (v.getD j 0) := by
      have : j < v.length := by omega
      simp [List.getD_eq_getElem?_getD, this]
    have hu1 := hu j hj
    have hv1 := hv j (by omega)
    unfold validAt at hu1 hv1
    rw [e1, e2, ← acgt_getD_baseCode _ hu1, ← acgt_getD_baseCode _ hv1,
      ← digit_eq u j hj, ← digit_eq v j (by omega), hd j]

/-- For `k > 3` and an all-ACGT window `W` whose upper-case
text differs from its reverse complement, `prepSeq` returns a buffer on which
`getBases` yields the `k`-character text that is the smaller, in the order
`A<C<G<T`, of upper-case `W` and its reverse complement. -/
theorem getBases_prepSeq (k : Nat) (fwMem rvMem : Nat → Nat) (sequence : List Byte)
    (pos : Nat) (hk : 3 < k) (hlen : pos + k ≤ sequence.length)
    (hvalid : ∀ c, c ∈ window sequence pos k → isACGT c = true)
    (hne : (window sequence pos k).map upperBase
      ≠ reverseComplement ((window sequence pos k).map upperBase)) :
    ∃ buf, prepSeq (ReadsProcessor.new k fwMem rvMem) sequence pos = Except.ok (some buf)
      ∧ getBases (ReadsProcessor.new k fwMem rvMem) buf
          = Except.ok (textMin ((window sequence pos k).map upperBase)
              (reverseComplement ((window sequence pos k).map upperBase)))
      ∧ (textMin ((window sequence pos k).map upperBase)
              (reverseComplement ((window sequence pos k).map upperBase))).length = k := by
  have hwl : (window sequence pos k).length = k := window_length _ _ _ hlen
  have hrl : (reverseComplement (window sequence pos k)).length = k := by
    rw [reverseComplement_length, hwl]
  have hks : (ReadsProcessor.new k fwMem rvMem).kmerSize = k := (new_geometry k fwMem rvMem).1
  have hrv := reverseComplement_valid _ hvalid
  have hx := (mem_window_iff _).mp hvalid
  have hy := (mem_window_iff _).mp hrv
  have hpne : pack (window sequence pos k) ≠ pack (reverseComplement (window sequence pos k)) := by
    intro h
    apply hne
    rw [reverseComplement_map_upperBase]
    exact text_eq_of_pack_eq _ _ (by rw [hwl, hrl]) hx hy h
  have hex : ∃ t, digit (window sequence pos k) t
      ≠ digit (reverseComplement (window sequence pos k)) t := by
    by_contra hno
    apply hpne
    apply pack_eq_of_digits _ _ (by rw [hwl, hrl])
    intro t
    by_contra h2
    exact hno ⟨t, h2⟩
  have hmin : ∀ t, t < Nat.find hex → digit (window sequence pos k) t
      = digit (reverseComplement (window sequence pos k)) t := by
    intro t ht
    by_contra h2
    exact Nat.find_min hex ht h2
  have hspec := Nat.find_spec hex
  have hlt0 : Nat.find hex < k := by
    by_contra h2
    apply hspec
    rw [digit_zero _ _ (by rw [hwl]; omega), digit_zero _ _ (by rw [hrl]; omega)]
  refine ⟨canonical (window sequence pos k),
    ((prepSeq_valid_window k fwMem rvMem sequence pos hk hlen hvalid).1 hpne).1, ?_, ?_⟩
  · unfold canonical lexMin textMin
    rw [reverseComplement_map_upperBase]
    have e1 : ((window sequence pos k).map upperBase).map Fin.val
        = textOf (window sequence pos k) := rfl
    have e2 : ((reverseComplement (window sequence pos k)).map upperBase).map Fin.val
        = textOf (reverseComplement (window sequence pos k)) := rfl
    rw [e1, e2]
    rcases Nat.lt_or_gt_of_ne hspec with h | h
    · have := order_of_first_diff _ _ (by rw [hwl, hrl]) hx hy (Nat.find hex)
        (by rw [hwl]; exact hlt0) hmin h
      rw [this.1.2, this.2.2]
      simp only [Bool.false_eq_true, if_false]
      exact getBases_pack _ _ (by rw [hks, hwl]) hvalid
    · have := order_of_first_diff _ _ (by rw [hwl, hrl]) hy hx (Nat.find hex)
        (by rw [hrl]; exact hlt0) (fun t ht => (hmin t ht).symm) h
      rw [this.1.1, this.2.1]
      simp only [if_true]
      exact getBases_pack _ _ (by rw [hks, hrl]) hrv
  · unfold textMin
    split
    · rw [reverseComplement_length, List.length_map, hwl]
    · rw [List.length_map, hwl]

set_option maxRecDepth 100000 in
/-- Example: `k = 5`, window `TTGTA` at position 2 of `xxTTGTAyy`; the
recovered text is `TACAA`. -/
theorem getBases_prepSeq_witness :
    3 < 5 ∧ 2 + 5 ≤ ([120, 120, 84, 84, 71, 84, 65, 121, 121] : List Byte).length
      ∧ textMin ((window [120, 120, 84, 84, 71, 84, 65, 121, 121] 2 5).map upperBase)
          (reverseComplement ((window [120, 120, 84, 84, 71, 84, 65, 121, 121] 2 5).map
            upperBase)) = [84, 65, 67, 65, 65]
      ∧ ∃ buf, prepSeq (ReadsProcessor.new 5 (fun _ => 7) (fun _ => 9))
            [120, 120, 84, 84, 71, 84, 65, 121, 121] 2 = Except.ok (some buf)
          ∧ getBases (ReadsProcessor.new 5 (fun _ => 7) (fun _ => 9)) buf
            = Except.ok (textMin
                ((window [120, 120, 84, 84, 71, 84, 65, 121, 121] 2 5).map upperBase)
                (reverseComplement
                  ((window [120, 120, 84, 84, 71, 84, 65, 121, 121] 2 5).map upperBase))) := by
  refine ⟨by decide, by decide, by decide, ?_⟩
  obtain ⟨buf, h1, h2, _⟩ := getBases_prepSeq 5 (fun _ => 7) (fun _ => 9)
    [120, 120, 84, 84, 71, 84, 65, 121, 121] 2 (by decide) (by decide) (by decide) (by decide)
  exact ⟨buf, h1, h2⟩

/-! ## Theorems: classifier modes -/

theorem evaluateReadStdLoop_eq (evalRead : Nat → Bool) (size : Nat) :
    ∀ (fuel : Nat) (hits : List Nat) (i : Nat), i + fuel = size →
      evaluateReadStdLoop evalRead size fuel hits i
        = Except.ok (hits ++ (List.range' i fuel).filter evalRead) := by
  intro fuel
  induction fuel with
  | zero =>
    intro hits i h
    have hi : i = size := by omega
    simp [evaluateReadStdLoop, hi, pure, Except.pure]
  | succ n ih =>
    intro hits i h
    have hi : i ≠ size := by omega
    unfold evaluateReadStdLoop
    rw [if_pos hi]
    simp only []
    rw [ih _ (i + 1) (by omega)]
    by_cases hp : evalRead i = true
    · simp [List.range', List.filter, hp]
    · simp [List.range', List.filter, hp]

/-- C6: in STD mode `evaluateReadStd`, called with an empty `hits`, leaves
exactly the indices `i < N` whose filter passes `evalRead`, each once, in
increasing order. -/
theorem evaluateReadStd_hits (evalRead : Nat → Bool) (size : Nat) :
    evaluateReadStd evalRead size [] = Except.ok ((List.range size).filter evalRead) := by
  unfold evaluateReadStd
  rw [evaluateReadStdLoop_eq evalRead size size [] 0 (by omega)]
  simp [List.range_eq_range']

theorem evaluateReadOrderedLoop_none (evalRead : Nat → Bool) (size : Nat) :
    ∀ (fuel : Nat) (hits : List Nat) (i : Nat), i + fuel = size →
      (∀ j, i ≤ j → j < size → evalRead j = false) →
      evaluateReadOrderedLoop evalRead size fuel hits i = Except.ok hits := by
  intro fuel
  induction fuel with
  | zero =>
    intro hits i h _
    have hi : i = size := by omega
    simp [evaluateReadOrderedLoop, hi, pure, Except.pure]
  | succ n ih =>
    intro hits i h hno
    have hi : i ≠ size := by omega
    unfold evaluateReadOrderedLoop
    rw [if_pos hi]
    simp only []
    rw [hno i (le_refl i) (by omega)]
    simp only [Bool.false_eq_true, if_false]
    exact ih hits (i + 1) (by omega) (fun j h1 h2 => hno j (by omega) h2)

theorem evaluateReadOrderedLoop_first (evalRead : Nat → Bool) (size m : Nat)
    (hm : m < size) (hpass : evalRead m = true) :
    ∀ (fuel : Nat) (hits : List Nat) (i : Nat), i + fuel = size → i ≤ m →
      (∀ j, i ≤ j → j < m → evalRead j = false) →
      evaluateReadOrderedLoop evalRead size fuel hits i = Except.ok (hits ++ [m]) := by
  intro fuel
  induction fuel with
  | zero => intro hits i h him _; omega
  | succ n ih =>
    intro hits i h him hno
    have hi : i ≠ size := by omega
    unfold evaluateReadOrderedLoop
    rw [if_pos hi]
    simp only []
    by_cases hei : i = m
    · subst hei
      simp [hpass, pure, Except.pure]
    · rw [hno i (le_refl i) (by omega)]
      simp only [Bool.false_eq_true, if_false]
      exact ih hits (i + 1) (by omega) (by omega) (fun j h1 h2 => hno j (by omega) h2)

/-- C7: in ORDERED mode `evaluateReadOrdered`, called with an empty `hits`,
leaves `hits` empty when no filter passes and otherwise leaves the single
smallest passing index; in both cases at most one hit. -/
theorem evaluateReadOrdered_hits (evalRead : Nat → Bool) (size : Nat) :
    evaluateReadOrdered evalRead size []
        = Except.ok (if h : ∃ m, m < size ∧ evalRead m = true then [Nat.find h] else [])
      ∧ ∃ hits, evaluateReadOrdered evalRead size [] = Except.ok hits ∧ hits.length ≤ 1 := by
  have key : evaluateReadOrdered evalRead size []
      = Except.ok (if h : ∃ m, m < size ∧ evalRead m = true then [Nat.find h] else []) := by
    unfold evaluateReadOrdered
    by_cases h : ∃ m, m < size ∧ evalRead m = true
    · rw [dif_pos h]
      have hs := Nat.find_spec h
      have hmin : ∀ j, 0 ≤ j → j < Nat.find h → evalRead j = false := by
        intro j _ hj
        have hnot := Nat.find_min h hj
        have hjs : j < size := by omega
        cases hv : evalRead j
        · rfl
        · exact absurd ⟨hjs, hv⟩ hnot
      have := evaluateReadOrderedLoop_first evalRead size (Nat.find h) hs.1 hs.2 size [] 0
        (by omega) (Nat.zero_le _) hmin
      simpa using this
    · rw [dif_neg h]
      apply evaluateReadOrderedLoop_none evalRead size size [] 0 (by omega)
      intro j _ hj
      cases hv : evalRead j
      · rfl
      · exact absurd ⟨j, hj, hv⟩ h
  refine ⟨key, ?_⟩
  rw [key]
  refine ⟨_, rfl, ?_⟩
  split <;> simp

/-- C8 (failing input): with scores 1/10 for filter 0 and 1/2 for filter 1
the best filter is 1, yet `evaluateReadBestHit` leaves `hits = [0]`: its
second loop pushes the loop counter, not `bestFilters[i]`. -/
theorem evaluateReadBestHit_pushes_counter :
    evaluateReadBestHit (fun i => if i = 1 then 1 / 2 else 1 / 10) 2 [] []
        = Except.ok (1 / 2, [0], [1 / 2])
      ∧ (fun i => if i = 1 then (1 / 2 : ℚ) else 1 / 10) 0 < 1 / 2 := by
  constructor
  · norm_num [evaluateReadBestHit, bestHitScan, bestHitEmit, bind, Except.bind, pure,
      Except.pure]
  · norm_num

/-- C9 (failing input): with threshold 1/2 a single filter scoring 9/10 is
left out of `hits` and one scoring 1/10 is put in: `evaluateReadScore` tests
`m_scoreThreshold > score`. -/
theorem evaluateReadScore_inverted :
    evaluateReadScore (fun _ => 9 / 10) (1 / 2) 1 [] [] = Except.ok ([], [0])
      ∧ evaluateReadScore (fun _ => 1 / 10) (1 / 2) 1 [] [] = Except.ok ([0], [1 / 10]) := by
  constructor <;>
    norm_num [evaluateReadScore, evaluateReadScoreLoop, pure, Except.pure]

theorem evaluateReadScoreLoop_eq (evalSingleScore : Nat → ℚ) (thr : ℚ) (size : Nat) :
    ∀ (fuel : Nat) (hits : List Nat) (scores : List ℚ) (i : Nat), i + fuel = size →
      evaluateReadScoreLoop evalSingleScore thr size fuel hits scores i
        = Except.ok
            (hits ++ (List.range' i fuel).filter (fun j => decide (thr > evalSingleScore j)),
             scores ++ (List.range' i fuel).map
               (fun j => if thr > evalSingleScore j then evalSingleScore j else 0)) := by
  intro fuel
  induction fuel with
  | zero =>
    intro hits scores i h
    have hi : ¬ i < size := by omega
    simp [evaluateReadScoreLoop, hi, pure, Except.pure]
  | succ n ih =>
    intro hits scores i h
    have hi : i < size := by omega
    unfold evaluateReadScoreLoop
    rw [if_pos hi]
    simp only []
    by_cases hp : thr > evalSingleScore i
    · rw [if_pos hp, ih _ _ (i + 1) (by omega)]
      simp [List.range', List.filter, hp]
    · rw [if_neg hp, ih _ _ (i + 1) (by omega)]
      simp [List.range', List.filter, hp]

/-- C10 (counterexample): with threshold 1/2 and one filter scoring 9/10 the
value recorded for filter 0 is 0, not its score. -/
theorem evaluateReadScore_records_zero :
    ∃ hits scores, evaluateReadScore (fun _ => 9 / 10) (1 / 2) 1 [] [] = Except.ok (hits, scores)
      ∧ scores = [0] ∧ scores.getD 0 0 ≠ 9 / 10 := by
  refine ⟨[], [0], ?_, rfl, ?_⟩
  · norm_num [evaluateReadScore, evaluateReadScoreLoop, pure, Except.pure]
  · norm_num

/-- C10 (amended): `evaluateReadScore` appends one value per filter to
`scores`; the value for filter `i` is `score(i)` when `i` is put into `hits`
and 0 when it is not. -/
theorem evaluateReadScore_records (evalSingleScore : Nat → ℚ) (thr : ℚ) (size : Nat)
    (scores0 : List ℚ) :
    ∃ hits scores, evaluateReadScore evalSingleScore thr size [] scores0
        = Except.ok (hits, scores0 ++ scores)
      ∧ scores.length = size
      ∧ ∀ i, i < size →
          scores.getD i 0 = if i ∈ hits then evalSingleScore i else 0 := by
  refine ⟨(List.range' 0 size).filter (fun j => decide (thr > evalSingleScore j)),
    (List.range' 0 size).map (fun j => if thr > evalSingleScore j then evalSingleScore j else 0),
    ?_, ?_, ?_⟩
  · unfold evaluateReadScore
    rw [evaluateReadScoreLoop_eq evalSingleScore thr size size [] scores0 0 (by omega)]
    simp only [List.nil_append]
  · simp
  · intro i hi
    simp [List.getD_eq_getElem?_getD, hi, List.mem_filter, List.mem_range'_1]

/-! ## Theorems: paired ORDERED mode, construction, hit-set invariant -/

theorem evaluateReadOrderedPairLoop_none (inc : Bool) (p1 p2 : Nat → Bool) (size : Nat) :
    ∀ (fuel : Nat) (hits1 hits2 : List Nat) (i : Nat), i + fuel = size →
      (∀ j, i ≤ j → j < size → (if inc then p1 j || p2 j else p1 j && p2 j) = false) →
      evaluateReadOrderedPairLoop inc p1 p2 size fuel hits1 hits2 i
        = Except.ok (hits1, hits2) := by
  intro fuel
  induction fuel with
  | zero =>
    intro hits1 hits2 i h _
    have hi : i = size := by omega
    simp [evaluateReadOrderedPairLoop, hi, pure, Except.pure]
  | succ n ih =>
    intro hits1 hits2 i h hno
    have hi : i ≠ size := by omega
    have h0 := hno i (le_refl i) (by omega)
    unfold evaluateReadOrderedPairLoop
    rw [if_pos hi]
    simp only []
    cases inc
    · simp only [Bool.false_eq_true, if_false] at h0 ⊢
      rw [h0]
      simp only [Bool.false_eq_true, if_false]
      exact ih hits1 hits2 (i + 1) (by omega) (fun j h1 h2 => hno j (by omega) h2)
    · simp only [if_true] at h0 ⊢
      rw [h0]
      simp only [Bool.false_eq_true, if_false]
      exact ih hits1 hits2 (i + 1) (by omega) (fun j h1 h2 => hno j (by omega) h2)

theorem evaluateReadOrderedPairLoop_first (inc : Bool) (p1 p2 : Nat → Bool) (size m : Nat)
    (hm : m < size) (hpass : (if inc then p1 m || p2 m else p1 m && p2 m) = true) :
    ∀ (fuel : Nat) (hits1 hits2 : List Nat) (i : Nat), i + fuel = size → i ≤ m →
      (∀ j, i ≤ j → j < m → (if inc then p1 j || p2 j else p1 j && p2 j) = false) →
      evaluateReadOrderedPairLoop inc p1 p2 size fuel hits1 hits2 i
        = Except.ok (hits1 ++ [m], hits2 ++ [m]) := by
  intro fuel
  induction fuel with
  | zero => intro hits1 hits2 i h him _; omega
  | succ n ih =>
    intro hits1 hits2 i h him hno
    have hi : i ≠ size := by omega
    unfold evaluateReadOrderedPairLoop
    rw [if_pos hi]
    simp only []
    by_cases hei : i = m
    · subst hei
      cases inc
      · simp only [Bool.false_eq_true, if_false] at hpass ⊢
        rw [hpass]
        simp [pure, Except.pure]
      · simp only [if_true] at hpass ⊢
        rw [hpass]
        simp [pure, Except.pure]
    · have h0 := hno i (le_refl i) (by omega)
      cases inc
      · simp only [Bool.false_eq_true, if_false] at h0 ⊢
        rw [h0]
        simp only [Bool.false_eq_true, if_false]
        exact ih hits1 hits2 (i + 1) (by omega) (by omega) (fun j h1 h2 => hno j (by omega) h2)
      · simp only [if_true] at h0 ⊢
        rw [h0]
        simp only [Bool.false_eq_true, if_false]
        exact ih hits1 hits2 (i + 1) (by omega) (by omega) (fun j h1 h2 => hno j (by omega) h2)

/-- The constructor completes exactly when `loadFilters` does, and then
yields these members. -/
theorem new_eq (fs : FileSystem) (paths : List (List Byte)) (thr : ℚ)
    (pre post : List Byte) (withScore : Bool) :
    BioBloomClassifier.new fs paths thr pre post withScore
      = (loadFilters fs paths).map (fun loaded =>
          { m_scoreThreshold := thr
            m_filterNum := paths.length
            m_prefix := pre
            m_postfix := post
            m_mode := if thr = 1 then Mode.BESTHIT
              else if withScore then Mode.SCORES else Mode.STD
            m_stdout := false
            m_inclusive := false
            m_multiMatchIndex := paths.length + 1
            loaded := loaded }) := by
  unfold BioBloomClassifier.new
  cases loadFilters fs paths with
  | error e => rfl
  | ok l => simp only [bind, Except.bind, Except.map, pure, Except.pure]

/-- C11: in `evaluateReadOrderedPair` filter `i` is a hit for the pair iff
both mates pass when `m_inclusive` is false and iff either mate passes when
it is true; called with empty `hits1` and `hits2` it leaves both equal to the
single least hit index, or both empty when there is none; and every
classifier the constructor yields has `m_inclusive = false`. -/
theorem evaluateReadOrderedPair_hits (m_inclusive : Bool) (evalRead1 evalRead2 : Nat → Bool)
    (size : Nat) (fs : FileSystem) (paths : List (List Byte)) (thr : ℚ)
    (pre post : List Byte) (withScore : Bool) :
    evaluateReadOrderedPair m_inclusive evalRead1 evalRead2 size [] []
        = Except.ok
          (if h : ∃ m, m < size ∧ (if m_inclusive then evalRead1 m || evalRead2 m
                else evalRead1 m && evalRead2 m) = true
            then ([Nat.find h], [Nat.find h]) else ([], []))
      ∧ (BioBloomClassifier.new fs paths thr pre post withScore).map (fun c => c.m_inclusive)
          = (loadFilters fs paths).map (fun _ => false) := by
  constructor
  · unfold evaluateReadOrderedPair
    by_cases h : ∃ m, m < size ∧ (if m_inclusive then evalRead1 m || evalRead2 m
        else evalRead1 m && evalRead2 m) = true
    · rw [dif_pos h]
      have hs := Nat.find_spec h
      have hmin : ∀ j, 0 ≤ j → j < Nat.find h →
          (if m_inclusive then evalRead1 j || evalRead2 j
            else evalRead1 j && evalRead2 j) = false := by
        intro j _ hj
        have hnot := Nat.find_min h hj
        have hjs : j < size := by omega
        cases hv : (if m_inclusive then evalRead1 j || evalRead2 j
            else evalRead1 j && evalRead2 j)
        · rfl
        · exact absurd ⟨hjs, hv⟩ hnot
      have := evaluateReadOrderedPairLoop_first m_inclusive evalRead1 evalRead2 size
        (Nat.find h) hs.1 hs.2 size [] [] 0 (by omega) (Nat.zero_le _) hmin
      simpa using this
    · rw [dif_neg h]
      apply evaluateReadOrderedPairLoop_none m_inclusive evalRead1 evalRead2 size size [] [] 0
        (by omega)
      intro j _ hj
      cases hv : (if m_inclusive then evalRead1 j || evalRead2 j
          else evalRead1 j && evalRead2 j)
      · rfl
      · exact absurd ⟨j, hj, hv⟩ h
  · rw [new_eq]
    cases loadFilters fs paths <;> rfl

/-- C12: the constructor sets `m_mode` to BESTHIT if and only if
`scoreThreshold == 1` (also when `withScore` is true), and otherwise to
SCORES when `withScore` is true and to STD when it is false; it yields a
classifier whenever `loadFilters` completes. -/
theorem new_mode (fs : FileSystem) (paths : List (List Byte)) (thr : ℚ)
    (pre post : List Byte) (withScore : Bool) :
    (BioBloomClassifier.new fs paths thr pre post withScore).map (fun c => c.m_mode)
        = (loadFilters fs paths).map (fun _ =>
            if thr = 1 then Mode.BESTHIT else if withScore then Mode.SCORES else Mode.STD)
      ∧ ((if thr = 1 then Mode.BESTHIT else if withScore then Mode.SCORES else Mode.STD)
          = Mode.BESTHIT ↔ thr = 1) := by
  constructor
  · rw [new_eq]
    cases loadFilters fs paths <;> rfl
  · by_cases h : thr = 1
    · simp [h]
    · cases withScore <;> simp [h]

theorem bestHitScan_length (evalSingleScore : Nat → ℚ) (size : Nat) :
    ∀ (fuel : Nat) (bestFilters : List Nat) (maxScore : ℚ) (i : Nat), i + fuel = size →
      bestFilters.length ≤ i →
      ∃ best m, bestHitScan evalSingleScore size fuel bestFilters maxScore i
          = Except.ok (best, m) ∧ best.length ≤ size := by
  intro fuel
  induction fuel with
  | zero =>
    intro bestFilters maxScore i h hl
    have hi : i = size := by omega
    refine ⟨bestFilters, maxScore, ?_, by omega⟩
    simp [bestHitScan, hi, pure, Except.pure]
  | succ n ih =>
    intro bestFilters maxScore i h hl
    have hi : i ≠ size := by omega
    unfold bestHitScan
    rw [if_pos hi]
    simp only []
    split
    · exact ih [i] _ (i + 1) (by omega) (by simp)
    · split
      · exact ih (bestFilters ++ [i]) _ (i + 1) (by omega) (by simp; omega)
      · exact ih bestFilters _ (i + 1) (by omega) (by omega)

theorem bestHitEmit_eq (bestFilters : List Nat) (maxScore : ℚ) :
    ∀ (fuel : Nat) (hits : List Nat) (scores : List ℚ) (i : Nat),
      i + fuel = bestFilters.length →
      bestHitEmit bestFilters maxScore fuel hits scores i
        = Except.ok (hits ++ List.range' i fuel, scores ++ List.replicate fuel maxScore) := by
  intro fuel
  induction fuel with
  | zero =>
    intro hits scores i h
    have hi : ¬ i < bestFilters.length := by omega
    simp [bestHitEmit, hi, pure, Except.pure]
  | succ n ih =>
    intro hits scores i h
    have hi : i < bestFilters.length := by omega
    unfold bestHitEmit
    rw [if_pos hi]
    simp only []
    rw [ih _ _ (i + 1) (by omega)]
    simp [List.range', List.replicate]

theorem evaluateReadOrdered_eq (evalRead : Nat → Bool) (size : Nat) :
    evaluateReadOrdered evalRead size []
      = Except.ok (if h : ∃ m, m < size ∧ evalRead m = true then [Nat.find h] else []) := by
  unfold evaluateReadOrdered
  by_cases h : ∃ m, m < size ∧ evalRead m = true
  · rw [dif_pos h]
    have hs := Nat.find_spec h
    have hmin : ∀ j, 0 ≤ j → j < Nat.find h → evalRead j = false := by
      intro j _ hj
      have hnot := Nat.find_min h hj
      have hjs : j < size := by omega
      cases hv : evalRead j
      · rfl
      · exact absurd ⟨hjs, hv⟩ hnot
    have := evaluateReadOrderedLoop_first evalRead size (Nat.find h) hs.1 hs.2 size [] 0
      (by omega) (Nat.zero_le _) hmin
    simpa using this
  · rw [dif_neg h]
    apply evaluateReadOrderedLoop_none evalRead size size [] 0 (by omega)
    intro j _ hj
    cases hv : evalRead j
    · rfl
    · exact absurd ⟨j, hj, hv⟩ h

theorem filter_range_sorted (p : Nat → Bool) (n : Nat) :
    ((List.range n).filter p).Pairwise (fun a b => a < b)
      ∧ ∀ h, h ∈ (List.range n).filter p → h < n := by
  constructor
  · exact List.Pairwise.filter p (List.pairwise_lt_range n)
  · intro h hh
    rw [List.mem_filter, List.mem_range] at hh
    exact hh.1

/-- C13: called with an empty `hits`, each of `evaluateReadStd`,
`evaluateReadOrdered`, `evaluateReadBestHit` and `evaluateReadScore` leaves a
strictly increasing `hits` all of whose elements are below the number `N` of
loaded filters. -/
theorem hits_sorted_below (evalRead : Nat → Bool) (evalSingleScore : Nat → ℚ)
    (m_scoreThreshold : ℚ) (size : Nat) (scores0 : List ℚ) :
    (∃ hits, evaluateReadStd evalRead size [] = Except.ok hits
        ∧ hits.Pairwise (fun a b => a < b) ∧ ∀ h, h ∈ hits → h < size)
      ∧ (∃ hits, evaluateReadOrdered evalRead size [] = Except.ok hits
        ∧ hits.Pairwise (fun a b => a < b) ∧ ∀ h, h ∈ hits → h < size)
      ∧ (∃ maxScore hits scores,
          evaluateReadBestHit evalSingleScore size [] scores0
            = Except.ok (maxScore, hits, scores)
        ∧ hits.Pairwise (fun a b => a < b) ∧ ∀ h, h ∈ hits → h < size)
      ∧ (∃ hits scores,
          evaluateReadScore evalSingleScore m_scoreThreshold size [] scores0
            = Except.ok (hits, scores)
        ∧ hits.Pairwise (fun a b => a < b) ∧ ∀ h, h ∈ hits → h < size) := by
  refine ⟨?_, ?_, ?_, ?_⟩
  · refine ⟨(List.range size).filter evalRead, ?_, filter_range_sorted _ _⟩
    unfold evaluateReadStd
    rw [evaluateReadStdLoop_eq evalRead size size [] 0 (by omega)]
    simp [List.range_eq_range']
  · refine ⟨_, evaluateReadOrdered_eq evalRead size, ?_, ?_⟩
    · split <;> simp
    · intro h hh
      split at hh
      · rename_i hex
        simp only [List.mem_singleton] at hh
        rw [hh]
        exact (Nat.find_spec hex).1
      · simp at hh
  · obtain ⟨best, m, hscan, hlen⟩ := bestHitScan_length evalSingleScore size size [] 0 0
      (by omega) (by simp)
    unfold evaluateReadBestHit
    rw [hscan]
    simp only [bind, Except.bind]
    by_cases hm : m > 0
    · rw [if_pos hm, bestHitEmit_eq best m best.length [] scores0 0 (by omega)]
      refine ⟨m, List.range' 0 best.length, _, rfl, ?_, ?_⟩
      · rw [← List.range_eq_range']
        exact List.pairwise_lt_range _
      · intro h hh
        rw [List.mem_range'_1] at hh
        omega
    · rw [if_neg hm]
      exact ⟨m, [], scores0, rfl, List.Pairwise.nil, by simp⟩
  · unfold evaluateReadScore
    rw [evaluateReadScoreLoop_eq evalSingleScore m_scoreThreshold size size [] scores0 0
      (by omega)]
    refine ⟨_, _, rfl, ?_, ?_⟩
    · rw [List.nil_append, ← List.range_eq_range']
      exact (filter_range_sorted _ _).1
    · intro h hh
      rw [List.nil_append, ← List.range_eq_range'] at hh
      exact (filter_range_sorted _ _).2 h hh

/-! ## Theorems: tables, geometry, last byte -/

set_option maxRecDepth 100000 in
theorem tables_length :
    fw0.length = 256 ∧ fw1.length = 256 ∧ fw2.length = 256 ∧ fw3.length = 256
      ∧ rv0.length = 256 ∧ rv1.length = 256 ∧ rv2.length = 256 ∧ rv3.length = 256 := by
  decide

/-- C14: for every slot `i` and every byte `c`, `fw_i[c]` is
`code(c) << (6 - 2i)` and `rv_i[c]` is `(3 - code(c)) << (6 - 2i)` when `c` is
one of `A C G T a c g t`, both are `0xFF` for every other byte, and
`rv_i[c] = fw_i[complement(c)]`; each table has 256 entries. -/
theorem tables_spec (i : Fin 4) (c : Byte) :
    lookup (fwTable i) c = (if isACGT c then baseCode c <<< (6 - 2 * i.val) else 0xFF)
      ∧ lookup (rvTable i) c
          = (if isACGT c then (3 - baseCode c) <<< (6 - 2 * i.val) else 0xFF)
      ∧ lookup (rvTable i) c = lookup (fwTable i) (complement c)
      ∧ (fwTable i).length = 256 ∧ (rvTable i).length = 256 := by
  have hl := tables_length
  have hc := isACGT_complement c
  have hb := baseCode_complement c
  have e6 : ∀ n : Nat, n <<< 6 = 64 * n := fun n => by rw [Nat.shiftLeft_eq]; omega
  have e4 : ∀ n : Nat, n <<< 4 = 16 * n := fun n => by rw [Nat.shiftLeft_eq]; omega
  have e2 : ∀ n : Nat, n <<< 2 = 4 * n := fun n => by rw [Nat.shiftLeft_eq]; omega
  have e0 : ∀ n : Nat, n <<< 0 = n := fun n => by rw [Nat.shiftLeft_eq]; omega
  have key : ∀ (m : Nat) (f r : List Nat),
      (∀ c : Byte, lookup f c = if isACGT c then m * baseCode c else 255) →
      (∀ c : Byte, lookup r c = if isACGT c then m * (3 - baseCode c) else 255) →
      lookup r c = lookup f (complement c) := by
    intro m f r hf hr
    rw [hf, hr, hc]
    by_cases hv : isACGT c = true
    · rw [if_pos hv, if_pos hv, hb hv]
    · rw [if_neg hv, if_neg hv]
  have hi : i = 0 ∨ i = 1 ∨ i = 2 ∨ i = 3 := by
    rcases i with ⟨v, hv⟩
    have : v = 0 ∨ v = 1 ∨ v = 2 ∨ v = 3 := by omega
    rcases this with h | h | h | h <;> subst h <;> simp
  rcases hi with h | h | h | h <;> subst h
  · refine ⟨?_, ?_, ?_, hl.1, hl.2.2.2.2.1⟩
    · show lookup fw0 c = (if isACGT c then baseCode c <<< 6 else 255)
      rw [lookup_fw0, e6]
    · show lookup rv0 c = (if isACGT c then (3 - baseCode c) <<< 6 else 255)
      rw [lookup_rv0, e6]
    · exact key 64 fw0 rv0 lookup_fw0 lookup_rv0
  · refine ⟨?_, ?_, ?_, hl.2.1, hl.2.2.2.2.2.1⟩
    · show lookup fw1 c = (if isACGT c then baseCode c <<< 4 else 255)
      rw [lookup_fw1, e4]
    · show lookup rv1 c = (if isACGT c then (3 - baseCode c) <<< 4 else 255)
      rw [lookup_rv1, e4]
    · exact key 16 fw1 rv1 lookup_fw1 lookup_rv1
  · refine ⟨?_, ?_, ?_, hl.2.2.1, hl.2.2.2.2.2.2.1⟩
    · show lookup fw2 c = (if isACGT c then baseCode c <<< 2 else 255)
      rw [lookup_fw2, e2]
    · show lookup rv2 c = (if isACGT c then (3 - baseCode c) <<< 2 else 255)
      rw [lookup_rv2, e2]
    · exact key 4 fw2 rv2 lookup_fw2 lookup_rv2
  · refine ⟨?_, ?_, ?_, hl.2.2.2.1, hl.2.2.2.2.2.2.2⟩
    · show lookup fw3 c = (if isACGT c then baseCode c <<< 0 else 255)
      rw [lookup_fw3, e0]
    · show lookup rv3 c = (if isACGT c then (3 - baseCode c) <<< 0 else 255)
      rw [lookup_rv3, e0]
    · exact key 1 fw3 rv3
        (fun c => by rw [lookup_fw3, Nat.one_mul])
        (fun c => by rw [lookup_rv3, Nat.one_mul])

/-- C15: the constructor sets `kmerSizeInBytes = ceil(k/4)`, which is the
length of `fw` and of `rv`, `halfSizeOfKmerInBytes = ceil(k/8)`,
`hangingBases = k mod 4`, and `hangingBasesExist` to 1 if `k mod 4 != 0` and
to 0 otherwise. -/
theorem new_buffer_geometry (k : Nat) (fwMem rvMem : Nat → Nat) :
    (ReadsProcessor.new k fwMem rvMem).kmerSize = k
      ∧ (ReadsProcessor.new k fwMem rvMem).kmerSizeInBytes = (k + 3) / 4
      ∧ (ReadsProcessor.new k fwMem rvMem).fw.length = (k + 3) / 4
      ∧ (ReadsProcessor.new k fwMem rvMem).rv.length = (k + 3) / 4
      ∧ (ReadsProcessor.new k fwMem rvMem).halfSizeOfKmerInBytes = (k + 7) / 8
      ∧ (ReadsProcessor.new k fwMem rvMem).hangingBases = k % 4
      ∧ ((ReadsProcessor.new k fwMem rvMem).hangingBasesExist = 1 ↔ k % 4 ≠ 0)
      ∧ ((ReadsProcessor.new k fwMem rvMem).hangingBasesExist = 0 ↔ k % 4 = 0)
      ∧ (k ≤ 4 * ((k + 3) / 4) ∧ 4 * ((k + 3) / 4) < k + 4)
      ∧ (k ≤ 8 * ((k + 7) / 8) ∧ 8 * ((k + 7) / 8) < k + 8) := by
  obtain ⟨h1, h2, h3, h4, h5, h6, h7⟩ := new_geometry k fwMem rvMem
  refine ⟨h1, h2, h6, h7, h3, h4, ?_, ?_, by omega, by omega⟩
  · rw [h5]; split <;> omega
  · rw [h5]; split <;> omega

/-- C16 (counterexample): for `k = 5` and the window `AAAAT` the returned
buffer is `[0x00, 0xC0]`: the one remaining base `T` sits in bits 7-6 of the
last byte, whose value 192 is not below `4^1` and has bits 0-1 clear. -/
theorem prepSeq_last_byte_left :
    prepSeq (ReadsProcessor.new 5 (fun _ => 0) (fun _ => 0)) [65, 65, 65, 65, 84] 0
        = Except.ok (some [0, 192])
      ∧ ¬ (([0, 192] : List Nat).getD (5 / 4) 0 < 4 ^ (5 % 4))
      ∧ ([0, 192] : List Nat).getD (5 / 4) 0 % 4 ≠ baseCode 84
      ∧ ([0, 192] : List Nat).getD (5 / 4) 0 / 64 = baseCode 84 := by
  decide

/-- The last byte of the packing of a k-mer whose length is not a multiple of
four: the remaining bases fill the byte from the top, the rest is zero. -/
theorem pack_last_byte (s : List Byte) (h4 : s.length % 4 ≠ 0) :
    (pack s).getD (s.length / 4) 0
        = 64 * digit s (4 * (s.length / 4)) + 16 * digit s (4 * (s.length / 4) + 1)
          + 4 * digit s (4 * (s.length / 4) + 2)
      ∧ (∀ j, s.length % 4 ≤ j → digit s (4 * (s.length / 4) + j) = 0)
      ∧ (pack s).getD (s.length / 4) 0 % 4 ^ (4 - s.length % 4) = 0
      ∧ (pack s).getD (s.length / 4) 0 / 64 = baseCode (s.getD (4 * (s.length / 4)) 0) := by
  have hz : ∀ j, s.length % 4 ≤ j → digit s (4 * (s.length / 4) + j) = 0 :=
    fun j hj => digit_zero s _ (by omega)
  have hv : (pack s).getD (s.length / 4) 0
      = 64 * digit s (4 * (s.length / 4)) + 16 * digit s (4 * (s.length / 4) + 1)
        + 4 * digit s (4 * (s.length / 4) + 2) := by
    rw [pack_getD s _ (by omega), packByte_eq, hz 3 (by omega)]
    omega
  refine ⟨hv, hz, ?_, ?_⟩
  · rw [hv]
    have hm : s.length % 4 = 1 ∨ s.length % 4 = 2 ∨ s.length % 4 = 3 := by omega
    rcases hm with hm | hm | hm
    · rw [hm, hz 1 (by omega), hz 2 (by omega)]
      omega
    · rw [hm, hz 2 (by omega)]
      omega
    · rw [hm]
      omega
  · rw [hv, ← digit_eq s _ (by omega)]
    have a0 := digit_lt s (4 * (s.length / 4))
    have a1 := digit_lt s (4 * (s.length / 4) + 1)
    have a2 := digit_lt s (4 * (s.length / 4) + 2)
    omega

/-- C16 (amended): for `k > 3` with `k mod 4 != 0` and an all-ACGT window
that is not its own reverse complement, `prepSeq` returns the packing of the
chosen strand, whose last byte holds the remaining `k mod 4` bases
left-justified with the low bits zero: the first remaining base occupies bits
7-6 and the value is a multiple of `4^(4 - k mod 4)`. -/
theorem prepSeq_last_byte (k : Nat) (fwMem rvMem : Nat → Nat) (sequence : List Byte)
    (pos : Nat) (hk : 3 < k) (hlen : pos + k ≤ sequence.length)
    (hvalid : ∀ c, c ∈ window sequence pos k → isACGT c = true) (h4 : k % 4 ≠ 0)
    (hne : pack (window sequence pos k) ≠ pack (reverseComplement (window sequence pos k))) :
    ∃ buf s, prepSeq (ReadsProcessor.new k fwMem rvMem) sequence pos = Except.ok (some buf)
      ∧ (s = window sequence pos k ∨ s = reverseComplement (window sequence pos k))
      ∧ buf = pack s ∧ buf.length = k / 4 + 1
      ∧ buf.getD (k / 4) 0
          = 64 * digit s (4 * (k / 4)) + 16 * digit s (4 * (k / 4) + 1)
            + 4 * digit s (4 * (k / 4) + 2)
      ∧ (∀ j, k % 4 ≤ j → digit s (4 * (k / 4) + j) = 0)
      ∧ buf.getD (k / 4) 0 % 4 ^ (4 - k % 4) = 0
      ∧ buf.getD (k / 4) 0 / 64 = baseCode (s.getD (4 * (k / 4)) 0) := by
  have hwl : (window sequence pos k).length = k := window_length _ _ _ hlen
  have hrl : (reverseComplement (window sequence pos k)).length = k := by
    rw [reverseComplement_length, hwl]
  have hrun := ((prepSeq_valid_window k fwMem rvMem sequence pos hk hlen hvalid).1 hne).1
  have hcases : canonical (window sequence pos k) = pack (window sequence pos k)
      ∨ canonical (window sequence pos k)
        = pack (reverseComplement (window sequence pos k)) := by
    unfold canonical lexMin
    split
    · right; rfl
    · left; rfl
  rcases hcases with hc | hc
  · have hp := pack_last_byte (window sequence pos k) (by rw [hwl]; exact h4)
    rw [hwl] at hp
    exact ⟨_, window sequence pos k, hrun, Or.inl rfl, hc,
      by rw [hc, pack_length, hwl]; omega, by rw [hc]; exact hp.1, hp.2.1,
      by rw [hc]; exact hp.2.2.1, by rw [hc]; exact hp.2.2.2⟩
  · have hp := pack_last_byte (reverseComplement (window sequence pos k))
      (by rw [hrl]; exact h4)
    rw [hrl] at hp
    exact ⟨_, reverseComplement (window sequence pos k), hrun, Or.inr rfl, hc,
      by rw [hc, pack_length, hrl]; omega, by rw [hc]; exact hp.1, hp.2.1,
      by rw [hc]; exact hp.2.2.1, by rw [hc]; exact hp.2.2.2⟩

set_option maxRecDepth 100000 in
/-- C16 (witness): `k = 5`, window `TTGTA` at position 2 of `xxTTGTAyy`. -/
theorem prepSeq_last_byte_witness :
    3 < 5 ∧ 2 + 5 ≤ ([120, 120, 84, 84, 71, 84, 65, 121, 121] : List Byte).length
      ∧ 5 % 4 ≠ 0
      ∧ ∃ buf s, prepSeq (ReadsProcessor.new 5 (fun _ => 7) (fun _ => 9))
            [120, 120, 84, 84, 71, 84, 65, 121, 121] 2 = Except.ok (some buf)
          ∧ buf = pack s ∧ buf.getD (5 / 4) 0 % 4 ^ (4 - 5 % 4) = 0 := by
  obtain ⟨buf, s, h1, _, h3, _, _, _, h7, _⟩ := prepSeq_last_byte 5 (fun _ => 7) (fun _ => 9)
    [120, 120, 84, 84, 71, 84, 65, 121, 121] 2 (by decide) (by decide) (by decide)
    (by decide) (by decide)
  exact ⟨by decide, by decide, by decide, buf, s, h1, h3, h7⟩

/-! ## Theorems: interleaved pairs in one file, filter loading -/

/-- C17 (failing input): for the headers `r7/1`, `r7/2` and `r8/1` the key
computed by `string(rec.header, rec.header.length() - 2)` is the last two
characters, `/1`, `/2` and `/1`: the two mates of `r7` get different keys and
`r7/1`, `r8/1` share one. -/
theorem readID_last_two :
    readID (ascii "r7/1") = some (ascii "/1") ∧ readID (ascii "r7/2") = some (ascii "/2")
      ∧ readID (ascii "r8/1") = some (ascii "/1")
      ∧ readID (ascii "r7/1") ≠ some (ascii "r7")
      ∧ readID (ascii "r7/1") ≠ readID (ascii "r7/2")
      ∧ readID (ascii "r7/1") = readID (ascii "r8/1") := by
  decide

/-- C18 (failing input): the stream `r7/1`, `r7/2` is one complete pair, yet
with `pairFound` reading as false where it is unset no pair is evaluated and
`totalReads` stays 0; and whatever the unset `pairFound` reads as, the calls
made are never the single call with `r7/1` as mate 1 and `r7/2` as mate 2. -/
theorem filterPair_no_pair :
    filterPair (fun _ => false)
        [{ header := ascii "r7/1", seq := ascii "ACGT", qual := [] },
         { header := ascii "r7/2", seq := ascii "TTTT", qual := [] }]
      = some
        { unPairedReads :=
            [(ascii "/1", { header := ascii "r7/1", seq := ascii "ACGT", qual := [] }),
             (ascii "/2", { header := ascii "r7/2", seq := ascii "TTTT", qual := [] })]
          totalReads := 0
          calls := [] }
      ∧ ∀ a b : Bool,
          (filterPair (fun n => if n = 0 then a else b)
            [{ header := ascii "r7/1", seq := ascii "ACGT", qual := [] },
             { header := ascii "r7/2", seq := ascii "TTTT", qual := [] }]).map
              (fun st => st.calls)
          ≠ some [({ header := ascii "r7/1", seq := ascii "ACGT", qual := [] },
                   { header := ascii "r7/2", seq := ascii "TTTT", qual := [] })] := by
  decide

/-- C19 (counterexample): after the complete pair `r7/1`, `r7/2` the holding
table is not empty, whatever the unset `pairFound` reads as. -/
theorem filterPair_table_kept :
    (filterPair (fun _ => false)
        [{ header := ascii "r7/1", seq := ascii "ACGT", qual := [] },
         { header := ascii "r7/2", seq := ascii "TTTT", qual := [] }]).map
          (fun st => st.unPairedReads.length) = some 2
      ∧ ∀ a b : Bool,
          (filterPair (fun n => if n = 0 then a else b)
            [{ header := ascii "r7/1", seq := ascii "ACGT", qual := [] },
             { header := ascii "r7/2", seq := ascii "TTTT", qual := [] }]).map
              (fun st => st.unPairedReads) ≠ some [] := by
  decide

theorem mapFind_append (t : List (List Byte × FaRec)) (k : List Byte) (r : FaRec)
    (key : List Byte) :
    mapFind (t ++ [(k, r)]) key
      = if (mapFind t key).isSome then mapFind t key
        else if k = key then some r else none := by
  induction t with
  | nil => simp [mapFind]
  | cons hd tl ih =>
    obtain ⟨k0, r0⟩ := hd
    simp only [List.cons_append, mapFind]
    by_cases h : k0 = key
    · simp [h]
    · simp only [h, if_false]
      exact ih

theorem filterPairStep_table (uninit : Bool) (st : PairState) (rec : FaRec) (k : List Byte)
    (hk : readID rec.header = some k) :
    ∃ st1, filterPairStep uninit st rec = some st1
      ∧ st1.unPairedReads
          = if (mapFind st.unPairedReads k).isSome = true then st.unPairedReads
            else st.unPairedReads ++ [(k, rec)] := by
  unfold filterPairStep
  rw [hk]
  simp only []
  cases hf : (mapFind st.unPairedReads k).isSome <;> cases uninit <;> simp

theorem mapFind_step (t : List (List Byte × FaRec)) (rec : FaRec) (k key : List Byte) :
    mapFind (if (mapFind t k).isSome = true then t else t ++ [(k, rec)]) key
      = if (mapFind t key).isSome then mapFind t key
        else if k = key then some rec else none := by
  by_cases hf : (mapFind t k).isSome = true
  · rw [if_pos hf]
    by_cases hs : (mapFind t key).isSome = true
    · rw [if_pos hs]
    · rw [if_neg hs]
      by_cases hkk : k = key
      · subst hkk; exact absurd hf hs
      · rw [if_neg hkk]
        cases hm : mapFind t key
        · rfl
        · rw [hm] at hs; simp at hs
  · rw [if_neg hf]
    exact mapFind_append _ _ _ _

theorem filterPairLoop_table (uninit : Nat → Bool) :
    ∀ (records : List FaRec) (n : Nat) (st : PairState),
      (∀ r, r ∈ records → 2 ≤ r.header.length) →
      ∃ st1, filterPairLoop uninit records n st = some st1
        ∧ st.unPairedReads.length ≤ st1.unPairedReads.length
        ∧ ∀ key, mapFind st1.unPairedReads key
            = if (mapFind st.unPairedReads key).isSome then mapFind st.unPairedReads key
              else records.find? (fun r => decide (readID r.header = some key)) := by
  intro records
  induction records with
  | nil =>
    intro n st _
    refine ⟨st, rfl, le_refl _, ?_⟩
    intro key
    cases h : mapFind st.unPairedReads key <;> simp
  | cons rec rest ih =>
    intro n st hlen
    have h2 : 2 ≤ rec.header.length := hlen rec (List.mem_cons_self _ _)
    have hk : readID rec.header = some (rec.header.drop (rec.header.length - 2)) := by
      unfold readID
      rw [if_neg (by omega)]
    obtain ⟨st1, hstep, hst1⟩ := filterPairStep_table (uninit n) st rec _ hk
    have htab : ∀ key, mapFind st1.unPairedReads key
        = if (mapFind st.unPairedReads key).isSome then mapFind st.unPairedReads key
          else if rec.header.drop (rec.header.length - 2) = key then some rec else none := by
      intro key
      rw [hst1]
      exact mapFind_step _ _ _ _
    have hgrow : st.unPairedReads.length ≤ st1.unPairedReads.length := by
      rw [hst1]
      split <;> simp
    obtain ⟨st2, hrun, hlen2, htab2⟩ := ih (n + 1) st1
      (fun r hr => hlen r (List.mem_cons_of_mem _ hr))
    refine ⟨st2, ?_, by omega, ?_⟩
    · show (match filterPairStep (uninit n) st rec with
        | none => none
        | some st => filterPairLoop uninit rest (n + 1) st) = some st2
      rw [hstep]
      exact hrun
    · intro key
      rw [htab2 key, htab key, List.find?_cons]
      by_cases hs : (mapFind st.unPairedReads key).isSome = true
      · simp [hs]
      · simp only [hs, Bool.false_eq_true, if_false, hk]
        by_cases hkk : rec.header.drop (rec.header.length - 2) = key
        · simp [hkk]
        · simp [hkk]

theorem filterPairStep_found (uninit : Bool) (st : PairState) (rec stored : FaRec)
    (key : List Byte) (hk : readID rec.header = some key)
    (hf : mapFind st.unPairedReads key = some stored) :
    filterPairStep uninit st rec
      = some
        { unPairedReads := st.unPairedReads
          totalReads := st.totalReads + 1
          calls := st.calls ++
            [if rec.header.getD (rec.header.length - 1) 0 = 49 then (rec, stored)
              else (stored, rec)] } := by
  unfold filterPairStep
  rw [hk]
  simp only [hf, Option.isSome_some, if_true, Option.getD_some]
  by_cases h1 : rec.header.getD (rec.header.length - 1) 0 = 49
  · simp only [h1, decide_True, if_true, ite_true]
  · simp only [h1, decide_False, if_false, ite_false, Bool.false_eq_true]

/-- C19 (amended): in the interleaved pipelines, run single-threaded, when a
record arrives whose key is already in `unPairedReads` the pair is evaluated
and the table is left as it is (the entry is not removed), and a record whose
key is absent is stored under it; so after any stream of records with headers
of length at least 2 the table holds, for every key, the first record that
arrived with that key, and it is empty only when the stream is. -/
theorem filterPair_table (uninit : Nat → Bool) (records : List FaRec)
    (hlen : ∀ r, r ∈ records → 2 ≤ r.header.length) :
    (∃ st, filterPair uninit records = some st
        ∧ (∀ key, mapFind st.unPairedReads key
            = records.find? (fun r => decide (readID r.header = some key)))
        ∧ (records ≠ [] → st.unPairedReads ≠ []))
      ∧ ∀ (u : Bool) (st : PairState) (rec stored : FaRec) (key : List Byte),
          readID rec.header = some key → mapFind st.unPairedReads key = some stored →
          filterPairStep u st rec
            = some
              { unPairedReads := st.unPairedReads
                totalReads := st.totalReads + 1
                calls := st.calls ++
                  [if rec.header.getD (rec.header.length - 1) 0 = 49 then (rec, stored)
                    else (stored, rec)] } := by
  refine ⟨?_, fun u st rec stored key hk hf => filterPairStep_found u st rec stored key hk hf⟩
  obtain ⟨st, hrun, _, htab⟩ := filterPairLoop_table uninit records 0
    { unPairedReads := [], totalReads := 0, calls := [] } hlen
  refine ⟨st, hrun, ?_, ?_⟩
  · intro key
    rw [htab key]
    simp [mapFind]
  · intro hne hempty
    cases records with
    | nil => exact hne rfl
    | cons rec rest =>
      have h2 : 2 ≤ rec.header.length := hlen rec (List.mem_cons_self _ _)
      have hk : readID rec.header = some (rec.header.drop (rec.header.length - 2)) := by
        unfold readID
        rw [if_neg (by omega)]
      have := htab (rec.header.drop (rec.header.length - 2))
      rw [hempty] at this
      simp [mapFind, List.find?_cons, hk] at this

set_option maxRecDepth 100000 in
/-- C19 (witness): the stream `r7/1`, `r7/2`, `r8/1`; the table ends with the
keys `/1` and `/2`, holding `r7/1` and `r7/2`. -/
theorem filterPair_table_witness :
    (∀ r, r ∈ [({ header := ascii "r7/1", seq := [], qual := [] } : FaRec),
          { header := ascii "r7/2", seq := [], qual := [] },
          { header := ascii "r8/1", seq := [], qual := [] }] → 2 ≤ r.header.length)
      ∧ ∃ st, filterPair (fun _ => false)
            [{ header := ascii "r7/1", seq := [], qual := [] },
             { header := ascii "r7/2", seq := [], qual := [] },
             { header := ascii "r8/1", seq := [], qual := [] }] = some st
          ∧ mapFind st.unPairedReads (ascii "/1")
            = some { header := ascii "r7/1", seq := [], qual := [] } := by
  have hl : ∀ r, r ∈ [({ header := ascii "r7/1", seq := [], qual := [] } : FaRec),
      { header := ascii "r7/2", seq := [], qual := [] },
      { header := ascii "r8/1", seq := [], qual := [] }] → 2 ≤ r.header.length := by
    decide
  obtain ⟨st, h1, h2, _⟩ := (filterPair_table (fun _ => false) _ hl).1
  refine ⟨hl, st, h1, ?_⟩
  rw [h2]
  decide

/-- C20 (failing input): two filters whose info files report k-mer sizes 25
and 31 are both loaded and `loadFilters` completes: the k-mer sizes are never
compared. -/
theorem loadFilters_mixed_k :
    loadFilters
        { fexists := fun _ => true
          readInfo := fun p =>
            if p = ascii "a.txt" then { filterID := ascii "A", kmerSize := 25, hashNum := 3 }
            else { filterID := ascii "B", kmerSize := 31, hashNum := 3 } }
        [ascii "a.bf", ascii "b.bf"]
      = Except.ok
        { m_infoFiles := [{ filterID := ascii "A", kmerSize := 25, hashNum := 3 },
            { filterID := ascii "B", kmerSize := 31, hashNum := 3 }]
          m_filters := [ascii "a.bf", ascii "b.bf"]
          m_filterOrder := [ascii "A", ascii "B"] } := by
  decide

/-! ## Theorems: output writers, `main` -/

theorem filterPrintOpenLoop_length ( m_prefix m_postfix outputType : List Byte) :
    ∀ (order : List (List Byte)) (outputFiles : List (List Byte)),
      (filterPrintOpenLoop m_prefix m_postfix outputType order outputFiles).length
        = outputFiles.length + order.length := by
  intro order
  induction order with
  | nil => intro outputFiles; simp [filterPrintOpenLoop]
  | cons i rest ih =>
    intro outputFiles
    unfold filterPrintOpenLoop
    rw [ih]
    simp only [List.length_append, List.length_cons, List.length_nil]
    omega

/-- The vector `outputFiles` of `filterPrint` holds `N + 2` writers. -/
theorem filterPrintOpen_length ( m_prefix m_postfix : List Byte)
    (m_filterOrder : List (List Byte)) (NO_MATCH MULTI_MATCH outputType : List Byte) :
    (filterPrintOpen m_prefix m_postfix m_filterOrder NO_MATCH MULTI_MATCH outputType).length
      = m_filterOrder.length + 2 := by
  unfold filterPrintOpen
  simp only [List.length_append, List.length_cons, List.length_nil,
    filterPrintOpenLoop_length]
  omega

theorem filterPairPrintOpenLoop_length ( m_prefix m_postfix outputType : List Byte) :
    ∀ (order : List (List Byte)) (files : List (List Byte) × List (List Byte)),
      (filterPairPrintOpenLoop m_prefix m_postfix outputType order files).1.length
          = files.1.length + order.length
        ∧ (filterPairPrintOpenLoop m_prefix m_postfix outputType order files).2.length
          = files.2.length + order.length := by
  intro order
  induction order with
  | nil => intro files; simp [filterPairPrintOpenLoop]
  | cons i rest ih =>
    intro files
    obtain ⟨f1, f2⟩ := files
    unfold filterPairPrintOpenLoop
    have := ih (f1 ++ [ m_prefix ++ ascii "_" ++ i ++ ascii "_1." ++ outputType ++ m_postfix],
      f2 ++ [ m_prefix ++ ascii "_" ++ i ++ ascii "_2." ++ outputType ++ m_postfix])
    simp only [List.length_append, List.length_cons, List.length_nil] at this
    constructor
    · rw [this.1]; simp only [List.length_cons]; omega
    · rw [this.2]; simp only [List.length_cons]; omega

theorem filterPairPrintSetsOpenLoop_length ( m_prefix m_postfix outputType : List Byte) :
    ∀ (order : List (List Byte)) (files : List (List Byte) × List (List Byte)),
      (filterPairPrintSetsOpenLoop m_prefix m_postfix outputType order files).1.length
          = files.1.length + order.length
        ∧ (filterPairPrintSetsOpenLoop m_prefix m_postfix outputType order files).2.length
          = files.2.length + order.length := by
  intro order
  induction order with
  | nil => intro files; simp [filterPairPrintSetsOpenLoop]
  | cons i rest ih =>
    intro files
    obtain ⟨f1, f2⟩ := files
    unfold filterPairPrintSetsOpenLoop
    have := ih (f1 ++ [ m_prefix ++ i ++ ascii "_1." ++ outputType ++ m_postfix],
      f2 ++ [ m_prefix ++ i ++ ascii "_2." ++ outputType ++ m_postfix])
    simp only [List.length_append, List.length_cons, List.length_nil] at this
    constructor
    · rw [this.1]; simp only [List.length_cons]; omega
    · rw [this.2]; simp only [List.length_cons]; omega

/-- For every number `N` of filters the opening section shared by
`filterPairPrint(file1, file2, outputType)` and
`filterPairPrint(file, outputType)` leaves `N + 4` writers in `outputFiles1`
and `N` in `outputFiles2`. -/
theorem filterPairPrintOpen_length ( m_prefix m_postfix : List Byte)
    (m_filterOrder : List (List Byte)) (NO_MATCH MULTI_MATCH outputType : List Byte) :
    (filterPairPrintOpen m_prefix m_postfix m_filterOrder NO_MATCH MULTI_MATCH
        outputType).1.length = m_filterOrder.length + 4
      ∧ (filterPairPrintOpen m_prefix m_postfix m_filterOrder NO_MATCH MULTI_MATCH
        outputType).2.length = m_filterOrder.length := by
  have := filterPairPrintOpenLoop_length m_prefix m_postfix outputType m_filterOrder ([], [])
  unfold filterPairPrintOpen
  simp only [List.length_append, List.length_cons, List.length_nil] at this ⊢
  omega

/-- The same count for `filterPairPrint(inputFiles1, inputFiles2, outputType)`. -/
theorem filterPairPrintSetsOpen_length ( m_prefix m_postfix : List Byte)
    (m_filterOrder : List (List Byte)) (NO_MATCH MULTI_MATCH outputType : List Byte) :
    (filterPairPrintSetsOpen m_prefix m_postfix m_filterOrder NO_MATCH MULTI_MATCH
        outputType).1.length = m_filterOrder.length + 4
      ∧ (filterPairPrintSetsOpen m_prefix m_postfix m_filterOrder NO_MATCH MULTI_MATCH
        outputType).2.length = m_filterOrder.length := by
  have := filterPairPrintSetsOpenLoop_length m_prefix m_postfix outputType m_filterOrder
    ([], [])
  unfold filterPairPrintSetsOpen
  simp only [List.length_append, List.length_cons, List.length_nil] at this ⊢
  omega

set_option maxRecDepth 100000 in
/-- C21 (failing input): with one filter `f` (`N = 1`), prefix `out`, type
`fq`, in each of the three `filterPairPrint` overloads the vector
`outputFiles1` holds five writers (the filter's mate 1 and all four
`NO_MATCH` / `MULTI_MATCH` writers) and `outputFiles2` holds one, not
`N + 2 = 3` each: indices `N` and `N + 1` are no elements of `outputFiles2`,
and index `N + 1` of `outputFiles1` is the mate-2 `NO_MATCH` writer. -/
theorem filterPairPrint_writers :
    (filterPairPrint (ascii "out") [] [ascii "f"] (ascii "noMatch") (ascii "multiMatch")
        (ascii "fq")).1
      = ([ascii "out_f_1.fq", ascii "out_noMatch_1.fq", ascii "out_noMatch_2.fq",
            ascii "out_multiMatch_1.fq", ascii "out_multiMatch_2.fq"],
          [ascii "out_f_2.fq"])
    ∧ (filterPairPrintFile (ascii "out") [] [ascii "f"] (ascii "noMatch")
        (ascii "multiMatch") (ascii "fq")).1
      = ([ascii "out_f_1.fq", ascii "out_noMatch_1.fq", ascii "out_noMatch_2.fq",
            ascii "out_multiMatch_1.fq", ascii "out_multiMatch_2.fq"],
          [ascii "out_f_2.fq"])
    ∧ (filterPairPrintSets (ascii "out") [] [ascii "f"] (ascii "noMatch")
        (ascii "multiMatch") (ascii "fq")).1
      = ([ascii "outf_1.fq", ascii "outnoMatch_1.fq", ascii "outnoMatch_2.fq",
            ascii "outmultiMatch_1.fq", ascii "outmultiMatch_1.fq"],
          [ascii "outf_2.fq"])
    ∧ (filterPairPrint (ascii "out") [] [ascii "f"] (ascii "noMatch") (ascii "multiMatch")
        (ascii "fq")).1.1.length = 5
    ∧ (filterPairPrint (ascii "out") [] [ascii "f"] (ascii "noMatch") (ascii "multiMatch")
        (ascii "fq")).1.2.length = 1
    ∧ (5 : Nat) ≠ 1 + 2 ∧ (1 : Nat) ≠ 1 + 2 := by
  decide

theorem filterPrintCloseLoop_eq (filterOrderSize size : Nat) (h : filterOrderSize ≤ size) :
    ∀ (fuel : Nat) (closed : List Nat) (i : Nat), i + fuel = filterOrderSize →
      filterPrintCloseLoop filterOrderSize size fuel closed i
        = Except.ok (closed ++ List.range' i fuel) := by
  intro fuel
  induction fuel with
  | zero =>
    intro closed i hi
    unfold filterPrintCloseLoop
    rw [if_neg (by omega)]
    simp [pure, Except.pure]
  | succ f ih =>
    intro closed i hi
    unfold filterPrintCloseLoop
    rw [if_pos (by omega)]
    simp only [closeAt]
    rw [if_pos (by omega)]
    simp only [bind, Except.bind, pure, Except.pure]
    rw [ih _ _ (by omega)]
    simp [List.range'_succ]

/-- For every number `N` of filters, the closing section of `filterPrint` on
the `N + 2` writers it opened calls `close()` on the indices `0..N-1`, then
twice on `N + 1`, and never on `N`. -/
theorem filterPrintClose_eq (n : Nat) :
    filterPrintClose n (n + 2) = Except.ok (List.range' 0 n ++ [n + 1, n + 1]) := by
  unfold filterPrintClose
  rw [filterPrintCloseLoop_eq n (n + 2) (by omega) n [] 0 (by omega)]
  simp only [bind, Except.bind, closeAt, pure, Except.pure]
  rw [if_pos (by omega)]
  simp only []
  rw [if_pos (by omega)]
  simp

theorem filterPairPrintCloseLoop_ok (filterOrderSize size1 size2 : Nat)
    (h1 : filterOrderSize ≤ size1) (h2 : filterOrderSize ≤ size2) :
    ∀ (fuel : Nat) (closed : List CloseCall) (i : Nat), i + fuel = filterOrderSize →
      ∃ closed1, filterPairPrintCloseLoop filterOrderSize size1 size2 fuel closed i
        = Except.ok closed1 := by
  intro fuel
  induction fuel with
  | zero =>
    intro closed i hi
    unfold filterPairPrintCloseLoop
    rw [if_neg (by omega)]
    exact ⟨closed, rfl⟩
  | succ f ih =>
    intro closed i hi
    unfold filterPairPrintCloseLoop
    rw [if_pos (by omega)]
    simp only [closePairAt]
    rw [if_pos (by omega)]
    simp only [bind, Except.bind, pure, Except.pure]
    rw [if_pos (by omega)]
    simp only []
    exact ih _ _ (by omega)

/-- For every number `N` of filters, the closing section of the paired
printing routines, run on vectors of `N + 4` and `N` writers, reaches
`outputFiles2[N + 1].close()`, an element the vector does not have. -/
theorem filterPairPrintClose_fault (n : Nat) :
    filterPairPrintClose n (n + 4) n = Except.error Fault.outOfBounds := by
  unfold filterPairPrintClose
  obtain ⟨c, hc⟩ := filterPairPrintCloseLoop_ok n (n + 4) n (by omega) (by omega) n [] 0
    (by omega)
  rw [hc]
  simp only [bind, Except.bind, closePairAt]
  rw [if_pos (by omega)]
  simp only [pure, Except.pure]
  rw [if_neg (by omega)]

set_option maxRecDepth 100000 in
/-- C22 (failing input): `filterPrint` with one filter `f` (`N = 1`) opens
three writers and calls `close()` on the indices `0, 2, 2`: the `NO_MATCH`
writer at index `N = 1` is never closed and the `MULTI_MATCH` writer at index
`N + 1 = 2` is closed twice. Each `filterPairPrint` overload, after closing
`outputFiles1[0]`, `outputFiles2[0]` and `outputFiles1[2]`, calls `close()`
on `outputFiles2[2]`, which is no element of the vector. -/
theorem filterPrint_closes :
    filterPrint (ascii "out") [] [ascii "f"] (ascii "noMatch") (ascii "multiMatch")
        (ascii "fq")
      = Except.ok ([ascii "out_f.fq", ascii "out_noMatch.fq", ascii "out_multiMatch.fq"],
          [0, 2, 2])
    ∧ ([0, 2, 2] : List Nat).count 1 = 0 ∧ ([0, 2, 2] : List Nat).count 2 = 2
    ∧ (filterPairPrint (ascii "out") [] [ascii "f"] (ascii "noMatch") (ascii "multiMatch")
        (ascii "fq")).2 = Except.error Fault.outOfBounds
    ∧ (filterPairPrintFile (ascii "out") [] [ascii "f"] (ascii "noMatch")
        (ascii "multiMatch") (ascii "fq")).2 = Except.error Fault.outOfBounds
    ∧ (filterPairPrintSets (ascii "out") [] [ascii "f"] (ascii "noMatch")
        (ascii "multiMatch") (ascii "fq")).2 = Except.error Fault.outOfBounds
    ∧ closePairAt 5 1 [CloseCall.files1 0, CloseCall.files2 0, CloseCall.files1 2]
        (CloseCall.files2 2) = Except.error Fault.outOfBounds := by
  decide

theorem filterPrintOpenLoop_eq ( m_prefix m_postfix outputType : List Byte) :
    ∀ (order : List (List Byte)) (outputFiles : List (List Byte)),
      filterPrintOpenLoop m_prefix m_postfix outputType order outputFiles
        = outputFiles ++ order.map
            (fun i => m_prefix ++ ascii "_" ++ i ++ ascii "." ++ outputType ++ m_postfix) := by
  intro order
  induction order with
  | nil => intro outputFiles; simp [filterPrintOpenLoop]
  | cons i rest ih =>
    intro outputFiles
    unfold filterPrintOpenLoop
    rw [ih]
    simp

/-- In `filterPrint` the writer for label `L` (a filter id, `NO_MATCH` or
`MULTI_MATCH`) is opened as
`m_prefix + "_" + L + "." + outputType + m_postfix`. -/
theorem filterPrintOpen_eq ( m_prefix m_postfix : List Byte)
    (m_filterOrder : List (List Byte)) (NO_MATCH MULTI_MATCH outputType : List Byte) :
    filterPrintOpen m_prefix m_postfix m_filterOrder NO_MATCH MULTI_MATCH outputType
      = (m_filterOrder ++ [NO_MATCH, MULTI_MATCH]).map
          (fun L => m_prefix ++ ascii "_" ++ L ++ ascii "." ++ outputType ++ m_postfix) := by
  unfold filterPrintOpen
  rw [filterPrintOpenLoop_eq]
  simp

set_option maxRecDepth 100000 in
/-- C23 (failing input): `filterPairPrint(inputFiles1, inputFiles2,
outputType)` with prefix `out`, one filter `f`, type `fq` and postfix `.gz`
opens `outf_1.fq.gz`, `outf_2.fq.gz`, `outnoMatch_1.fq.gz`,
`outnoMatch_2.fq.gz` and twice `outmultiMatch_1.fq.gz`: the names lack the
`_` after the prefix (`out_f_1.fq.gz` is not opened), no writer is opened for
(`MULTI_MATCH`, mate 2), and the names are not pairwise distinct. -/
theorem filterPairPrintSets_names :
    (filterPairPrintSets (ascii "out") (ascii ".gz") [ascii "f"] (ascii "noMatch")
        (ascii "multiMatch") (ascii "fq")).1
      = ([ascii "outf_1.fq.gz", ascii "outnoMatch_1.fq.gz", ascii "outnoMatch_2.fq.gz",
            ascii "outmultiMatch_1.fq.gz", ascii "outmultiMatch_1.fq.gz"],
          [ascii "outf_2.fq.gz"])
    ∧ ascii "out" ++ ascii "_" ++ ascii "f" ++ ascii "_" ++ ascii "1" ++ ascii "."
          ++ ascii "fq" ++ ascii ".gz"
        ∉ (filterPairPrintSets (ascii "out") (ascii ".gz") [ascii "f"] (ascii "noMatch")
            (ascii "multiMatch") (ascii "fq")).1.1
    ∧ ascii "out" ++ ascii "_" ++ ascii "multiMatch" ++ ascii "_" ++ ascii "2" ++ ascii "."
          ++ ascii "fq" ++ ascii ".gz"
        ∉ (filterPairPrintSets (ascii "out") (ascii ".gz") [ascii "f"] (ascii "noMatch")
              (ascii "multiMatch") (ascii "fq")).1.1
            ++ (filterPairPrintSets (ascii "out") (ascii ".gz") [ascii "f"] (ascii "noMatch")
              (ascii "multiMatch") (ascii "fq")).1.2
    ∧ ¬ ((filterPairPrintSets (ascii "out") (ascii ".gz") [ascii "f"] (ascii "noMatch")
            (ascii "multiMatch") (ascii "fq")).1.1
          ++ (filterPairPrintSets (ascii "out") (ascii ".gz") [ascii "f"] (ascii "noMatch")
            (ascii "multiMatch") (ascii "fq")).1.2).Nodup := by
  decide

theorem filterPairPrintOpenLoop_eq ( m_prefix m_postfix outputType : List Byte) :
    ∀ (order : List (List Byte)) (files : List (List Byte) × List (List Byte)),
      filterPairPrintOpenLoop m_prefix m_postfix outputType order files
        = (files.1 ++ order.map
              (fun i => m_prefix ++ ascii "_" ++ i ++ ascii "_1." ++ outputType ++ m_postfix),
            files.2 ++ order.map
              (fun i => m_prefix ++ ascii "_" ++ i ++ ascii "_2." ++ outputType ++ m_postfix)) := by
  intro order
  induction order with
  | nil => intro files; simp [filterPairPrintOpenLoop]
  | cons i rest ih =>
    intro files
    obtain ⟨f1, f2⟩ := files
    unfold filterPairPrintOpenLoop
    rw [ih]
    simp

/-- In `filterPairPrint(file1, file2, outputType)` and
`filterPairPrint(file, outputType)` the writer of label `L` and mate `m` is
opened as `m_prefix + "_" + L + "_" + m + "." + outputType + m_postfix`; the
four writers of `NO_MATCH` and `MULTI_MATCH` are all in `outputFiles1`. -/
theorem filterPairPrintOpen_eq ( m_prefix m_postfix : List Byte)
    (m_filterOrder : List (List Byte)) (NO_MATCH MULTI_MATCH outputType : List Byte) :
    filterPairPrintOpen m_prefix m_postfix m_filterOrder NO_MATCH MULTI_MATCH outputType
      = (m_filterOrder.map
            (fun L => m_prefix ++ ascii "_" ++ L ++ ascii "_1." ++ outputType ++ m_postfix)
          ++ [ m_prefix ++ ascii "_" ++ NO_MATCH ++ ascii "_1." ++ outputType ++ m_postfix,
              m_prefix ++ ascii "_" ++ NO_MATCH ++ ascii "_2." ++ outputType ++ m_postfix,
              m_prefix ++ ascii "_" ++ MULTI_MATCH ++ ascii "_1." ++ outputType ++ m_postfix,
              m_prefix ++ ascii "_" ++ MULTI_MATCH ++ ascii "_2." ++ outputType ++ m_postfix],
          m_filterOrder.map
            (fun L => m_prefix ++ ascii "_" ++ L ++ ascii "_2." ++ outputType ++ m_postfix)) := by
  unfold filterPairPrintOpen
  rw [filterPairPrintOpenLoop_eq]
  simp

/-- For two input names of at least four characters each and of the same
length, the paired-mode check of `main` compares four-character tails with
the three-character `"bam"` and lets the names pass. -/
theorem pairedCheck_same_length (a b : List Byte) (ha : 4 ≤ a.length)
    (hb : b.length = a.length) (h64 : a.length < 2 ^ 64) :
    pairedCheck [a, b] = some false := by
  have hs : subSize a.length 4 = a.length - 4 := by
    unfold subSize
    have e : a.length + 2 ^ 64 - 4 % 2 ^ 64 = (a.length - 4) + 2 ^ 64 := by
      have : 4 % 2 ^ 64 = 4 := by norm_num
      omega
    rw [e, Nat.add_mod_right, Nat.mod_eq_of_lt (by omega)]
  have hla : (a.drop (a.length - 4)).length = 4 := by rw [List.length_drop]; omega
  have hlb : (b.drop (a.length - 4)).length = 4 := by rw [List.length_drop]; omega
  have h3 : (ascii "bam").length = 3 := by decide
  have na : a.drop (a.length - 4) ≠ ascii "bam" := by
    intro h; rw [h] at hla; omega
  have nb : b.drop (a.length - 4) ≠ ascii "bam" := by
    intro h; rw [h] at hlb; omega
  have e0 : ([a, b] : List (List Byte)).getD 0 [] = a := rfl
  have e1 : ([a, b] : List (List Byte)).getD 1 [] = b := rfl
  have el : ([a, b] : List (List Byte)).length = 2 := rfl
  have sa : substr a (a.length - 4) = some (a.drop (a.length - 4)) := by
    unfold substr; rw [if_neg (by omega)]
  have sb : substr b (a.length - 4) = some (b.drop (a.length - 4)) := by
    unfold substr; rw [if_neg (by omega)]
  unfold pairedCheck
  rw [e0, e1, el, hs, sa, sb, if_neg (by omega)]
  simp only []
  rw [if_neg na]
  simp only [nb, decide_False]

set_option maxRecDepth 100000 in
/-- C24 (failing input): paired mode `-e`, `-f "a.bf"` and the two input
files `r_1.bam` and `r_2.bam`. The paired-mode check compares
`substr(size() - 4)`, the four characters `.bam`, with `"bam"`, finds the
condition false and does not exit: `main` goes on to declare the classifier,
which loads the filters. -/
theorem main_paired_bam :
    pairedCheck [ascii "r_1.bam", ascii "r_2.bam"] = some false
    ∧ substr (ascii "r_1.bam") (subSize (ascii "r_1.bam").length 4) = some (ascii ".bam")
    ∧ main (fun _ => none) [OptEvent.e, OptEvent.f (ascii "a.bf")]
        [ascii "r_1.bam", ascii "r_2.bam"]
      = MainResult.construct [ascii "a.bf"] 2 (1 / 5) 0
    ∧ main (fun _ => none) [OptEvent.e, OptEvent.f (ascii "a.bf")]
        [ascii "r_1.bam", ascii "r_2.bam"] ≠ MainResult.exit 1 := by
  have h1 : pairedCheck [ascii "r_1.bam", ascii "r_2.bam"] = some false := by decide
  have h2 : substr (ascii "r_1.bam") (subSize (ascii "r_1.bam").length 4)
      = some (ascii ".bam") := by decide
  have h3 : convertInputString (ascii "a.bf") = [ascii "a.bf"] := by decide
  have h4 : main (fun _ => none) [OptEvent.e, OptEvent.f (ascii "a.bf")]
      [ascii "r_1.bam", ascii "r_2.bam"]
      = MainResult.construct [ascii "a.bf"] 2 (1 / 5) 0 := by
    simp only [main, optionLoop, pure, Except.pure, afterOptions, if_true]
    have e : convertInputString [] ++ [ascii "r_1.bam", ascii "r_2.bam"]
        = [ascii "r_1.bam", ascii "r_2.bam"] := by decide
    rw [e, h1, h3]
    have e2 : (47 : Byte) ∉ ([] : List Byte) := by decide
    simp [e2, pure, Except.pure]
  refine ⟨h1, h2, h4, ?_⟩
  rw [h4]
  intro h
  cases h

set_option maxRecDepth 100000 in
/-- C25 (failing input): with `-f "a.bf"` and the input file `reads.fq`,
(1) `-m abc`, on which `convert >> percentHit` fails, and (2) `-m 2`, a value
above 1, both end `main` by `return 0`, exit status 0; (3) `-m -0.5`, a value
below 0, passes the only range test `percentHit > 1` and `main` goes on to
declare the classifier with `percentHit = -0.5`. -/
theorem main_threshold :
    main (fun _ => none) [OptEvent.m none, OptEvent.f (ascii "a.bf")] [ascii "reads.fq"]
      = MainResult.exit 0
    ∧ main (fun _ => none) [OptEvent.m (some 2), OptEvent.f (ascii "a.bf")]
        [ascii "reads.fq"] = MainResult.exit 0
    ∧ main (fun _ => none) [OptEvent.m (some (-1 / 2)), OptEvent.f (ascii "a.bf")]
        [ascii "reads.fq"] = MainResult.construct [ascii "a.bf"] 2 (-1 / 2) 0 := by
  have h3 : convertInputString (ascii "a.bf") = [ascii "a.bf"] := by decide
  have e : convertInputString [] ++ [ascii "reads.fq"] = [ascii "reads.fq"] := by decide
  have e2 : (47 : Byte) ∉ ([] : List Byte) := by decide
  refine ⟨?_, ?_, ?_⟩
  · simp only [main, optionLoop]
  · have : (2 : ℚ) > 1 := by norm_num
    simp only [main, optionLoop, this, if_true]
  · have : ¬ ((-1 / 2 : ℚ) > 1) := by norm_num
    simp only [main, optionLoop, this, if_false, pure, Except.pure, afterOptions]
    rw [e, h3]
    simp [e2, pure, Except.pure]

/-! ## Theorems: the exits of the main loop of `prepSeq` -/

/-- The main loop of `prepSeq` is the loop up to its exit followed by the code
that follows that exit. -/
theorem mainLoop_afterLoop (p : ReadsProcessor) (sequence : List Byte) (position : Nat) :
    ∀ (fuel : Nat) (fw rv : List Nat) (index revIndex outputIndex : Nat),
      mainLoop p sequence position fuel fw rv index revIndex outputIndex
        = (mainLoopExit p sequence fuel fw rv index revIndex outputIndex).bind
            (afterLoop p sequence position) := by
  intro fuel
  induction fuel with
  | zero =>
    intro fw rv index revIndex outputIndex
    unfold mainLoop mainLoopExit
    by_cases h : outputIndex < p.halfSizeOfKmerInBytes
    · rw [if_pos h, if_pos h]; rfl
    · rw [if_neg h, if_neg h]; rfl
  | succ f ih =>
    intro fw rv index revIndex outputIndex
    unfold mainLoop mainLoopExit
    by_cases h : outputIndex < p.halfSizeOfKmerInBytes
    · rw [if_pos h, if_pos h]
      simp only []
      cases h1 : packFour fw0 fw1 fw2 fw3 incSize incSize sequence fw outputIndex index with
      | error e => rfl
      | ok r1 =>
        cases r1 with
        | none => rfl
        | some pr =>
          obtain ⟨fw1, index1⟩ := pr
          simp only [bind, Except.bind]
          cases h2 : packFour rv0 rv1 rv2 rv3 decSize decSize sequence rv outputIndex
              revIndex with
          | error e => rfl
          | ok r2 =>
            cases r2 with
            | none => rfl
            | some pr2 =>
              obtain ⟨rv1, revIndex1⟩ := pr2
              simp only []
              cases h3 : readAt fw1 outputIndex with
              | error e => rfl
              | ok f1 =>
                simp only []
                cases h4 : readAt rv1 outputIndex with
                | error e => rfl
                | ok r1 =>
                  simp only []
                  by_cases hlt : f1 < r1
                  · rw [if_pos hlt, if_pos hlt]; rfl
                  · rw [if_neg hlt, if_neg hlt]
                    by_cases hgt : f1 > r1
                    · rw [if_pos hgt, if_pos hgt]; rfl
                    · rw [if_neg hgt, if_neg hgt]
                      exact ih _ _ _ _ _
    · rw [if_neg h, if_neg h]; rfl

/-- Method `prepSeq` is its start up to the exit of the main loop followed by
the code that follows that exit. -/
theorem prepSeq_afterLoop (p : ReadsProcessor) (sequence : List Byte) (position : Nat) :
    prepSeq p sequence position
      = (prepSeqExit p sequence position).bind (afterLoop p sequence position) := by
  unfold prepSeq prepSeqExit
  cases h1 : memsetZero p.fw p.kmerSizeInBytes with
  | error e => rfl
  | ok fw =>
    cases h2 : memsetZero p.rv p.kmerSizeInBytes with
    | error e => rfl
    | ok rv =>
      simp only [bind, Except.bind]
      exact mainLoop_afterLoop p sequence position _ _ _ _ _ _

/-- One pass of the main loop on an all-ACGT window, with bytes `o` of both
buffers still zero: the pass stores byte `o` of both packings and leaves by
the forward branch, by the reverse branch, or goes on to byte `o + 1`. -/
theorem mainLoopExit_step (p : ReadsProcessor) (k : Nat) (sequence : List Byte) (pos : Nat)
    (w : List Byte) (hp : Geometry p k) (hk : 3 < k) (hlen : pos + k ≤ sequence.length)
    (hw : w = window sequence pos k) (hvalid : ∀ t, t < k → validAt w t = true)
    (f o : Nat) (fw rv : List Nat) (ho : o < (k + 7) / 8)
    (hfl : fw.length = (k + 3) / 4) (hrl : rv.length = (k + 3) / 4)
    (hfz : fw.getD o 0 = 0) (hrz : rv.getD o 0 = 0) :
    mainLoopExit p sequence (f + 1) fw rv (pos + 4 * o) (decSize (pos + k - 4 * o)) o
      = if packByte w o < packByte (reverseComplement w) o then
          Except.ok (LoopExit.forward (fw.set o (packByte w o)) (pos + 4 * (o + 1)) o)
        else if packByte w o > packByte (reverseComplement w) o then
          Except.ok (LoopExit.reverse (rv.set o (packByte (reverseComplement w) o))
            (decSize (pos + k - 4 * (o + 1))) o)
        else mainLoopExit p sequence f (fw.set o (packByte w o))
          (rv.set o (packByte (reverseComplement w) o)) (pos + 4 * (o + 1))
          (decSize (pos + k - 4 * (o + 1))) (o + 1) := by
  have hwl : w.length = k := by rw [hw]; exact window_length _ _ _ hlen
  have hH : p.halfSizeOfKmerInBytes = (k + 7) / 8 := hp.2.2.1
  have ho4 : 4 * o + 3 < k := by omega
  have hvf : validFrom w (4 * o) = true := validFrom_of_all w k hvalid _ ho4
  have hvr : validFrom w (k - 4 * (o + 1)) = true := validFrom_of_all w k hvalid _ (by omega)
  conv_lhs => unfold mainLoopExit
  rw [if_pos (by rw [hH]; omega)]
  simp only []
  rw [fw_block incSize sequence pos k w hw hlen fw o (4 * o) ho4 (by rw [hfl]; omega) hfz]
  rw [if_pos hvf]
  simp only [bind, Except.bind]
  have e1 : decSize (pos + k - 4 * o) = pos + (k - 4 * (o + 1)) + 3 := by
    unfold decSize; rw [if_neg (by omega)]; omega
  rw [e1, rv_block sequence pos k w hw hlen rv o (k - 4 * (o + 1)) (by omega)
    (by rw [hrl]; omega) hrz]
  rw [if_pos hvr]
  simp only []
  rw [readAt_eq _ _ (by simp [hfl]; omega), readAt_eq _ _ (by simp [hrl]; omega)]
  simp only []
  rw [getD_set_self _ _ _ (by rw [hfl]; omega), getD_set_self _ _ _ (by rw [hrl]; omega)]
  have hF : fourFrom w (4 * o) = packByte w o := (packByte_full w o (by omega)).symm
  have hR : fourBack w (k - 4 * (o + 1)) = packByte (reverseComplement w) o := by
    have := packByte_rc_full w o (by omega) (by rw [hwl]; exact hvr)
    rw [this, hwl]
  rw [hF, hR]
  have e2 : incSize (pos + 4 * o + 3) = pos + 4 * (o + 1) := by unfold incSize; omega
  have e3 : pos + (k - 4 * (o + 1)) = pos + k - 4 * (o + 1) := by omega
  rw [e2, e3]
  rfl

/-- On an all-ACGT window whose packings first differ at byte `c`, below
`ceil(k/8)`, the main loop leaves at byte `c`, by the forward branch when the
forward byte is the smaller and by the reverse branch when it is the
larger. -/
theorem mainLoopExit_commit (p : ReadsProcessor) (k : Nat) (sequence : List Byte) (pos : Nat)
    (w : List Byte) (hp : Geometry p k) (hk : 3 < k) (hlen : pos + k ≤ sequence.length)
    (hw : w = window sequence pos k) (hvalid : ∀ t, t < k → validAt w t = true)
    (c : Nat) (hc : c < (k + 7) / 8)
    (hties : ∀ j, j < c → packByte w j = packByte (reverseComplement w) j)
    (hne : packByte w c ≠ packByte (reverseComplement w) c) :
    ∀ (n fuel o : Nat) (fw rv : List Nat), o + n = c → n < fuel →
      fw.length = (k + 3) / 4 → rv.length = (k + 3) / 4 →
      (∀ j, o ≤ j → fw.getD j 0 = 0) → (∀ j, o ≤ j → rv.getD j 0 = 0) →
      ∃ buf idx, mainLoopExit p sequence fuel fw rv (pos + 4 * o)
          (decSize (pos + k - 4 * o)) o
        = Except.ok (if packByte w c < packByte (reverseComplement w) c
            then LoopExit.forward buf idx c else LoopExit.reverse buf idx c) := by
  intro n
  induction n with
  | zero =>
    intro fuel o fw rv hon hfuel hfl hrl hfz hrz
    have ho : o = c := by omega
    subst ho
    obtain ⟨f, rfl⟩ : ∃ f, fuel = f + 1 := ⟨fuel - 1, by omega⟩
    rw [mainLoopExit_step p k sequence pos w hp hk hlen hw hvalid f o fw rv hc hfl hrl
      (hfz o (le_refl o)) (hrz o (le_refl o))]
    by_cases hlt : packByte w o < packByte (reverseComplement w) o
    · rw [if_pos hlt]
      exact ⟨_, _, by rw [if_pos hlt]⟩
    · rw [if_neg hlt, if_pos (by omega)]
      exact ⟨_, _, by rw [if_neg hlt]⟩
  | succ n ih =>
    intro fuel o fw rv hon hfuel hfl hrl hfz hrz
    obtain ⟨f, rfl⟩ : ∃ f, fuel = f + 1 := ⟨fuel - 1, by omega⟩
    have htie := hties o (by omega)
    rw [mainLoopExit_step p k sequence pos w hp hk hlen hw hvalid f o fw rv (by omega) hfl hrl
      (hfz o (le_refl o)) (hrz o (le_refl o))]
    rw [if_neg (by omega), if_neg (by omega)]
    exact ih f (o + 1) _ _ (by omega) (by omega) (by simp [hfl]) (by simp [hrl])
      (fun j hj => by rw [getD_set_other _ _ _ _ (by omega)]; exact hfz j (by omega))
      (fun j hj => by rw [getD_set_other _ _ _ _ (by omega)]; exact hrz j (by omega))

/-- Two packings of an all-ACGT window that differ have a first differing
byte, and it lies below `ceil(k/8)`. -/
theorem first_diff_below_half (w : List Byte)
    (hvalid : ∀ t, t < w.length → validAt w t = true)
    (hne : pack w ≠ pack (reverseComplement w)) :
    ∃ c, c < (w.length + 7) / 8
      ∧ (∀ j, j < c → packByte w j = packByte (reverseComplement w) j)
      ∧ packByte w c ≠ packByte (reverseComplement w) c := by
  have hex : ∃ c, c < (w.length + 7) / 8
      ∧ packByte w c ≠ packByte (reverseComplement w) c := by
    by_contra hno
    apply hne
    apply pack_eq_of_ties w hvalid
    intro j hj
    by_contra hj2
    exact hno ⟨j, hj, hj2⟩
  refine ⟨Nat.find hex, (Nat.find_spec hex).1, ?_, (Nat.find_spec hex).2⟩
  intro j hj
  by_contra hj2
  exact Nat.find_min hex hj ⟨by have := (Nat.find_spec hex).1; omega, hj2⟩

/-- On an all-ACGT window that is not its own reverse complement `prepSeq`
leaves its main loop at the first byte where the two packings differ, an
index below `ceil(k/8)`, by the branch of the smaller byte, and returns the
smaller of the two full packings. -/
theorem prepSeq_commit (k : Nat) (fwMem rvMem : Nat → Nat) (sequence : List Byte)
    (pos : Nat) (hk : 3 < k) (hlen : pos + k ≤ sequence.length)
    (hvalid : ∀ c, c ∈ window sequence pos k → isACGT c = true)
    (hne : pack (window sequence pos k) ≠ pack (reverseComplement (window sequence pos k))) :
    ∃ c buf idx, c < (k + 7) / 8
      ∧ (∀ j, j < c → (pack (window sequence pos k)).getD j 0
          = (pack (reverseComplement (window sequence pos k))).getD j 0)
      ∧ (pack (window sequence pos k)).getD c 0
          ≠ (pack (reverseComplement (window sequence pos k))).getD c 0
      ∧ prepSeqExit (ReadsProcessor.new k fwMem rvMem) sequence pos
          = Except.ok (if (pack (window sequence pos k)).getD c 0
                < (pack (reverseComplement (window sequence pos k))).getD c 0
              then LoopExit.forward buf idx c else LoopExit.reverse buf idx c)
      ∧ prepSeq (ReadsProcessor.new k fwMem rvMem) sequence pos
          = Except.ok (some (canonical (window sequence pos k)))
      ∧ (canonical (window sequence pos k)).length = (k + 3) / 4 := by
  have hwl : (window sequence pos k).length = k := window_length _ _ _ hlen
  have hv : ∀ t, t < (window sequence pos k).length →
      validAt (window sequence pos k) t = true := (mem_window_iff _).mp hvalid
  obtain ⟨c, hc, hties, hdiff⟩ := first_diff_below_half _ hv hne
  rw [hwl] at hc
  have hp := new_geometry k fwMem rvMem
  obtain ⟨hks, hB, _, _, _, hfl, hrl⟩ := hp
  obtain ⟨buf, idx, hexit⟩ := mainLoopExit_commit (ReadsProcessor.new k fwMem rvMem) k
    sequence pos (window sequence pos k) (new_geometry k fwMem rvMem) hk hlen rfl
    (fun t ht => hv t (by rw [hwl]; exact ht)) c hc hties hdiff c k 0
    (List.replicate ((k + 3) / 4) 0) (List.replicate ((k + 3) / 4) 0)
    (by omega) (by omega) (by simp) (by simp)
    (fun j _ => replicate_getD _ j) (fun j _ => replicate_getD _ j)
  have hgetw : ∀ j, j < (k + 7) / 8 → (pack (window sequence pos k)).getD j 0
      = packByte (window sequence pos k) j := by
    intro j hj
    exact pack_getD _ j (by rw [hwl]; omega)
  have hgetr : ∀ j, j < (k + 7) / 8 →
      (pack (reverseComplement (window sequence pos k))).getD j 0
        = packByte (reverseComplement (window sequence pos k)) j := by
    intro j hj
    exact pack_getD _ j (by rw [reverseComplement_length, hwl]; omega)
  refine ⟨c, buf, idx, hc, ?_, ?_, ?_, ?_⟩
  · intro j hj
    rw [hgetw j (by omega), hgetr j (by omega)]
    exact hties j hj
  · rw [hgetw c hc, hgetr c hc]
    exact hdiff
  · rw [hgetw c hc, hgetr c hc]
    unfold prepSeqExit
    rw [memsetZero_eq _ _ (by rw [hfl, hB]), memsetZero_eq _ _ (by rw [hrl, hB])]
    simp only [bind, Except.bind]
    rw [hks, hB]
    simpa using hexit
  · exact (prepSeq_valid_window k fwMem rvMem sequence pos hk hlen hvalid).1 hne

/-! ## Theorems: access safety, strand commitment, statelessness, odd `k` -/

set_option maxRecDepth 100000 in
/-- C26 (failing input): `k = 6` (two-byte buffers), sequence `AAATTT`,
position 0, so `pos + k <= len(seq)`. Both strands pack to `3` in byte 0, the
main loop ends at `outputIndex = 1`, the palindromic path starts its filling
loop with `++outputIndex` at `outputIndex = 2`, the loop does not run, and
`fw[outputIndex] |= fw0[sequence[lastPos]]` is executed at index
`2 = kmerSizeInBytes`, outside the buffer. -/
theorem prepSeq_out_of_bounds :
    0 + 6 ≤ ([65, 65, 65, 84, 84, 84] : List Byte).length
    ∧ (ReadsProcessor.new 6 (fun _ => 0) (fun _ => 0)).kmerSizeInBytes = 2
    ∧ (ReadsProcessor.new 6 (fun _ => 0) (fun _ => 0)).fw.length = 2
    ∧ prepSeqExit (ReadsProcessor.new 6 (fun _ => 0) (fun _ => 0))
        [65, 65, 65, 84, 84, 84] 0 = Except.ok (LoopExit.palindromic [3, 0] 4 1)
    ∧ fillLoop (ReadsProcessor.new 6 (fun _ => 0) (fun _ => 0)) fw0 fw1 fw2 fw3 incSize id
        [65, 65, 65, 84, 84, 84] 6 [3, 0] (1 + 1) 4 = Except.ok (some ([3, 0], 2, 4))
    ∧ orAt [3, 0] 2 (lookup fw0 84) = Except.error Fault.outOfBounds
    ∧ prepSeq (ReadsProcessor.new 6 (fun _ => 0) (fun _ => 0))
        [65, 65, 65, 84, 84, 84] 0 = Except.error Fault.outOfBounds := by
  decide

theorem pack_ne_of_text_ne (w : List Byte) (hvalid : ∀ c, c ∈ w → isACGT c = true)
    (hne : w.map upperBase ≠ reverseComplement (w.map upperBase)) :
    pack w ≠ pack (reverseComplement w) := by
  intro h
  apply hne
  rw [reverseComplement_map_upperBase]
  exact text_eq_of_pack_eq _ _ (by rw [reverseComplement_length])
    ((mem_window_iff _).mp hvalid)
    ((mem_window_iff _).mp (reverseComplement_valid _ hvalid)) h

theorem naiveCanonical_eq (sequence : List Byte) (pos k : Nat) :
    naiveCanonical sequence pos k = canonical (window sequence pos k) := rfl

/-- C27: for every `k > 3` and every all-ACGT window `W` that is not its own
reverse complement (as a sequence of bases, the case of the letters ignored),
the forward and reverse-complement packings first differ at a byte index
`c < ceil(k/8)`; `prepSeq` leaves its main loop at that byte, by the branch
of the smaller byte, and returns exactly the buffer of the naive algorithm:
both strands packed in full into `ceil(k/4)` bytes, compared byte-wise
unsigned, the smaller returned. -/
theorem prepSeq_naive (k : Nat) (fwMem rvMem : Nat → Nat) (sequence : List Byte)
    (pos : Nat) (hk : 3 < k) (hlen : pos + k ≤ sequence.length)
    (hvalid : ∀ c, c ∈ window sequence pos k → isACGT c = true)
    (hne : (window sequence pos k).map upperBase
      ≠ reverseComplement ((window sequence pos k).map upperBase)) :
    ∃ c buf idx, c < (k + 7) / 8
      ∧ (∀ j, j < c → (pack (window sequence pos k)).getD j 0
          = (pack (reverseComplement (window sequence pos k))).getD j 0)
      ∧ (pack (window sequence pos k)).getD c 0
          ≠ (pack (reverseComplement (window sequence pos k))).getD c 0
      ∧ prepSeqExit (ReadsProcessor.new k fwMem rvMem) sequence pos
          = Except.ok (if (pack (window sequence pos k)).getD c 0
                < (pack (reverseComplement (window sequence pos k))).getD c 0
              then LoopExit.forward buf idx c else LoopExit.reverse buf idx c)
      ∧ prepSeq (ReadsProcessor.new k fwMem rvMem) sequence pos
          = Except.ok (some (naiveCanonical sequence pos k))
      ∧ (naiveCanonical sequence pos k).length = (k + 3) / 4 := by
  rw [naiveCanonical_eq]
  exact prepSeq_commit k fwMem rvMem sequence pos hk hlen hvalid
    (pack_ne_of_text_ne _ hvalid hne)

set_option maxRecDepth 100000 in
/-- C27 (witness): `k = 9`, window `ACGTTGCAT` at position 1 of
`xACGTTGCATy`; the packings differ in byte 1, below `ceil(9/8) = 2`. -/
theorem prepSeq_naive_witness :
    3 < 9 ∧ 1 + 9 ≤ ([120, 65, 67, 71, 84, 84, 71, 67, 65, 84, 121] : List Byte).length
      ∧ ∃ c buf idx, c < (9 + 7) / 8
        ∧ (∀ j, j < c →
            (pack (window [120, 65, 67, 71, 84, 84, 71, 67, 65, 84, 121] 1 9)).getD j 0
              = (pack (reverseComplement
                  (window [120, 65, 67, 71, 84, 84, 71, 67, 65, 84, 121] 1 9))).getD j 0)
        ∧ (pack (window [120, 65, 67, 71, 84, 84, 71, 67, 65, 84, 121] 1 9)).getD c 0
            ≠ (pack (reverseComplement
                (window [120, 65, 67, 71, 84, 84, 71, 67, 65, 84, 121] 1 9))).getD c 0
        ∧ prepSeqExit (ReadsProcessor.new 9 (fun _ => 7) (fun _ => 9))
            [120, 65, 67, 71, 84, 84, 71, 67, 65, 84, 121] 1
          = Except.ok
            (if (pack (window [120, 65, 67, 71, 84, 84, 71, 67, 65, 84, 121] 1 9)).getD c 0
                < (pack (reverseComplement
                    (window [120, 65, 67, 71, 84, 84, 71, 67, 65, 84, 121] 1 9))).getD c 0
              then LoopExit.forward buf idx c else LoopExit.reverse buf idx c)
        ∧ prepSeq (ReadsProcessor.new 9 (fun _ => 7) (fun _ => 9))
            [120, 65, 67, 71, 84, 84, 71, 67, 65, 84, 121] 1
          = Except.ok (some (naiveCanonical [120, 65, 67, 71, 84, 84, 71, 67, 65, 84, 121] 1 9))
        ∧ (naiveCanonical [120, 65, 67, 71, 84, 84, 71, 67, 65, 84, 121] 1 9).length
          = (9 + 3) / 4 :=
  ⟨by decide, by decide,
    prepSeq_naive 9 (fun _ => 7) (fun _ => 9) [120, 65, 67, 71, 84, 84, 71, 67, 65, 84, 121] 1
      (by decide) (by decide) (by decide) (by decide)⟩

theorem prepSpec_length (w : List Byte) (buf : List Nat)
    (h : prepSpec w = Except.ok (some buf)) : buf.length = (w.length + 3) / 4 := by
  unfold prepSpec at h
  by_cases hv : w.all isACGT = true
  · rw [if_pos hv] at h
    by_cases hp : pack w = pack (reverseComplement w)
    · rw [if_pos hp] at h
      unfold palSpec at h
      simp only [] at h
      split at h
      · cases h
      · simp only [pure, Except.pure, Except.ok.injEq, Option.some.injEq] at h
        rw [← h]
        simp
    · rw [if_neg hp] at h
      simp only [pure, Except.pure, Except.ok.injEq, Option.some.injEq] at h
      rw [← h]
      unfold canonical lexMin
      split
      · rw [pack_length, reverseComplement_length]
      · rw [pack_length]
  · rw [if_neg hv] at h
    cases h

/-- For every `k > 3`, any prior contents `fwMem1`, `rvMem1` and `fwMem2`,
`rvMem2` of the two scratch buffers and any two (sequence, position) pairs
whose `k`-character windows are identical, the two calls of `prepSeq` have
the same outcome in the model: both `NULL` or neither, and byte-for-byte
equal buffers of `ceil(k/4)` bytes; on the palindromic windows of `k = 6` and
`k = 10` both calls store outside the buffer and have no outcome. -/
theorem prepSeq_stateless (k : Nat) (fwMem1 rvMem1 fwMem2 rvMem2 : Nat → Nat)
    (sequence1 sequence2 : List Byte) (pos1 pos2 : Nat) (hk : 3 < k)
    (hlen1 : pos1 + k ≤ sequence1.length) (hlen2 : pos2 + k ≤ sequence2.length)
    (hwin : window sequence1 pos1 k = window sequence2 pos2 k) :
    prepSeq (ReadsProcessor.new k fwMem1 rvMem1) sequence1 pos1
        = prepSeq (ReadsProcessor.new k fwMem2 rvMem2) sequence2 pos2
      ∧ (prepSeq (ReadsProcessor.new k fwMem1 rvMem1) sequence1 pos1 = Except.ok none
          ↔ prepSeq (ReadsProcessor.new k fwMem2 rvMem2) sequence2 pos2 = Except.ok none)
      ∧ ∀ buf, prepSeq (ReadsProcessor.new k fwMem1 rvMem1) sequence1 pos1
            = Except.ok (some buf) →
          prepSeq (ReadsProcessor.new k fwMem2 rvMem2) sequence2 pos2 = Except.ok (some buf)
            ∧ buf.length = (k + 3) / 4 := by
  have h1 := prepSeq_eq_prepSpec k fwMem1 rvMem1 sequence1 pos1 hk hlen1
  have h2 := prepSeq_eq_prepSpec k fwMem2 rvMem2 sequence2 pos2 hk hlen2
  have heq : prepSeq (ReadsProcessor.new k fwMem1 rvMem1) sequence1 pos1
      = prepSeq (ReadsProcessor.new k fwMem2 rvMem2) sequence2 pos2 := by
    rw [h1, h2, hwin]
  refine ⟨heq, by rw [heq], ?_⟩
  intro buf hbuf
  refine ⟨by rw [← heq]; exact hbuf, ?_⟩
  rw [h1] at hbuf
  have := prepSpec_length _ _ hbuf
  rw [window_length _ _ _ hlen1] at this
  exact this

set_option maxRecDepth 100000 in
/-- Example: `k = 5`, window `TTGTA` at position 2 of `xxTTGTAyy` and at
position 0 of `TTGTA`, with different prior buffer contents. -/
theorem prepSeq_stateless_witness :
    3 < 5 ∧ 2 + 5 ≤ ([120, 120, 84, 84, 71, 84, 65, 121, 121] : List Byte).length
      ∧ 0 + 5 ≤ ([84, 84, 71, 84, 65] : List Byte).length
      ∧ window [120, 120, 84, 84, 71, 84, 65, 121, 121] 2 5 = window [84, 84, 71, 84, 65] 0 5
      ∧ prepSeq (ReadsProcessor.new 5 (fun _ => 7) (fun _ => 9))
          [120, 120, 84, 84, 71, 84, 65, 121, 121] 2
        = prepSeq (ReadsProcessor.new 5 (fun i => i + 1) (fun _ => 255)) [84, 84, 71, 84, 65] 0 :=
  ⟨by decide, by decide, by decide, by decide,
    (prepSeq_stateless 5 (fun _ => 7) (fun _ => 9) (fun i => i + 1) (fun _ => 255)
      [120, 120, 84, 84, 71, 84, 65, 121, 121] [84, 84, 71, 84, 65] 2 0
      (by decide) (by decide) (by decide) (by decide)).1⟩

theorem lexLt_lexMin (a b : List Nat) (hl : a.length = b.length) :
    (lexMin a b = a ∨ lexMin a b = b)
      ∧ lexLt a (lexMin a b) = false ∧ lexLt b (lexMin a b) = false := by
  have hirr : ∀ x : List Nat, lexLt x x = false := by
    intro x
    rcases lexLt_tri x x rfl with h | h | h
    · rw [h.1] at h; exact absurd h.2 (by simp)
    · exact h.2.1
    · rw [h.1] at h; exact absurd h.2 (by simp)
  unfold lexMin
  rcases lexLt_tri a b hl with h | h | h
  · rw [if_neg (by rw [h.2]; simp)]
    exact ⟨Or.inl rfl, hirr a, h.2⟩
  · rw [if_neg (by rw [h.2.2]; simp)]
    exact ⟨Or.inl rfl, hirr a, h.2.2⟩
  · rw [if_pos h.1]
    exact ⟨Or.inr rfl, h.2, hirr b⟩

/-- In a window of odd length the middle base is compared with its own
complement, whose code is a different one. -/
theorem middle_digit_ne (w : List Byte) (hodd : w.length % 2 = 1)
    (hvalid : ∀ t, t < w.length → validAt w t = true) :
    digit (reverseComplement w) ((w.length - 1) / 2) = 3 - digit w ((w.length - 1) / 2)
      ∧ digit w ((w.length - 1) / 2) ≠ digit (reverseComplement w) ((w.length - 1) / 2) := by
  have hm : (w.length - 1) / 2 < w.length := by omega
  have e : w.length - 1 - (w.length - 1) / 2 = (w.length - 1) / 2 := by omega
  have h := digit_reverseComplement w ((w.length - 1) / 2) hm (by rw [e]; exact hvalid _ hm)
  rw [e] at h
  have hd := digit_eq w ((w.length - 1) / 2) hm
  have hlt := baseCode_lt (w.getD ((w.length - 1) / 2) 0)
  constructor
  · rw [h, hd]
  · rw [h, hd]; omega

/-- C29: for every odd `k > 3` and every all-ACGT window, the middle base and
its complement have different codes, the forward and reverse-complement
packings differ at a byte index `c < ceil(k/8)`, `prepSeq` leaves its main
loop at that byte by the forward or the reverse branch and never by the end
of the loop, so the palindromic tail is not reached, and the value returned
is the full `ceil(k/4)`-byte packing of the byte-wise smaller strand. -/
theorem prepSeq_odd (k : Nat) (fwMem rvMem : Nat → Nat) (sequence : List Byte)
    (pos : Nat) (hk : 3 < k) (hodd : k % 2 = 1) (hlen : pos + k ≤ sequence.length)
    (hvalid : ∀ c, c ∈ window sequence pos k → isACGT c = true) :
    digit (window sequence pos k) ((k - 1) / 2)
        ≠ digit (reverseComplement (window sequence pos k)) ((k - 1) / 2)
      ∧ ∃ c buf idx, c < (k + 7) / 8
        ∧ (pack (window sequence pos k)).getD c 0
            ≠ (pack (reverseComplement (window sequence pos k))).getD c 0
        ∧ (prepSeqExit (ReadsProcessor.new k fwMem rvMem) sequence pos
              = Except.ok (LoopExit.forward buf idx c)
            ∨ prepSeqExit (ReadsProcessor.new k fwMem rvMem) sequence pos
              = Except.ok (LoopExit.reverse buf idx c))
        ∧ (∀ fw index outputIndex,
            prepSeqExit (ReadsProcessor.new k fwMem rvMem) sequence pos
              ≠ Except.ok (LoopExit.palindromic fw index outputIndex))
        ∧ prepSeq (ReadsProcessor.new k fwMem rvMem) sequence pos
            = Except.ok (some (canonical (window sequence pos k)))
        ∧ (canonical (window sequence pos k) = pack (window sequence pos k)
            ∨ canonical (window sequence pos k)
              = pack (reverseComplement (window sequence pos k)))
        ∧ lexLt (pack (window sequence pos k)) (canonical (window sequence pos k)) = false
        ∧ lexLt (pack (reverseComplement (window sequence pos k)))
            (canonical (window sequence pos k)) = false
        ∧ (canonical (window sequence pos k)).length = (k + 3) / 4 := by
  have hwl : (window sequence pos k).length = k := window_length _ _ _ hlen
  have hv : ∀ t, t < (window sequence pos k).length →
      validAt (window sequence pos k) t = true := (mem_window_iff _).mp hvalid
  have hne : pack (window sequence pos k)
      ≠ pack (reverseComplement (window sequence pos k)) := by
    intro h
    have := even_of_pack_eq _ hv h
    omega
  have hmid := (middle_digit_ne (window sequence pos k) (by rw [hwl]; exact hodd) hv).2
  rw [hwl] at hmid
  obtain ⟨c, buf, idx, hc, _, hdiff, hexit, hret, hlenc⟩ :=
    prepSeq_commit k fwMem rvMem sequence pos hk hlen hvalid hne
  have hmin := lexLt_lexMin (pack (window sequence pos k))
    (pack (reverseComplement (window sequence pos k)))
    (by rw [pack_length, pack_length, reverseComplement_length])
  refine ⟨hmid, c, buf, idx, hc, hdiff, ?_, ?_, hret, hmin.1, hmin.2.1, hmin.2.2, hlenc⟩
  · rw [hexit]
    by_cases hlt : (pack (window sequence pos k)).getD c 0
        < (pack (reverseComplement (window sequence pos k))).getD c 0
    · rw [if_pos hlt]; exact Or.inl rfl
    · rw [if_neg hlt]; exact Or.inr rfl
  · intro fw index outputIndex
    rw [hexit]
    intro h
    split at h <;> cases h

set_option maxRecDepth 100000 in
/-- C29 (witness): `k = 5`, window `TTGTA` at position 2 of `xxTTGTAyy`. -/
theorem prepSeq_odd_witness :
    3 < 5 ∧ 5 % 2 = 1 ∧ 2 + 5 ≤ ([120, 120, 84, 84, 71, 84, 65, 121, 121] : List Byte).length
      ∧ prepSeq (ReadsProcessor.new 5 (fun _ => 7) (fun _ => 9))
          [120, 120, 84, 84, 71, 84, 65, 121, 121] 2
        = Except.ok (some (canonical (window [120, 120, 84, 84, 71, 84, 65, 121, 121] 2 5))) := by
  obtain ⟨_, _, _, _, _, _, _, _, h, _⟩ :=
    prepSeq_odd 5 (fun _ => 7) (fun _ => 9) [120, 120, 84, 84, 71, 84, 65, 121, 121] 2
      (by decide) (by decide) (by decide) (by decide)
  exact ⟨by decide, by decide, by decide, h⟩

/-! ## Theorems: the best score and the number of best hits -/

/-- The first loop of `evaluateReadBestHit` ends with the largest of `0` and
the scores in `maxScore`, and with the filters that attain it, in ascending
order, in `bestFilters`. -/
theorem bestHitScan_eq (evalSingleScore : Nat → ℚ) (size : Nat) :
    ∀ (fuel : Nat) (bestFilters : List Nat) (maxScore : ℚ) (i : Nat), i + fuel = size →
      0 ≤ maxScore →
      (∀ j, j < i → evalSingleScore j ≤ maxScore) →
      (maxScore = 0 ∨ ∃ j, j < i ∧ evalSingleScore j = maxScore) →
      bestFilters = (List.range i).filter (fun j => decide (evalSingleScore j = maxScore)) →
      ∃ m, bestHitScan evalSingleScore size fuel bestFilters maxScore i
          = Except.ok ((List.range size).filter (fun j => decide (evalSingleScore j = m)), m)
        ∧ 0 ≤ m ∧ (∀ j, j < size → evalSingleScore j ≤ m)
        ∧ (m = 0 ∨ ∃ j, j < size ∧ evalSingleScore j = m) := by
  intro fuel
  induction fuel with
  | zero =>
    intro bestFilters maxScore i hi h0 hub hatt hbest
    have : i = size := by omega
    subst this
    unfold bestHitScan
    rw [if_neg (by simp)]
    exact ⟨maxScore, by rw [hbest]; rfl, h0, hub, hatt⟩
  | succ f ih =>
    intro bestFilters maxScore i hi h0 hub hatt hbest
    unfold bestHitScan
    rw [if_pos (by omega)]
    simp only []
    by_cases hlt : maxScore < evalSingleScore i
    · rw [if_pos hlt]
      apply ih [i] (evalSingleScore i) (i + 1) (by omega) (le_of_lt (lt_of_le_of_lt h0 hlt))
      · intro j hj
        by_cases hji : j = i
        · subst hji; exact le_refl _
        · exact le_of_lt (lt_of_le_of_lt (hub j (by omega)) hlt)
      · exact Or.inr ⟨i, by omega, rfl⟩
      · rw [List.range_succ, List.filter_append]
        have hnil : (List.range i).filter
            (fun j => decide (evalSingleScore j = evalSingleScore i)) = [] := by
          rw [List.filter_eq_nil_iff]
          intro j hj
          rw [List.mem_range] at hj
          have := hub j hj
          simp only [decide_eq_true_eq]
          intro hj2
          rw [hj2] at this
          exact absurd hlt (not_lt.mpr this)
        rw [hnil]
        simp
    · rw [if_neg hlt]
      by_cases heq : maxScore = evalSingleScore i
      · rw [if_pos heq]
        apply ih (bestFilters ++ [i]) maxScore (i + 1) (by omega) h0
        · intro j hj
          by_cases hji : j = i
          · subst hji; exact le_of_eq heq.symm
          · exact hub j (by omega)
        · exact Or.inr ⟨i, by omega, heq.symm⟩
        · rw [List.range_succ, List.filter_append, hbest]
          simp [heq]
      · rw [if_neg heq]
        apply ih bestFilters maxScore (i + 1) (by omega) h0
        · intro j hj
          by_cases hji : j = i
          · subst hji; exact not_lt.mp hlt
          · exact hub j (by omega)
        · rcases hatt with h | ⟨j, hj, hj2⟩
          · exact Or.inl h
          · exact Or.inr ⟨j, by omega, hj2⟩
        · rw [List.range_succ, List.filter_append, hbest]
          have : ¬ evalSingleScore i = maxScore := fun h => heq h.symm
          simp [this]

/-- C30: with non-negative scores `evalSingleScore i` for the `size` loaded
filters, `evaluateReadBestHit` returns the maximum of the scores (`0` when
there are no filters), and the number of indices it appends to `hits` is the
number of filters attaining that maximum when the maximum is positive and
zero otherwise; so a read ends with 0, 1 or at least 2 hits exactly when 0, 1
or at least 2 filters tie for a positive best score. -/
theorem evaluateReadBestHit_count (evalSingleScore : Nat → ℚ) (size : Nat)
    (hits : List Nat) (scores : List ℚ)
    (hnn : ∀ i, i < size → 0 ≤ evalSingleScore i) :
    ∃ maxScore appended appendedScores,
      evaluateReadBestHit evalSingleScore size hits scores
          = Except.ok (maxScore, hits ++ appended, scores ++ appendedScores)
        ∧ (∀ i, i < size → evalSingleScore i ≤ maxScore)
        ∧ (size = 0 → maxScore = 0)
        ∧ (0 < size → ∃ i, i < size ∧ evalSingleScore i = maxScore)
        ∧ appended.length
          = (if 0 < maxScore then
              ((List.range size).filter
                (fun i => decide (evalSingleScore i = maxScore))).length
            else 0)
        ∧ appendedScores.length = appended.length := by
  obtain ⟨m, hscan, h0, hub, hatt⟩ := bestHitScan_eq evalSingleScore size size [] 0 0
    (by omega) (le_refl _) (fun j hj => by omega) (Or.inl rfl) (by simp)
  have hzero : size = 0 → m = 0 := by
    intro hs
    rcases hatt with h | ⟨j, hj, _⟩
    · exact h
    · omega
  have hpos : 0 < size → ∃ i, i < size ∧ evalSingleScore i = m := by
    intro hs
    rcases hatt with h | h
    · refine ⟨0, hs, ?_⟩
      rw [h]
      exact le_antisymm (by rw [← h]; exact hub 0 hs) (hnn 0 hs)
    · exact h
  unfold evaluateReadBestHit
  rw [hscan]
  simp only [bind, Except.bind]
  by_cases hm : m > 0
  · rw [if_pos hm]
    rw [bestHitEmit_eq _ m _ hits scores 0 (by omega)]
    simp only [pure, Except.pure]
    refine ⟨m, _, _, rfl, hub, hzero, hpos, ?_, ?_⟩
    · rw [if_pos hm]; simp
    · simp
  · rw [if_neg hm]
    refine ⟨m, [], [], by simp [pure, Except.pure], hub, hzero, hpos, ?_, rfl⟩
    rw [if_neg hm]
    rfl

/-- C30 (witness): three filters with scores `1/2`, `1/10`, `1/2`: the
maximum `1/2` is returned and two indices are appended. -/
theorem evaluateReadBestHit_count_witness :
    (∀ i, i < 3 → (0 : ℚ) ≤ (fun i => if i = 1 then (1 / 10 : ℚ) else 1 / 2) i)
      ∧ ∃ maxScore appended appendedScores,
        evaluateReadBestHit (fun i => if i = 1 then (1 / 10 : ℚ) else 1 / 2) 3 [] []
            = Except.ok (maxScore, [] ++ appended, [] ++ appendedScores)
          ∧ (∀ i, i < 3 → (fun i => if i = 1 then (1 / 10 : ℚ) else 1 / 2) i ≤ maxScore)
          ∧ (3 = 0 → maxScore = 0)
          ∧ (0 < 3 → ∃ i, i < 3 ∧ (fun i => if i = 1 then (1 / 10 : ℚ) else 1 / 2) i = maxScore)
          ∧ appended.length
            = (if 0 < maxScore then
                ((List.range 3).filter
                  (fun i => decide ((fun i => if i = 1 then (1 / 10 : ℚ) else 1 / 2) i
                    = maxScore))).length
              else 0)
          ∧ appendedScores.length = appended.length :=
  ⟨fun i _ => by
      by_cases h : i = 1
      · simp only [h, if_true]; norm_num
      · simp only [h, if_false]; norm_num,
    evaluateReadBestHit_count (fun i => if i = 1 then (1 / 10 : ℚ) else 1 / 2) 3 [] []
      (fun i _ => by
        by_cases h : i = 1
        · simp only [h, if_true]; norm_num
        · simp only [h, if_false]; norm_num)⟩

/-! ## Theorems: round trip on windows that are their own reverse complement -/

set_option maxRecDepth 100000 in
/-- C2 (failing input): `k = 6` and the read `AAATTT`, of exactly length `k`
and made of the characters `A` and `T` only, at position 0. `prepSeq` does not
yield a k-mer: both strands pack to `3` in byte 0, the palindromic path is
taken, and its store `fw[outputIndex] |= fw0[sequence[lastPos]]` is made at
index `2` of the two-byte buffer; no value, `NULL` or buffer, is returned. -/
theorem prepSeq_no_kmer :
    3 < 6 ∧ 0 + 6 ≤ ([65, 65, 65, 84, 84, 84] : List Byte).length
    ∧ ([65, 65, 65, 84, 84, 84] : List Byte).length = 6
    ∧ (window [65, 65, 65, 84, 84, 84] 0 6).all isACGT = true
    ∧ prepSeq (ReadsProcessor.new 6 (fun _ => 0) (fun _ => 0))
        [65, 65, 65, 84, 84, 84] 0 = Except.error Fault.outOfBounds
    ∧ (∀ buf, prepSeq (ReadsProcessor.new 6 (fun _ => 0) (fun _ => 0))
        [65, 65, 65, 84, 84, 84] 0 ≠ Except.ok (some buf))
    ∧ prepSeq (ReadsProcessor.new 6 (fun _ => 0) (fun _ => 0))
        [65, 65, 65, 84, 84, 84] 0 ≠ Except.ok none := by
  have h : prepSeq (ReadsProcessor.new 6 (fun _ => 0) (fun _ => 0))
      [65, 65, 65, 84, 84, 84] 0 = Except.error Fault.outOfBounds := by decide
  refine ⟨by decide, by decide, by decide, by decide, h, ?_, ?_⟩
  · intro buf hb
    rw [h] at hb
    cases hb
  · intro hb
    rw [h] at hb
    cases hb

set_option maxRecDepth 100000 in
/-- C3 (failing input): `k = 6`, `S = AAATTTC`, `p = 0`. The reverse complement
of `S` is `GAAATTT` and `len(S) - p - k = 1`; both calls see the window
`AAATTT`, take the palindromic path and store at index `2` of the two-byte
buffer: neither call returns a buffer, so there are no two buffers to be
equal. -/
theorem prepSeq_reverseComplement_no_buffer :
    3 < 6 ∧ 0 + 6 ≤ ([65, 65, 65, 84, 84, 84, 67] : List Byte).length
    ∧ ([65, 65, 65, 84, 84, 84, 67] : List Byte).all isACGT = true
    ∧ reverseComplement [65, 65, 65, 84, 84, 84, 67] = [71, 65, 65, 65, 84, 84, 84]
    ∧ ([65, 65, 65, 84, 84, 84, 67] : List Byte).length - 0 - 6 = 1
    ∧ window [65, 65, 65, 84, 84, 84, 67] 0 6 = [65, 65, 65, 84, 84, 84]
    ∧ window (reverseComplement [65, 65, 65, 84, 84, 84, 67]) 1 6 = [65, 65, 65, 84, 84, 84]
    ∧ prepSeq (ReadsProcessor.new 6 (fun _ => 0) (fun _ => 0))
        [65, 65, 65, 84, 84, 84, 67] 0 = Except.error Fault.outOfBounds
    ∧ prepSeq (ReadsProcessor.new 6 (fun _ => 0) (fun _ => 0))
        (reverseComplement [65, 65, 65, 84, 84, 84, 67]) 1 = Except.error Fault.outOfBounds
    ∧ (∀ buf, prepSeq (ReadsProcessor.new 6 (fun _ => 0) (fun _ => 0))
        [65, 65, 65, 84, 84, 84, 67] 0 ≠ Except.ok (some buf))
    ∧ (∀ buf, prepSeq (ReadsProcessor.new 6 (fun _ => 0) (fun _ => 0))
        (reverseComplement [65, 65, 65, 84, 84, 84, 67]) 1 ≠ Except.ok (some buf)) := by
  have h1 : prepSeq (ReadsProcessor.new 6 (fun _ => 0) (fun _ => 0))
      [65, 65, 65, 84, 84, 84, 67] 0 = Except.error Fault.outOfBounds := by decide
  have h2 : prepSeq (ReadsProcessor.new 6 (fun _ => 0) (fun _ => 0))
      (reverseComplement [65, 65, 65, 84, 84, 84, 67]) 1
      = Except.error Fault.outOfBounds := by decide
  refine ⟨by decide, by decide, by decide, by decide, by decide, by decide, by decide,
    h1, h2, ?_, ?_⟩
  · intro buf hb
    rw [h1] at hb
    cases hb
  · intro buf hb
    rw [h2] at hb
    cases hb

set_option maxRecDepth 100000 in
/-- C28 (failing input): `k = 6`, the window `AAATTT` at position 0 of `AAATTT`
with the scratch buffers holding zeros, and at position 1 of `CAAATTT` with
the scratch buffers holding `0xFF`. Both calls take the palindromic path and
execute `fw[outputIndex] |= fw0[sequence[lastPos]]` at index `2` of the
two-byte buffer, reading and writing a byte that is not part of the buffer
and that `memset(fw, 0, kmerSizeInBytes)` has not cleared; neither call has a
`NULL` or non-`NULL` outcome. -/
theorem prepSeq_stateless_no_outcome :
    3 < 6 ∧ 0 + 6 ≤ ([65, 65, 65, 84, 84, 84] : List Byte).length
    ∧ 1 + 6 ≤ ([67, 65, 65, 65, 84, 84, 84] : List Byte).length
    ∧ window [65, 65, 65, 84, 84, 84] 0 6 = window [67, 65, 65, 65, 84, 84, 84] 1 6
    ∧ (ReadsProcessor.new 6 (fun _ => 0) (fun _ => 0)).fw = [0, 0]
    ∧ (ReadsProcessor.new 6 (fun _ => 255) (fun _ => 255)).fw = [255, 255]
    ∧ prepSeqExit (ReadsProcessor.new 6 (fun _ => 0) (fun _ => 0))
        [65, 65, 65, 84, 84, 84] 0 = Except.ok (LoopExit.palindromic [3, 0] 4 1)
    ∧ prepSeqExit (ReadsProcessor.new 6 (fun _ => 255) (fun _ => 255))
        [67, 65, 65, 65, 84, 84, 84] 1 = Except.ok (LoopExit.palindromic [3, 0] 5 1)
    ∧ readAt [3, 0] (1 + 1) = Except.error Fault.outOfBounds
    ∧ prepSeq (ReadsProcessor.new 6 (fun _ => 0) (fun _ => 0))
        [65, 65, 65, 84, 84, 84] 0 = Except.error Fault.outOfBounds
    ∧ prepSeq (ReadsProcessor.new 6 (fun _ => 255) (fun _ => 255))
        [67, 65, 65, 65, 84, 84, 84] 1 = Except.error Fault.outOfBounds
    ∧ (∀ r, prepSeq (ReadsProcessor.new 6 (fun _ => 0) (fun _ => 0))
        [65, 65, 65, 84, 84, 84] 0 ≠ Except.ok r)
    ∧ (∀ r, prepSeq (ReadsProcessor.new 6 (fun _ => 255) (fun _ => 255))
        [67, 65, 65, 65, 84, 84, 84] 1 ≠ Except.ok r) := by
  have h1 : prepSeq (ReadsProcessor.new 6 (fun _ => 0) (fun _ => 0))
      [65, 65, 65, 84, 84, 84] 0 = Except.error Fault.outOfBounds := by decide
  have h2 : prepSeq (ReadsProcessor.new 6 (fun _ => 255) (fun _ => 255))
      [67, 65, 65, 65, 84, 84, 84] 1 = Except.error Fault.outOfBounds := by decide
  refine ⟨by decide, by decide, by decide, by decide, by decide, by decide, by decide,
    by decide, by decide, h1, h2, ?_, ?_⟩
  · intro r hb
    rw [h1] at hb
    cases hb
  · intro r hb
    rw [h2] at hb
    cases hb

end BioBloom
